import Mathlib

/-!
# Constellarix: graph store, crawl scheduler, link extraction and layout forces

A shallow embedding of `src/graph.h`, `src/graph.cpp`, the crawl
orchestration functions of `main.cpp` (`fetchNode`, `activateNode`,
`processPendingLinks`, the URL submission, deletion and clear commands),
`html_parser.cpp` (`normalizeUrl`, `extractLinks`) and `physics.cpp`
(`Physics::update`).

Modelling conventions.

* C++ `int` indices are `Int`; the range checks of the source are kept as they
  are written (`idx < 0 || idx >= (int)nodes.size()`).
* `std::vector<T>` is `List T`; `nodes[i]` for a checked index `i` is the
  element at position `i.toNat`.
* `float` values are exact rationals (`Rat`): the constants `4.5f`, `0.4f`,
  `0.0f` are the rationals `9/2`, `2/5`, `0`, and arithmetic is exact.
* `glm::vec3` is a triple of rationals.
* `std::unordered_map<int, std::queue<std::string>>` is an association list
  with at most one entry per key; `std::queue<std::string>` is a `List String`
  whose head is the front of the queue.
* The `HttpClient` is represented by the list of requests it still holds; each
  request records what its completion callback captured (`nodeIdx`, `url`).
* The iteration order of the map is the order of the association list. The values
  of `randomOffset(6.0f)` are supplied by a function of the parent key, one
  function per `processPendingLinks` call.
* `std::log` and `extractLinks` are parameters of the completion callback (`Env`).
* In the link extraction a `std::string` is a `List Char`, `npos` is `none`, and the
  matches of the regular expression are given by a parameter.
* The function `glm::length` is a parameter of the layout step; concrete runs place the
  nodes on a coordinate axis, where the length is the absolute value of the coordinate.
-/

namespace Constellarix

/-! ## Data model (`graph.h`) -/

/-- A `glm::vec3` with exact rational components. -/
structure Vec3 where
  x : Rat
  y : Rat
  z : Rat
deriving DecidableEq, Repr

namespace Vec3

/-- The vector `glm::vec3(0.0f)`. -/
def zero : Vec3 := ⟨0, 0, 0⟩

/-- Component-wise sum, `a + b`. -/
def add (a b : Vec3) : Vec3 := ⟨a.x + b.x, a.y + b.y, a.z + b.z⟩

/-- Component-wise difference, `a - b`. -/
def sub (a b : Vec3) : Vec3 := ⟨a.x - b.x, a.y - b.y, a.z - b.z⟩

/-- Scaling by a scalar, `v * t`. -/
def scale (v : Vec3) (t : Rat) : Vec3 := ⟨v.x * t, v.y * t, v.z * t⟩

/-- The dot product `glm::dot(a, b)`. -/
def dot (a b : Vec3) : Rat := a.x * b.x + a.y * b.y + a.z * b.z

end Vec3

/-- The enumeration `NodeStatus`. -/
inductive NodeStatus where
  | Pending
  | Success
  | Error
deriving DecidableEq, Repr

/-- The struct `Node`, field for field. -/
structure Node where
  position : Vec3
  velocity : Vec3
  url : String
  httpCode : Int
  links : List String
  childIndices : List Int
  parentIndex : Int
  size : Rat
  targetSize : Rat
  fadeIn : Rat
  status : NodeStatus
  expanded : Bool
  fetching : Bool
  pinned : Bool
deriving DecidableEq, Repr

/-- The struct `Edge`; `from_` and `to_` are the C++ members `from` and `to`. -/
structure Edge where
  from_ : Int
  to_ : Int
  restLength : Rat
  fadeIn : Rat
deriving DecidableEq, Repr

/-- The class `Graph`: its two public vectors. -/
structure Graph where
  nodes : List Node
  edges : List Edge
deriving DecidableEq, Repr

namespace Graph

/-- A default-constructed `Graph`. -/
def empty : Graph := ⟨[], []⟩

/-- The node `Graph::addNode` builds: the member defaults of `Node` with `url`
and `position` assigned. -/
def newNode (url : String) (pos : Vec3) : Node :=
  { position := pos, velocity := Vec3.zero, url := url, httpCode := 0, links := [],
    childIndices := [], parentIndex := -1, size := 2/5, targetSize := 2/5, fadeIn := 0,
    status := NodeStatus.Pending, expanded := false, fetching := false, pinned := false }

/-- The function `Graph::addNode`: push a fresh node and return `nodes.size() - 1`. -/
def addNode (g : Graph) (url : String) (pos : Vec3) : Graph × Int :=
  let nodes := g.nodes ++ [newNode url pos]
  ({ g with nodes := nodes }, (nodes.length : Int) - 1)

/-- The function `Graph::hasEdge`: is there an edge between the two indices, in either
direction. -/
def hasEdge (g : Graph) (from_ to_ : Int) : Bool :=
  g.edges.any fun e =>
    (e.from_ == from_ && e.to_ == to_) || (e.from_ == to_ && e.to_ == from_)

/-- The function `Graph::addEdge`. -/
def addEdge (g : Graph) (from_ to_ : Int) : Graph :=
  if from_ = to_ then g
  else if from_ < 0 ∨ from_ ≥ (g.nodes.length : Int) then g
  else if to_ < 0 ∨ to_ ≥ (g.nodes.length : Int) then g
  else if g.hasEdge from_ to_ then g
  else
    { nodes := List.modify (fun n => { n with childIndices := n.childIndices ++ [to_] })
        from_.toNat g.nodes,
      edges := g.edges ++ [{ from_ := from_, to_ := to_, restLength := 9/2, fadeIn := 0 }] }

/-- The loop of `Graph::findNodeByUrl` from index `i` on. -/
def findNodeByUrlFrom (url : String) : List Node → Nat → Int
  | [], _ => -1
  | n :: rest, i => if n.url = url then (i : Int) else findNodeByUrlFrom url rest (i + 1)

/-- The function `Graph::findNodeByUrl`: the first index holding `url`, or `-1`. -/
def findNodeByUrl (g : Graph) (url : String) : Int :=
  findNodeByUrlFrom url g.nodes 0

/-- The index shift of `Graph::deleteNode`: `if (i > idx) i--`. -/
def shiftIndex (idx i : Int) : Int := if i > idx then i - 1 else i

/-- The function `Graph::deleteNode`. -/
def deleteNode (g : Graph) (idx : Int) : Graph :=
  if idx < 0 ∨ idx ≥ (g.nodes.length : Int) then g
  else
    let edges := g.edges.filter fun e => !(e.from_ == idx || e.to_ == idx)
    let edges := edges.map fun e =>
      { e with from_ := shiftIndex idx e.from_, to_ := shiftIndex idx e.to_ }
    let nodes := g.nodes.map fun n =>
      { n with childIndices :=
          (n.childIndices.filter fun i => !(i == idx)).map (shiftIndex idx) }
    { nodes := nodes.eraseIdx idx.toNat, edges := edges }

/-- The function `Graph::clear`. -/
def clear (_g : Graph) : Graph := { nodes := [], edges := [] }

end Graph

/-! ## Ray casting (`Graph::raycast`) -/

/-- The comparison `glm::length(v) < r`. Over exact arithmetic the Euclidean length of
`v` is below `r` exactly when `r` is positive and the squared length is below `r * r`. -/
def lengthLt (v : Vec3) (r : Rat) : Prop := 0 < r ∧ Vec3.dot v v < r * r

instance (v : Vec3) (r : Rat) : Decidable (lengthLt v r) := by
  unfold lengthLt
  exact inferInstance

namespace Graph

/-- The loop of `Graph::raycast` over the nodes from index `i` on, with the current
values of the locals `closest` and `closestDist`. -/
def raycastFrom (origin dir : Vec3) : List Node → Nat → Int → Rat → Int
  | [], _, closest, _ => closest
  | n :: rest, i, closest, closestDist =>
    let toNode := n.position.sub origin
    let t := Vec3.dot toNode dir
    if t < 0 then raycastFrom origin dir rest (i + 1) closest closestDist
    else
      let closestPoint := origin.add (dir.scale t)
      let radius := n.size * (1 / 2)
      if lengthLt (n.position.sub closestPoint) radius ∧ t < closestDist then
        raycastFrom origin dir rest (i + 1) (i : Int) t
      else raycastFrom origin dir rest (i + 1) closest closestDist

/-- The function `Graph::raycast`. -/
def raycast (g : Graph) (origin dir : Vec3) (maxDist : Rat) : Int :=
  raycastFrom origin dir g.nodes 0 (-1) maxDist

end Graph

/-- The ray parameter of a node: `t = dot(position − origin, dir)`. -/
def rayParam (origin dir : Vec3) (n : Node) : Rat :=
  Vec3.dot (n.position.sub origin) dir

/-- A node qualifies for a ray: `0 ≤ t < maxDist` and the distance from its position to
`origin + dir·t` is less than half its size. -/
def Qualifies (origin dir : Vec3) (maxDist : Rat) (n : Node) : Prop :=
  0 ≤ rayParam origin dir n ∧ rayParam origin dir n < maxDist ∧
  lengthLt (n.position.sub (origin.add (dir.scale (rayParam origin dir n)))) (n.size / 2)

/-- A node at `pos` of visual size `size`, otherwise as `addNode` creates it. -/
def nodeAt (url : String) (pos : Vec3) (size : Rat) : Node :=
  { Graph.newNode url pos with size := size }

/-- Two nodes in front of a ray along the x axis from the origin: the first is wide and
off the axis with ray parameter 5, the second sits on the axis with ray parameter 11/2. -/
def rayScene : Graph :=
  { nodes := [nodeAt "wide" ⟨5, 3, 0⟩ 8, nodeAt "near" ⟨11/2, 0, 0⟩ (2/5)], edges := [] }

/-! ## Crawl orchestration (`main.cpp`) -/

/-- The struct `HttpResponse`. -/
structure HttpResponse where
  statusCode : Int
  body : String
  error : String
deriving DecidableEq, Repr

/-- A request held by the `HttpClient`: the values its completion callback captured in
`fetchNode` (`[graphPtr, nodeIdx, url]`; the graph pointer is the one global graph). -/
structure Request where
  nodeIdx : Int
  url : String
deriving DecidableEq, Repr

/-- Functions the completion callback calls and that are not part of the scheduler:
`std::log` on floats and `extractLinks` of `html_parser.cpp`. The scheduler uses them only
through their results, so its definitions take them as parameters. -/
structure Env where
  logf : Rat → Rat
  extractLinks : String → String → List String

/-- The state the functions of `main.cpp` work on: the graph, the global
`pendingLinksPerNode` and `linkSpawnTimer`, and the requests the `HttpClient` holds. -/
structure App where
  graph : Graph
  pendingLinksPerNode : List (Int × List String)
  linkSpawnTimer : Rat
  http : List Request
deriving DecidableEq, Repr

/-- The state at program start: empty graph, no queue, timer `0.0f`, no request. -/
def App.init : App :=
  { graph := Graph.empty, pendingLinksPerNode := [], linkSpawnTimer := 0, http := [] }

/-- The lookup `pendingLinksPerNode.find(k)`: the queue stored under key `k`, if any. -/
def queueOf : List (Int × List String) → Int → Option (List String)
  | [], _ => none
  | (k0, q) :: rest, k => if k0 = k then some q else queueOf rest k

/-- The call `pendingLinksPerNode.erase(k)`. -/
def eraseQueue (m : List (Int × List String)) (k : Int) : List (Int × List String) :=
  m.filter fun p => !(p.1 == k)

/-- The statements
`auto& queue = pendingLinksPerNode[k]; for (link : links) queue.push(link);`:
`operator[]` finds the entry of `k` or inserts an empty queue, then the links are pushed
at the back in order. -/
def pushLinks : List (Int × List String) → Int → List String → List (Int × List String)
  | [], k, links => [(k, links)]
  | (k0, q) :: rest, k, links =>
    if k0 = k then (k0, q ++ links) :: rest else (k0, q) :: pushLinks rest k links

/-- The function `fetchNode`: unless the index is out of range or the node is already fetching, set
`fetching` and hand a request for the node's URL to the `HttpClient`. -/
def fetchNode (s : App) (nodeIdx : Int) : App :=
  if nodeIdx < 0 ∨ nodeIdx ≥ (s.graph.nodes.length : Int) then s
  else
    match s.graph.nodes[nodeIdx.toNat]? with
    | none => s
    | some node =>
      if node.fetching then s
      else
        { s with
          graph := { s.graph with
            nodes := List.modify (fun n => { n with fetching := true }) nodeIdx.toNat
              s.graph.nodes },
          http := s.http ++ [{ nodeIdx := nodeIdx, url := node.url }] }

/-- The node update of the completion callback once validation has passed. -/
def completeNode (E : Env) (url : String) (resp : HttpResponse) (node : Node) : Node :=
  let node := { node with fetching := false }
  if resp.error ≠ "" ∨ resp.statusCode ≥ 400 then
    { node with
      status := NodeStatus.Error,
      httpCode := if resp.statusCode > 0 then resp.statusCode else -1 }
  else
    let links := E.extractLinks resp.body url
    let links := if links.length > 200 then links.take 200 else links
    let logSize := E.logf (1 + (links.length : Rat))
    { node with
      status := NodeStatus.Success,
      links := links,
      targetSize := 2/5 + 1/4 * logSize * (1 + logSize * (1/10)) }

/-- The completion callback passed to `fetchAsync` in `fetchNode`, with its captured
`nodeIdx` and `url`, run on the graph as it is at delivery time. -/
def onComplete (E : Env) (nodeIdx : Int) (url : String) (resp : HttpResponse)
    (graph : Graph) : Graph :=
  if nodeIdx < 0 ∨ nodeIdx ≥ (graph.nodes.length : Int) then graph
  else
    match graph.nodes[nodeIdx.toNat]? with
    | none => graph
    | some node =>
      if node.url ≠ url then graph
      else
        { graph with
          nodes := List.modify (completeNode E url resp) nodeIdx.toNat graph.nodes }

/-- The function `HttpClient::update` delivering the request at position `k` of its list with
response `resp`: the callback runs and the request is erased. -/
def deliver (E : Env) (s : App) (k : Nat) (resp : HttpResponse) : App :=
  match s.http[k]? with
  | none => s
  | some r =>
    { s with graph := onComplete E r.nodeIdx r.url resp s.graph, http := s.http.eraseIdx k }

/-- The function `activateNode`. -/
def activateNode (s : App) (nodeIdx : Int) : App :=
  if nodeIdx < 0 ∨ nodeIdx ≥ (s.graph.nodes.length : Int) then s
  else
    match s.graph.nodes[nodeIdx.toNat]? with
    | none => s
    | some node =>
      if node.status = NodeStatus.Pending then s
      else if node.status = NodeStatus.Error then
        fetchNode
          { s with
            graph := { s.graph with
              nodes := List.modify
                (fun n => { n with status := NodeStatus.Pending, fetching := false })
                nodeIdx.toNat s.graph.nodes } }
          nodeIdx
      else if node.expanded then s
      else
        { s with
          graph := { s.graph with
            nodes := List.modify (fun n => { n with expanded := true }) nodeIdx.toNat
              s.graph.nodes },
          pendingLinksPerNode := pushLinks s.pendingLinksPerNode nodeIdx node.links }

/-- The URL submission of the main loop, for the string `url` returned by
`consumeSubmittedUrl` and the spawn position: `addNode` then `fetchNode`. -/
def submitUrl (s : App) (url : String) (spawnPos : Vec3) : App :=
  let r := s.graph.addNode url spawnPos
  fetchNode { s with graph := r.1 } r.2

/-- The delete command of the main loop for the raycast result `selected`. -/
def deleteSelected (s : App) (selected : Int) : App :=
  if selected ≥ 0 then
    { s with
      pendingLinksPerNode := eraseQueue s.pendingLinksPerNode selected,
      graph := s.graph.deleteNode selected }
  else s

/-- The clear command of the main loop: `graph.clear(); pendingLinksPerNode.clear();`. -/
def clearAll (s : App) : App :=
  { s with graph := s.graph.clear, pendingLinksPerNode := [] }

/-! ### Throttled link expansion (`processPendingLinks`) -/

/-- The constant `linkSpawnDelay = 0.01f`. -/
def linkSpawnDelay : Rat := 1/100

/-- The constant `fadeSpeed = 3.0f`. -/
def fadeSpeed : Rat := 3

/-- The constant `sizeSpeed = 4.0f` of `processPendingLinks`. -/
def sizeSpeed : Rat := 4

/-- The fade-in update shared by nodes and edges:
`if (fadeIn < 1.0f) fadeIn = std::min(1.0f, fadeIn + fadeSpeed * dt);`. -/
def fadeStep (dt fadeIn : Rat) : Rat :=
  if fadeIn < 1 then min 1 (fadeIn + fadeSpeed * dt) else fadeIn

/-- The body of the node loop of `processPendingLinks`: fade-in and size interpolation. -/
def animateNode (dt : Rat) (n : Node) : Node :=
  let fadeIn := fadeStep dt n.fadeIn
  let diff := n.targetSize - n.size
  let size := if |diff| > 1/1000 then n.size + diff * sizeSpeed * dt else n.targetSize
  { n with fadeIn := fadeIn, size := size }

/-- The body of the edge loop of `processPendingLinks`. -/
def animateEdge (dt : Rat) (e : Edge) : Edge :=
  { e with fadeIn := fadeStep dt e.fadeIn }

/-- The call `queue.pop()` on the queue stored under key `k`. -/
def popQueue : List (Int × List String) → Int → List (Int × List String)
  | [], _ => []
  | (k0, q) :: rest, k =>
    if k0 = k then (k0, q.tail) :: rest else (k0, q) :: popQueue rest k

/-- The second half of the loop body of `processPendingLinks`, after the URL has been
popped: link `parentIdx` to the existing node with that URL, or create the node next to
the parent, link it and fetch it. The value `rnd parentIdx` is what `randomOffset(6.0f)`
returns in this iteration. -/
def serviceUrl (rnd : Int → Vec3) (s : App) (parentIdx : Int) (url : String) : App :=
  let existingIdx := s.graph.findNodeByUrl url
  if existingIdx ≥ 0 then
    { s with graph := s.graph.addEdge parentIdx existingIdx }
  else
    match s.graph.nodes[parentIdx.toNat]? with
    | none => s
    | some parent =>
      let r := s.graph.addNode url (parent.position.add (rnd parentIdx))
      fetchNode { s with graph := r.1.addEdge parentIdx r.2 } r.2

/-- One iteration of the `for (int parentIdx : parentKeys)` loop of
`processPendingLinks`. -/
def serviceQueue (rnd : Int → Vec3) (s : App) (parentIdx : Int) : App :=
  match queueOf s.pendingLinksPerNode parentIdx with
  | none => s
  | some [] => { s with pendingLinksPerNode := eraseQueue s.pendingLinksPerNode parentIdx }
  | some (url :: rest) =>
    if parentIdx < 0 ∨ parentIdx ≥ (s.graph.nodes.length : Int) then
      { s with pendingLinksPerNode := eraseQueue s.pendingLinksPerNode parentIdx }
    else
      let popped := popQueue s.pendingLinksPerNode parentIdx
      serviceUrl rnd
        { s with
          pendingLinksPerNode :=
            if rest.isEmpty then eraseQueue popped parentIdx else popped }
        parentIdx url

/-- One queue-service event: the keys of the map are copied into `parentKeys` and the
loop body runs once for each of them, in the iteration order of the map. -/
def serviceEvent (rnd : Int → Vec3) (s : App) : App :=
  (s.pendingLinksPerNode.map Prod.fst).foldl (serviceQueue rnd) s

/-- The function `processPendingLinks`, returning with the new state whether the call
reached the queue-service loop. -/
def processPendingLinksTraced (rnd : Int → Vec3) (s : App) (dt : Rat) : App × Bool :=
  let s : App :=
    { s with
      graph :=
        { nodes := s.graph.nodes.map (animateNode dt),
          edges := s.graph.edges.map (animateEdge dt) } }
  if s.pendingLinksPerNode.isEmpty then (s, false)
  else
    let s : App := { s with linkSpawnTimer := s.linkSpawnTimer + dt }
    if s.linkSpawnTimer < linkSpawnDelay then (s, false)
    else
      (serviceEvent rnd { s with linkSpawnTimer := s.linkSpawnTimer - linkSpawnDelay }, true)

/-- The function `processPendingLinks`. -/
def processPendingLinks (rnd : Int → Vec3) (s : App) (dt : Rat) : App :=
  (processPendingLinksTraced rnd s dt).1

/-! ### Runs of the program -/

/-- One step of the main loop that touches the crawl state: a URL submission, an
`activateNode` call, the delivery of a completion, a `processPendingLinks` call, the
delete command, or the clear command. -/
inductive Cmd where
  | submit (url : String) (spawnPos : Vec3)
  | activate (nodeIdx : Int)
  | complete (k : Nat) (resp : HttpResponse)
  | tick (rnd : Int → Vec3) (dt : Rat)
  | delete (selected : Int)
  | clear

/-- The effect of one step. -/
def Cmd.apply (E : Env) (s : App) : Cmd → App
  | Cmd.submit url spawnPos => submitUrl s url spawnPos
  | Cmd.activate nodeIdx => activateNode s nodeIdx
  | Cmd.complete k resp => deliver E s k resp
  | Cmd.tick rnd dt => processPendingLinks rnd s dt
  | Cmd.delete selected => deleteSelected s selected
  | Cmd.clear => clearAll s

/-- The state after a sequence of steps, left to right. -/
def run (E : Env) (s : App) (cmds : List Cmd) : App :=
  cmds.foldl (Cmd.apply E) s

/-- A response with HTTP status 200, empty body and no transport error. -/
def okResponse : HttpResponse := { statusCode := 200, body := "", error := "" }

/-- A response with HTTP status 404, empty body and no transport error. -/
def notFound : HttpResponse := { statusCode := 404, body := "", error := "" }

/-- The state after submitting `https://a.example` once from program start. -/
def oneSubmitted : App := submitUrl App.init "https://a.example" Vec3.zero

/-- Submit `https://a.example`, delete the node, submit the same URL again. Request 0
of the `HttpClient` is the one issued for the deleted node. -/
def resubmitted : App :=
  submitUrl (deleteSelected oneSubmitted 0) "https://a.example" Vec3.zero

/-- An environment for concrete instances: `logf` is the identity and `extractLinks`
finds no link. -/
def Env.sample : Env := { logf := fun x => x, extractLinks := fun _ _ => [] }

/-- A state with one node that was fetched successfully and holds two links, not yet
expanded. -/
def crawledState : App :=
  { graph :=
      { nodes := [{ Graph.newNode "https://a.example" Vec3.zero with
                    status := NodeStatus.Success,
                    links := ["https://b.example", "https://c.example"] }],
        edges := [] },
    pendingLinksPerNode := [], linkSpawnTimer := 0, http := [] }

/-- A state with one node whose fetch failed with status 404. -/
def failedState : App :=
  { graph :=
      { nodes := [{ Graph.newNode "https://a.example" Vec3.zero with
                    status := NodeStatus.Error, httpCode := 404 }],
        edges := [] },
    pendingLinksPerNode := [], linkSpawnTimer := 0, http := [] }

/-- Two expanded parents whose queues both start with the same URL; the second page
also links to itself. -/
def twoParents : App :=
  { graph :=
      { nodes := [{ Graph.newNode "https://a.example" Vec3.zero with
                    status := NodeStatus.Success, expanded := true,
                    links := ["https://x.example"] },
                  { Graph.newNode "https://b.example" Vec3.zero with
                    status := NodeStatus.Success, expanded := true,
                    links := ["https://x.example", "https://b.example"] }],
        edges := [] },
    pendingLinksPerNode :=
      [(0, ["https://x.example"]), (1, ["https://x.example", "https://b.example"])],
    linkSpawnTimer := 0, http := [] }

/-- Two expanded nodes at indices 0 and 1 whose queues are still stored under the keys
1 and 2 they had before the node at index 0 was deleted. Key 2 is not a valid index. -/
def staleQueues : App :=
  { graph :=
      { nodes := [{ Graph.newNode "https://b.example" Vec3.zero with
                    status := NodeStatus.Success, expanded := true,
                    links := ["https://x.example"] },
                  { Graph.newNode "https://c.example" Vec3.zero with
                    status := NodeStatus.Success, expanded := true,
                    links := ["https://y.example", "https://z.example"] }],
        edges := [] },
    pendingLinksPerNode :=
      [(1, ["https://x.example"]), (2, ["https://y.example", "https://z.example"])],
    linkSpawnTimer := 0, http := [] }

/-- Consecutive `processPendingLinks` calls, one per tick with its random offsets and its
duration `dt`: the final state and the number of calls that reached the queue-service
loop (the number of service events). -/
def runTicks : App → List ((Int → Vec3) × Rat) → App × Nat
  | s, [] => (s, 0)
  | s, t :: rest =>
    let r := processPendingLinksTraced t.1 s t.2
    let r' := runTicks r.1 rest
    (r'.1, (if r.2 then 1 else 0) + r'.2)

/-- The random offsets used in concrete runs. -/
def noOffset : Int → Vec3 := fun _ => Vec3.zero

/-- Three successfully fetched nodes `a`, `b`, `c`; only `b` holds a link. -/
def threeCrawled : App :=
  { graph :=
      { nodes := [{ Graph.newNode "https://a.example" Vec3.zero with
                    status := NodeStatus.Success },
                  { Graph.newNode "https://b.example" Vec3.zero with
                    status := NodeStatus.Success, links := ["https://x.example"] },
                  { Graph.newNode "https://c.example" Vec3.zero with
                    status := NodeStatus.Success }],
        edges := [] },
    pendingLinksPerNode := [], linkSpawnTimer := 0, http := [] }

/-- The state after `b` (index 1) was activated and then `a` (index 0) was deleted. -/
def activatedThenDeleted : App := deleteSelected (activateNode threeCrawled 1) 0

/-- The state after submitting `https://a.example` and `https://b.example` from program
start: two `Pending` nodes, two requests in flight. -/
def twoSubmitted : App :=
  submitUrl (submitUrl App.init "https://a.example" Vec3.zero) "https://b.example" Vec3.zero

/-- Every edge endpoint is below the node count. -/
def EdgesInRange (g : Graph) : Prop :=
  ∀ e ∈ g.edges, e.from_ < (g.nodes.length : Int) ∧ e.to_ < (g.nodes.length : Int)

/-- Consecutive queue-service events, one per element of `rnds` (the random offsets of
that event). -/
def serviceEvents (rnds : List (Int → Vec3)) (s : App) : App :=
  rnds.foldl (fun t rnd => serviceEvent rnd t) s

/-- The edges link expansion of parent `p` is expected to append when the new nodes get
the indices `start`, `start + 1`, ...: one edge from `p` per link. -/
def newEdges (p : Int) : Nat → List String → List Edge
  | _, [] => []
  | start, _ :: rest =>
    { from_ := p, to_ := (start : Int), restLength := 9/2, fadeIn := 0 }
      :: newEdges p (start + 1) rest

/-- The requests link expansion is expected to issue when the new nodes get the indices
`start`, `start + 1`, ...: one request per link, for the new node and its URL. -/
def newRequests : Nat → List String → List Request
  | _, [] => []
  | start, u :: rest => { nodeIdx := (start : Int), url := u } :: newRequests (start + 1) rest

/-- A node with its `childIndices` blanked, for comparing all other fields. -/
def withoutChildren (n : Node) : Node := { n with childIndices := [] }

/-- A state with one successfully fetched node whose page has no link. -/
def linklessState : App :=
  { graph :=
      { nodes := [{ Graph.newNode "https://a.example" Vec3.zero with
                    status := NodeStatus.Success }],
        edges := [] },
    pendingLinksPerNode := [], linkSpawnTimer := 0, http := [] }

/-- An environment for concrete instances in which every page holds the same two
links. -/
def Env.twoLinks : Env :=
  { logf := fun x => x,
    extractLinks := fun _ _ => ["https://b.example", "https://c.example"] }

/-- Submit `https://a.example` and deliver a 200 response for it. -/
def crawlOnce : List Cmd :=
  [Cmd.submit "https://a.example" Vec3.zero, Cmd.complete 0 okResponse]

/-! ## Sequences of `Graph` calls -/

/-- One call of a mutating `Graph` member function with its arguments. -/
inductive GraphOp where
  | addNode (url : String) (pos : Vec3)
  | addEdge (from_ to_ : Int)
  | deleteNode (idx : Int)
  | clear
deriving DecidableEq, Repr

/-- The effect of one call on the graph. -/
def GraphOp.apply (g : Graph) : GraphOp → Graph
  | GraphOp.addNode url pos => (g.addNode url pos).1
  | GraphOp.addEdge a b => g.addEdge a b
  | GraphOp.deleteNode idx => g.deleteNode idx
  | GraphOp.clear => g.clear

/-- The effect of a sequence of calls, left to right. -/
def runOps (g : Graph) (ops : List GraphOp) : Graph :=
  ops.foldl GraphOp.apply g

/-- Two edges join the same unordered pair of endpoints. -/
def SameUnorderedPair (a b : Edge) : Prop :=
  (a.from_ = b.from_ ∧ a.to_ = b.to_) ∨ (a.from_ = b.to_ ∧ a.to_ = b.from_)

/-- The edge list has no self-edge and no two edges on the same unordered pair. -/
def EdgesSimple (g : Graph) : Prop :=
  (∀ e ∈ g.edges, e.from_ ≠ e.to_) ∧ g.edges.Pairwise fun a b => ¬ SameUnorderedPair a b

/-- Only `addNode` and `addEdge` calls occur, and every `addNode` is made with a URL
for which `findNodeByUrl` returns `-1` on the graph at the time of the call. -/
def freshAdds : Graph → List GraphOp → Bool
  | _, [] => true
  | g, GraphOp.addNode url pos :: rest =>
    decide (g.findNodeByUrl url = -1) && freshAdds (g.addNode url pos).1 rest
  | g, GraphOp.addEdge a b :: rest => freshAdds (g.addEdge a b) rest
  | _, GraphOp.deleteNode _ :: _ => false
  | _, GraphOp.clear :: _ => false

/-- Only `addNode` and `addEdge` calls occur. -/
def onlyAdds : List GraphOp → Bool
  | [] => true
  | GraphOp.addNode _ _ :: rest => onlyAdds rest
  | GraphOp.addEdge _ _ :: rest => onlyAdds rest
  | GraphOp.deleteNode _ :: _ => false
  | GraphOp.clear :: _ => false

/-- Every edge endpoint and every `childIndices` entry is a valid node index. -/
def RefsValid (g : Graph) : Prop :=
  (∀ e ∈ g.edges, 0 ≤ e.from_ ∧ e.from_ < (g.nodes.length : Int) ∧
      0 ≤ e.to_ ∧ e.to_ < (g.nodes.length : Int)) ∧
  (∀ n ∈ g.nodes, ∀ c ∈ n.childIndices, 0 ≤ c ∧ c < (g.nodes.length : Int))

/-- A three-node chain `0 - 1 - 2` built with `addNode` and `addEdge`. -/
def chain3 : Graph :=
  runOps Graph.empty
    [GraphOp.addNode "a" Vec3.zero, GraphOp.addNode "b" Vec3.zero,
      GraphOp.addNode "c" Vec3.zero, GraphOp.addEdge 0 1, GraphOp.addEdge 1 2]

/-- A state with one node whose `targetSize` is 1 while its size is still 2/5; no queue
exists. -/
def growingNode : App :=
  { graph :=
      { nodes := [{ Graph.newNode "https://a.example" Vec3.zero with
                    status := NodeStatus.Success, targetSize := 1 }],
        edges := [] },
    pendingLinksPerNode := [], linkSpawnTimer := 0, http := [] }

/-! ## Link extraction (`html_parser.cpp`)

A `std::string` is a `List Char` here. The regular-expression iteration of
`extractLinks` is library code: its result, the list of the first capture group of every
match in document order, is given by the parameter `hrefMatches`. -/

/-- The call `s.find(pat)`: the position of the first occurrence of `pat` in `s`, or
`none` for `npos`. -/
def findSub (pat : List Char) : List Char → Option Nat
  | [] => if pat = [] then some 0 else none
  | c :: cs => if pat.isPrefixOf (c :: cs) then some 0 else (findSub pat cs).map (· + 1)

/-- The call `s.find(ch)`: the position of the first `ch` in `s`. -/
def findChar (ch : Char) : List Char → Option Nat
  | [] => none
  | c :: cs => if c = ch then some 0 else (findChar ch cs).map (· + 1)

/-- The call `s.find(ch, pos)`: the position of the first `ch` at or after `pos`. -/
def findCharFrom (ch : Char) (s : List Char) (pos : Nat) : Option Nat :=
  (findChar ch (s.drop pos)).map (· + pos)

/-- The call `s.rfind(ch)`: the position of the last `ch` in `s`. -/
def rfindChar (ch : Char) (s : List Char) : Option Nat :=
  (findChar ch s.reverse).map fun k => s.length - 1 - k

/-- The function `normalizeUrl`. In the relative branch `rfind` cannot fail; were it to
return `npos`, `lastSlash + 1` would wrap to 0 and `substr(0, 0)` would be empty. -/
def normalizeUrl (url baseUrl : List Char) : List Char :=
  if url = [] ∨ url.head? = some '#' then []
  else if findSub "javascript:".toList url = some 0 ∨ findSub "mailto:".toList url = some 0
  then []
  else if findSub "http://".toList url = some 0 ∨ findSub "https://".toList url = some 0
  then url
  else
    match findSub "://".toList baseUrl with
    | none => []
    | some protoEnd =>
      let pathStart := findCharFrom '/' baseUrl (protoEnd + 3)
      let domain :=
        match pathStart with
        | some p => baseUrl.take p
        | none => baseUrl
      if url.head? = some '/' then domain ++ url
      else
        match pathStart with
        | some _ =>
          match rfindChar '/' baseUrl with
          | some lastSlash => baseUrl.take (lastSlash + 1) ++ url
          | none => baseUrl.take 0 ++ url
        | none => domain ++ "/".toList ++ url

/-- The body of the match loop of `extractLinks` on the pair `(links, seen)`. -/
def extractStep (baseUrl : List Char) (st : List (List Char) × List (List Char))
    (url : List Char) : List (List Char) × List (List Char) :=
  let normalized := normalizeUrl url baseUrl
  if normalized ≠ [] ∧ normalized ∉ st.2 then (st.1 ++ [normalized], normalized :: st.2)
  else st

/-- The function `extractLinks`, for the matches `hrefMatches` finds in the truncated
input. -/
def extractLinks (hrefMatches : List Char → List (List Char)) (html baseUrl : List Char) :
    List (List Char) :=
  let safeHtml := if html.length > 500000 then html.take 500000 else html
  ((hrefMatches safeHtml).foldl (extractStep baseUrl) ([], [])).1

/-- The environment of the scheduler built from `extractLinks`, a matcher and a
logarithm. -/
def Env.ofParser (logf : Rat → Rat) (hrefMatches : List Char → List (List Char)) : Env :=
  { logf := logf,
    extractLinks := fun body url =>
      (Constellarix.extractLinks hrefMatches body.toList url.toList).map String.mk }

/-- The values of a list in order, every repeat of an earlier value dropped. -/
def keepFirst : List (List Char) → List (List Char)
  | [] => []
  | a :: l => a :: (keepFirst l).filter fun x => decide (x ≠ a)

/-! ## Layout forces (`physics.h`, `physics.cpp`)

The function `glm::length` takes a square root, so it is a parameter `len` of the model;
every other operation of `Physics::update` is exact rational arithmetic. -/

/-- The class `Physics`: its four coefficients with their member defaults. -/
structure Physics where
  springStrength : Rat := 2
  repulsion : Rat := 20
  drag : Rat := 4
  maxSpeed : Rat := 10000
deriving DecidableEq, Repr

/-- Division of a vector by a scalar, `v / t`. -/
def Vec3.div (v : Vec3) (t : Rat) : Vec3 := ⟨v.x / t, v.y / t, v.z / t⟩

/-- The vector `force` of the repulsion loop for the pair `(a, b) = (nodes[i], nodes[j])`,
or `none` when the pair is skipped. -/
def repulsionForce (P : Physics) (len : Vec3 → Rat) (dt : Rat) (a b : Node) : Option Vec3 :=
  let diff := a.position.sub b.position
  let dist := len diff
  if dist > 15 then none
  else
    let dist := if dist < 1/2 then 1/2 else dist
    let combinedMass := (a.size + b.size) * (1/2)
    let strength := P.repulsion * combinedMass / (dist * dist + 1)
    some (((diff.div dist).scale strength).scale dt)

/-- The statement `velocity += force` on the node at index `i`. -/
def addVelocity (nodes : List Node) (i : Nat) (force : Vec3) : List Node :=
  List.modify (fun n => { n with velocity := n.velocity.add force }) i nodes

/-- The statement `velocity -= force` on the node at index `i`. -/
def subVelocity (nodes : List Node) (i : Nat) (force : Vec3) : List Node :=
  List.modify (fun n => { n with velocity := n.velocity.sub force }) i nodes

/-- One iteration of the inner repulsion loop, for the indices `i < j`. -/
def repelPair (P : Physics) (len : Vec3 → Rat) (dt : Rat) (nodes : List Node) (i j : Nat) :
    List Node :=
  match nodes[i]?, nodes[j]? with
  | some a, some b =>
    match repulsionForce P len dt a b with
    | none => nodes
    | some force =>
      let nodes1 := if a.pinned then nodes else addVelocity nodes i force
      if b.pinned then nodes1 else subVelocity nodes1 j force
  | _, _ => nodes

/-- The repulsion loops: `i` over all indices, `j` over the indices above `i`. -/
def repulsionPhase (P : Physics) (len : Vec3 → Rat) (dt : Rat) (nodes : List Node) :
    List Node :=
  (List.range nodes.length).foldl
    (fun ns i =>
      (List.range' (i + 1) (nodes.length - (i + 1))).foldl
        (fun ns1 j => repelPair P len dt ns1 i j) ns)
    nodes

/-- The vector `force` of the spring loop for an edge from `a` to `b`, or `none` when the
edge is skipped because its endpoints are closer than `0.1`. -/
def springForce (P : Physics) (len : Vec3 → Rat) (dt : Rat) (a b : Node) (edge : Edge) :
    Option Vec3 :=
  let diff := b.position.sub a.position
  let dist := len diff
  if dist < 1/10 then none
  else
    let combinedMass := (a.size + b.size) * (1/2)
    let distanceFactor := 1 / (1 + dist * (1/10))
    let displacement := dist - edge.restLength
    let pull := ((diff.div dist).scale displacement).scale P.springStrength
    some (((pull.scale combinedMass).scale distanceFactor).scale dt)

/-- One iteration of the spring loop. -/
def springEdge (P : Physics) (len : Vec3 → Rat) (dt : Rat) (nodes : List Node)
    (edge : Edge) : List Node :=
  if edge.from_ < 0 ∨ edge.from_ ≥ (nodes.length : Int) then nodes
  else if edge.to_ < 0 ∨ edge.to_ ≥ (nodes.length : Int) then nodes
  else
    match nodes[edge.from_.toNat]?, nodes[edge.to_.toNat]? with
    | some a, some b =>
      match springForce P len dt a b edge with
      | none => nodes
      | some force =>
        let nodes1 := if a.pinned then nodes else addVelocity nodes edge.from_.toNat force
        if b.pinned then nodes1 else subVelocity nodes1 edge.to_.toNat force
    | _, _ => nodes

/-- The body of the last loop: drag, speed limit and integration of one node. -/
def integrateNode (P : Physics) (len : Vec3 → Rat) (dt : Rat) (node : Node) : Node :=
  if node.pinned then { node with velocity := Vec3.zero }
  else
    let v1 := node.velocity.sub ((node.velocity.scale P.drag).scale dt)
    let speed := len v1
    let v2 := if speed > P.maxSpeed then (v1.div speed).scale P.maxSpeed else v1
    { node with velocity := v2, position := node.position.add (v2.scale dt) }

/-- The function `Physics::update`. -/
def Physics.update (P : Physics) (len : Vec3 → Rat) (graph : Graph) (dt : Rat) : Graph :=
  let nodes1 := repulsionPhase P len dt graph.nodes
  let nodes2 := graph.edges.foldl (springEdge P len dt) nodes1
  { graph with nodes := nodes2.map (integrateNode P len dt) }

/-- A run of `Physics::update` calls, one per element of `dts`. -/
def physicsTicks (P : Physics) (len : Vec3 → Rat) (graph : Graph) : List Rat → Graph
  | [] => graph
  | dt :: dts => physicsTicks P len (P.update len graph dt) dts

/-- Every pinned node of `l` sits unchanged at the same index of `l2`. -/
def PinnedKept (l l2 : List Node) : Prop :=
  ∀ (i : Nat) (n : Node), l[i]? = some n → n.pinned = true → l2[i]? = some n

/-- The value of `glm::length` on a vector along a coordinate axis: the sum of the
absolute values of the components. -/
def axisLength (v : Vec3) : Rat := |v.x| + |v.y| + |v.z|

/-- The impulse magnitude the specification gives for separation `d`:
`repulsion * mass * dt / (max(d, 0.5)^2 + 1)`. -/
def claimedImpulse (repulsion mass dt d : Rat) : Rat :=
  repulsion * mass * dt / (max d (1/2) ^ 2 + 1)

/-- A node at `(x, 0, 0)` of size 1. -/
def nodeOnAxis (x : Rat) (pinned : Bool) : Node :=
  { Graph.newNode "https://a.example" ⟨x, 0, 0⟩ with size := 1, pinned := pinned }

/-- Two nodes 3 apart joined by an edge, the first one pinned and moving. -/
def anchoredPair : Graph :=
  { nodes := [{ nodeOnAxis 0 true with velocity := ⟨1, 0, 0⟩ }, nodeOnAxis 3 false],
    edges := [{ from_ := 0, to_ := 1, restLength := 9/2, fadeIn := 0 }] }

/-- Two unpinned nodes 9/2 apart joined by an edge of rest length 9/2. -/
def restingPair : Graph :=
  { nodes := [nodeOnAxis 0 false, nodeOnAxis (9/2) false],
    edges := [{ from_ := 0, to_ := 1, restLength := 9/2, fadeIn := 0 }] }

/-! ## Node histories -/

/-- One write that the graph store or the scheduler performs on an existing node:
a change of `childIndices` (`addEdge`, `deleteNode`), the animation step, setting
`fetching` on a `Pending` node (`fetchNode` at its call sites), the completion callback,
the retry reset of `activateNode`, and setting `expanded`. -/
inductive NodeStep (E : Env) : Node → Node → Prop
  | children (n : Node) (c : List Int) : NodeStep E n { n with childIndices := c }
  | animate (n : Node) (dt : Rat) : NodeStep E n (animateNode dt n)
  | fetch (n : Node) (h : n.status = NodeStatus.Pending) :
      NodeStep E n { n with fetching := true }
  | complete (n : Node) (url : String) (resp : HttpResponse) :
      NodeStep E n (completeNode E url resp n)
  | retry (n : Node) :
      NodeStep E n { n with status := NodeStatus.Pending, fetching := false }
  | expand (n : Node) : NodeStep E n { n with expanded := true }

/-- The node was created by `addNode` and has since then seen only the writes of
`NodeStep`. -/
def NodeHistory (E : Env) (n : Node) : Prop :=
  ∃ url pos, Relation.ReflTransGen (NodeStep E) (Graph.newNode url pos) n

/-- Every node of the list has a history. -/
def AllHistory (E : Env) (l : List Node) : Prop := ∀ n ∈ l, NodeHistory E n

/-! ## Lemmas on the graph operations -/

theorem shiftIndex_injOn {idx a b : Int} (ha : a ≠ idx) (hb : b ≠ idx)
    (h : Graph.shiftIndex idx a = Graph.shiftIndex idx b) : a = b := by
  unfold Graph.shiftIndex at h
  split_ifs at h <;> omega

theorem hasEdge_eq_false_iff (g : Graph) (a b : Int) :
    g.hasEdge a b = false ↔
      ∀ e ∈ g.edges, ¬ ((e.from_ = a ∧ e.to_ = b) ∨ (e.from_ = b ∧ e.to_ = a)) := by
  simp [Graph.hasEdge, List.any_eq_false]

theorem edgesSimple_addEdge (g : Graph) (a b : Int) (h : EdgesSimple g) :
    EdgesSimple (g.addEdge a b) := by
  unfold Graph.addEdge
  split_ifs with h1 h2 h3 h4
  · exact h
  · exact h
  · exact h
  · exact h
  · have hno : g.hasEdge a b = false := by simpa using h4
    rw [hasEdge_eq_false_iff] at hno
    refine ⟨?_, ?_⟩
    · intro e he
      simp only [List.mem_append, List.mem_singleton] at he
      rcases he with he | rfl
      · exact h.1 e he
      · exact h1
    · simp only [List.pairwise_append, List.pairwise_cons, List.Pairwise.nil,
        List.mem_singleton]
      refine ⟨h.2, ⟨by simp, trivial⟩, ?_⟩
      rintro e he _ rfl
      exact hno e he

theorem edgesSimple_deleteNode (g : Graph) (idx : Int) (h : EdgesSimple g) :
    EdgesSimple (g.deleteNode idx) := by
  unfold Graph.deleteNode
  split_ifs with h1
  · exact h
  · refine ⟨?_, ?_⟩
    · intro e he
      simp only [List.mem_map, List.mem_filter] at he
      obtain ⟨e0, ⟨he0, hk⟩, rfl⟩ := he
      simp only [Bool.not_eq_true', Bool.or_eq_false_iff, beq_eq_false_iff_ne, ne_eq] at hk
      intro heq
      exact h.1 e0 he0 (shiftIndex_injOn hk.1 hk.2 heq)
    · simp only [List.pairwise_map]
      refine List.Pairwise.imp_of_mem ?_ (List.Pairwise.filter _ h.2)
      intro x y hx hy hxy hs
      simp only [List.mem_filter, Bool.not_eq_true', Bool.or_eq_false_iff,
        beq_eq_false_iff_ne, ne_eq] at hx hy
      apply hxy
      rcases hs with ⟨h1, h2⟩ | ⟨h1, h2⟩
      · exact Or.inl ⟨shiftIndex_injOn hx.2.1 hy.2.1 h1, shiftIndex_injOn hx.2.2 hy.2.2 h2⟩
      · exact Or.inr ⟨shiftIndex_injOn hx.2.1 hy.2.2 h1, shiftIndex_injOn hx.2.2 hy.2.1 h2⟩

theorem edgesSimple_apply (g : Graph) (op : GraphOp) (h : EdgesSimple g) :
    EdgesSimple (op.apply g) := by
  cases op with
  | addNode url pos => exact h
  | addEdge a b => exact edgesSimple_addEdge g a b h
  | deleteNode idx => exact edgesSimple_deleteNode g idx h
  | clear => exact ⟨by simp [GraphOp.apply, Graph.clear], by simp [GraphOp.apply, Graph.clear]⟩

theorem edgesSimple_runOps (ops : List GraphOp) (g : Graph) (h : EdgesSimple g) :
    EdgesSimple (runOps g ops) := by
  induction ops generalizing g with
  | nil => exact h
  | cons op rest ih => exact ih (op.apply g) (edgesSimple_apply g op h)

/-! ## Claims -/

/-! ### C1 -/

/-- C1: starting from the empty graph, after any sequence of `addNode`, `addEdge`,
`deleteNode` and `clear` calls with arbitrary arguments, no edge has `from == to` and no
two edges (at different positions of the edge list) join the same unordered pair. -/
theorem C1_edges_simple_after_any_calls (ops : List GraphOp) :
    (∀ e ∈ (runOps Graph.empty ops).edges, e.from_ ≠ e.to_) ∧
    (runOps Graph.empty ops).edges.Pairwise fun a b =>
      ¬ ((a.from_ = b.from_ ∧ a.to_ = b.to_) ∨ (a.from_ = b.to_ ∧ a.to_ = b.from_)) :=
  edgesSimple_runOps ops Graph.empty ⟨by simp [Graph.empty], by simp [Graph.empty]⟩

/-! ### C2 -/

theorem findNodeByUrlFrom_eq_neg_one (url : String) (nodes : List Node) (i : Nat) :
    Graph.findNodeByUrlFrom url nodes i = -1 ↔ ∀ n ∈ nodes, n.url ≠ url := by
  induction nodes generalizing i with
  | nil => simp [Graph.findNodeByUrlFrom]
  | cons n rest ih =>
    unfold Graph.findNodeByUrlFrom
    split_ifs with h
    · constructor
      · intro h0; exact h0.elim
      · intro h0; exact absurd h (h0 n (List.mem_cons_self _ _))
    · rw [ih]
      simp [h]

theorem nodup_urls_addNode (g : Graph) (url : String) (pos : Vec3)
    (hfresh : g.findNodeByUrl url = -1) (h : (g.nodes.map Node.url).Nodup) :
    ((g.addNode url pos).1.nodes.map Node.url).Nodup := by
  rw [Graph.findNodeByUrl, findNodeByUrlFrom_eq_neg_one] at hfresh
  simp only [Graph.addNode, List.map_append, List.map_cons, List.map_nil]
  rw [List.nodup_append]
  refine ⟨h, List.nodup_singleton _, ?_⟩
  intro a ha hb
  simp only [List.mem_singleton] at hb
  simp only [List.mem_map] at ha
  obtain ⟨n, hn, rfl⟩ := ha
  exact hfresh n hn (by simpa [Graph.newNode] using hb)

theorem urls_addEdge (g : Graph) (a b : Int) :
    (g.addEdge a b).nodes.map Node.url = g.nodes.map Node.url := by
  unfold Graph.addEdge
  split_ifs <;> try rfl
  apply List.ext_getElem?
  intro i
  simp only [List.getElem?_map, List.getElem?_modify]
  cases g.nodes[i]? with
  | none => rfl
  | some n => by_cases hi : a.toNat = i <;> simp [hi]

theorem nodup_urls_freshAdds (ops : List GraphOp) (g : Graph)
    (hops : freshAdds g ops = true) (h : (g.nodes.map Node.url).Nodup) :
    ((runOps g ops).nodes.map Node.url).Nodup := by
  induction ops generalizing g with
  | nil => exact h
  | cons op rest ih =>
    cases op with
    | addNode url pos =>
      simp only [freshAdds, Bool.and_eq_true, decide_eq_true_eq] at hops
      exact ih _ hops.2 (nodup_urls_addNode g url pos hops.1 h)
    | addEdge a b =>
      simp only [freshAdds] at hops
      exact ih _ hops (by rw [GraphOp.apply, urls_addEdge]; exact h)
    | deleteNode idx => simp [freshAdds] at hops
    | clear => simp [freshAdds] at hops

/-- C2 (as stated, refuted): two `addNode` calls with the same URL, which is a
sequence of `addNode`/`addEdge` calls from the empty graph, leave two nodes with equal
URLs. -/
theorem C2_duplicate_urls_after_addNode :
    onlyAdds [GraphOp.addNode "a" Vec3.zero, GraphOp.addNode "a" Vec3.zero] = true ∧
    ¬ ((runOps Graph.empty
        [GraphOp.addNode "a" Vec3.zero, GraphOp.addNode "a" Vec3.zero]).nodes.map
          Node.url).Nodup := by
  refine ⟨rfl, ?_⟩
  simp [runOps, GraphOp.apply, Graph.addNode, Graph.empty, Graph.newNode]

/-- C2 (amended): for every sequence of `addNode` and `addEdge` calls from the empty
graph in which each `addNode` is called with a URL for which `findNodeByUrl` returns `-1`
at the time of the call, the node URLs are pairwise distinct afterwards. -/
theorem C2_urls_distinct_when_adds_fresh (ops : List GraphOp)
    (hops : freshAdds Graph.empty ops = true) :
    ((runOps Graph.empty ops).nodes.map Node.url).Nodup :=
  nodup_urls_freshAdds ops Graph.empty hops (by simp [Graph.empty])

/-- A concrete instance of C2 (amended): two fresh URLs and an edge between them. -/
theorem C2_urls_distinct_when_adds_fresh_witness :
    freshAdds Graph.empty
      [GraphOp.addNode "a" Vec3.zero, GraphOp.addNode "b" Vec3.zero, GraphOp.addEdge 0 1]
      = true ∧
    ((runOps Graph.empty
      [GraphOp.addNode "a" Vec3.zero, GraphOp.addNode "b" Vec3.zero,
        GraphOp.addEdge 0 1]).nodes.map Node.url).Nodup :=
  ⟨by decide, C2_urls_distinct_when_adds_fresh _ (by decide)⟩

/-! ### C3 -/

theorem shiftIndex_bounds {idx c : Int} {len : Nat} (hc0 : 0 ≤ c) (hc1 : c < (len : Int))
    (hne : c ≠ idx) (h0 : 0 ≤ idx) (h1 : idx < (len : Int)) :
    0 ≤ Graph.shiftIndex idx c ∧ Graph.shiftIndex idx c < ((len - 1 : Nat) : Int) := by
  unfold Graph.shiftIndex
  split_ifs <;> omega

theorem length_deleteNode (g : Graph) (idx : Int) (h0 : 0 ≤ idx)
    (h1 : idx < (g.nodes.length : Int)) :
    (g.deleteNode idx).nodes.length = g.nodes.length - 1 := by
  unfold Graph.deleteNode
  rw [if_neg (by omega)]
  simp only [List.length_eraseIdx, List.length_map]
  rw [if_pos (by omega)]

/-- C3: on a graph whose edge endpoints and `childIndices` entries are all valid node
indices, `deleteNode(idx)` for a valid `idx` drops the node count by exactly one and
leaves every edge endpoint and every `childIndices` entry a valid index of the new,
shorter node list. -/
theorem C3_deleteNode_keeps_references_valid (g : Graph) (idx : Int) (hv : RefsValid g)
    (h0 : 0 ≤ idx) (h1 : idx < (g.nodes.length : Int)) :
    (g.deleteNode idx).nodes.length + 1 = g.nodes.length ∧ RefsValid (g.deleteNode idx) := by
  have hlen := length_deleteNode g idx h0 h1
  refine ⟨by omega, ?_, ?_⟩
  · intro e he
    rw [hlen]
    unfold Graph.deleteNode at he
    rw [if_neg (by omega)] at he
    simp only [List.mem_map, List.mem_filter, Bool.not_eq_true', Bool.or_eq_false_iff,
      beq_eq_false_iff_ne, ne_eq] at he
    obtain ⟨e0, ⟨he0, hk⟩, rfl⟩ := he
    obtain ⟨a0, a1, b0, b1⟩ := hv.1 e0 he0
    have ha := shiftIndex_bounds a0 a1 hk.1 h0 h1
    have hb := shiftIndex_bounds b0 b1 hk.2 h0 h1
    exact ⟨ha.1, ha.2, hb.1, hb.2⟩
  · intro n hn c hc
    rw [hlen]
    unfold Graph.deleteNode at hn
    rw [if_neg (by omega)] at hn
    have hn := List.mem_of_mem_eraseIdx hn
    simp only [List.mem_map] at hn
    obtain ⟨n0, hn0, rfl⟩ := hn
    simp only [List.mem_map, List.mem_filter, Bool.not_eq_true', beq_eq_false_iff_ne,
      ne_eq] at hc
    obtain ⟨c0, ⟨hc0, hne⟩, rfl⟩ := hc
    obtain ⟨b0, b1⟩ := hv.2 n0 hn0 c0 hc0
    exact shiftIndex_bounds b0 b1 hne h0 h1

/-- A concrete instance of C3: deleting the middle node of a three-node chain. -/
theorem C3_deleteNode_keeps_references_valid_witness :
    RefsValid chain3 ∧ (0 : Int) ≤ 1 ∧ (1 : Int) < (chain3.nodes.length : Int) ∧
    (chain3.deleteNode 1).nodes.length + 1 = chain3.nodes.length ∧
    RefsValid (chain3.deleteNode 1) :=
  have hv : RefsValid chain3 := by
    unfold RefsValid
    decide
  ⟨hv, by decide, by decide,
    C3_deleteNode_keeps_references_valid chain3 1 hv (by decide) (by decide)⟩

/-! ### C4 -/

/-- C4: `addEdge(from, to)` returns the graph unchanged (so every `findNodeByUrl` result
is unchanged too) when `from == to`, when either index is out of range, or when an edge
between the two exists in either direction; in every other case the edge list gains
exactly the edge `(from, to)` with rest length 4.5 and fadeIn 0 at its end, node `from`
gains `to` at the end of its `childIndices`, and every other node is unchanged. -/
theorem C4_addEdge_effect (g : Graph) (a b : Int) :
    ((a = b ∨ a < 0 ∨ a ≥ (g.nodes.length : Int) ∨ b < 0 ∨ b ≥ (g.nodes.length : Int) ∨
        (∃ e ∈ g.edges, (e.from_ = a ∧ e.to_ = b) ∨ (e.from_ = b ∧ e.to_ = a))) →
      g.addEdge a b = g ∧ ∀ url, (g.addEdge a b).findNodeByUrl url = g.findNodeByUrl url) ∧
    (¬ (a = b ∨ a < 0 ∨ a ≥ (g.nodes.length : Int) ∨ b < 0 ∨ b ≥ (g.nodes.length : Int) ∨
        (∃ e ∈ g.edges, (e.from_ = a ∧ e.to_ = b) ∨ (e.from_ = b ∧ e.to_ = a))) →
      (g.addEdge a b).edges
          = g.edges ++ [{ from_ := a, to_ := b, restLength := 9/2, fadeIn := 0 }] ∧
      (g.addEdge a b).nodes.length = g.nodes.length ∧
      (∃ n, g.nodes[a.toNat]? = some n ∧
        (g.addEdge a b).nodes[a.toNat]?
          = some { n with childIndices := n.childIndices ++ [b] }) ∧
      (∀ i, i ≠ a.toNat → (g.addEdge a b).nodes[i]? = g.nodes[i]?)) := by
  have hedge : g.hasEdge a b = true ↔
      ∃ e ∈ g.edges, (e.from_ = a ∧ e.to_ = b) ∨ (e.from_ = b ∧ e.to_ = a) := by
    simp [Graph.hasEdge]
  constructor
  · intro h
    have hg : g.addEdge a b = g := by
      unfold Graph.addEdge
      split_ifs with h1 h2 h3 h4 <;> try rfl
      exfalso
      rcases h with h | h | h | h | h | h
      · exact h1 h
      · exact h2 (Or.inl h)
      · exact h2 (Or.inr h)
      · exact h3 (Or.inl h)
      · exact h3 (Or.inr h)
      · exact h4 (hedge.2 h)
    exact ⟨hg, fun url => by rw [hg]⟩
  · intro h
    simp only [not_or] at h
    obtain ⟨h1, h2, h3, h4, h5, h6⟩ := h
    have hne : ¬ (g.hasEdge a b = true) := fun hh => h6 (hedge.1 hh)
    unfold Graph.addEdge
    rw [if_neg h1, if_neg (by omega), if_neg (by omega), if_neg hne]
    refine ⟨rfl, by simp, ?_, ?_⟩
    · have hlt : a.toNat < g.nodes.length := by omega
      refine ⟨g.nodes[a.toNat], by simp, ?_⟩
      simp [List.getElem?_modify, List.getElem?_eq_getElem hlt]
    · intro i hi
      simp only [List.getElem?_modify]
      cases g.nodes[i]? with
      | none => rfl
      | some n => simp [Ne.symm hi]

/-- A concrete instance of C4: the first edge of a two-node graph is appended. -/
theorem C4_addEdge_effect_witness :
    ((runOps Graph.empty
        [GraphOp.addNode "a" Vec3.zero, GraphOp.addNode "b" Vec3.zero]).addEdge 0 1).edges
      = [{ from_ := 0, to_ := 1, restLength := 9/2, fadeIn := 0 }] :=
  ((C4_addEdge_effect
    (runOps Graph.empty [GraphOp.addNode "a" Vec3.zero, GraphOp.addNode "b" Vec3.zero])
    0 1).2 (by decide)).1

/-! ### C5 -/

theorem raycastFrom_cons_of_qualifies (origin dir : Vec3) (n : Node) (rest : List Node)
    (i : Nat) (closest : Int) (cd : Rat) (hq : Qualifies origin dir cd n) :
    Graph.raycastFrom origin dir (n :: rest) i closest cd
      = Graph.raycastFrom origin dir rest (i + 1) (i : Int) (rayParam origin dir n) := by
  obtain ⟨h0, h1, h2⟩ := hq
  have hhalf : n.size * (1 / 2) = n.size / 2 := by ring
  unfold rayParam at h0 h1 h2
  simp only [Graph.raycastFrom, hhalf, rayParam]
  rw [if_neg (not_lt.2 h0), if_pos ⟨h2, h1⟩]

theorem raycastFrom_cons_of_not_qualifies (origin dir : Vec3) (n : Node) (rest : List Node)
    (i : Nat) (closest : Int) (cd : Rat) (hq : ¬ Qualifies origin dir cd n) :
    Graph.raycastFrom origin dir (n :: rest) i closest cd
      = Graph.raycastFrom origin dir rest (i + 1) closest cd := by
  have hhalf : n.size * (1 / 2) = n.size / 2 := by ring
  simp only [Graph.raycastFrom, hhalf]
  split_ifs with h0 h1
  · rfl
  · exact absurd ⟨not_lt.1 h0, h1.2, h1.1⟩ hq
  · rfl

theorem raycastFrom_spec (origin dir : Vec3) (nodes : List Node) (i : Nat) (closest : Int)
    (cd : Rat) :
    (Graph.raycastFrom origin dir nodes i closest cd = closest ∧
      ∀ n ∈ nodes, ¬ Qualifies origin dir cd n) ∨
    (∃ k n, Graph.raycastFrom origin dir nodes i closest cd = ((i + k : Nat) : Int) ∧
      nodes[k]? = some n ∧ Qualifies origin dir cd n ∧
      ∀ j nj, nodes[j]? = some nj → Qualifies origin dir cd nj →
        rayParam origin dir n ≤ rayParam origin dir nj ∧
        (j < k → rayParam origin dir n < rayParam origin dir nj)) := by
  induction nodes generalizing i closest cd with
  | nil => exact Or.inl ⟨rfl, by simp⟩
  | cons n rest ih =>
    by_cases hq : Qualifies origin dir cd n
    · rw [raycastFrom_cons_of_qualifies origin dir n rest i closest cd hq]
      right
      rcases ih (i + 1) (i : Int) (rayParam origin dir n) with
        ⟨hr, hnone⟩ | ⟨k, m, hr, hk, hm, hmin⟩
      · refine ⟨0, n, by simpa using hr, by simp, hq, ?_⟩
        intro j nj hj hqj
        cases j with
        | zero =>
          simp only [List.getElem?_cons_zero, Option.some.injEq] at hj
          subst hj
          exact ⟨le_refl _, fun h => absurd h (lt_irrefl 0)⟩
        | succ j =>
          simp only [List.getElem?_cons_succ] at hj
          have hmem : nj ∈ rest := List.getElem?_mem hj
          have hnot := hnone nj hmem
          refine ⟨?_, fun h => absurd h (Nat.not_lt_zero _)⟩
          by_contra hlt
          exact hnot ⟨hqj.1, not_le.1 hlt, hqj.2.2⟩
      · refine ⟨k + 1, m, ?_, by simpa using hk,
          ⟨hm.1, lt_trans hm.2.1 hq.2.1, hm.2.2⟩, ?_⟩
        · rw [hr]
          congr 1
          omega
        · intro j nj hj hqj
          cases j with
          | zero =>
            simp only [List.getElem?_cons_zero, Option.some.injEq] at hj
            subst hj
            exact ⟨le_of_lt hm.2.1, fun _ => hm.2.1⟩
          | succ j =>
            simp only [List.getElem?_cons_succ] at hj
            by_cases hlt : rayParam origin dir nj < rayParam origin dir n
            · obtain ⟨h1, h2⟩ := hmin j nj hj ⟨hqj.1, hlt, hqj.2.2⟩
              exact ⟨h1, fun h => h2 (by omega)⟩
            · have hge := not_lt.1 hlt
              have : rayParam origin dir m < rayParam origin dir nj :=
                lt_of_lt_of_le hm.2.1 hge
              exact ⟨le_of_lt this, fun _ => this⟩
    · rw [raycastFrom_cons_of_not_qualifies origin dir n rest i closest cd hq]
      rcases ih (i + 1) closest cd with ⟨hr, hnone⟩ | ⟨k, m, hr, hk, hm, hmin⟩
      · left
        refine ⟨hr, ?_⟩
        intro x hx
        rcases List.mem_cons.1 hx with rfl | hx
        · exact hq
        · exact hnone x hx
      · right
        refine ⟨k + 1, m, ?_, by simpa using hk, hm, ?_⟩
        · rw [hr]
          congr 1
          omega
        · intro j nj hj hqj
          cases j with
          | zero =>
            simp only [List.getElem?_cons_zero, Option.some.injEq] at hj
            subst hj
            exact absurd hqj hq
          | succ j =>
            simp only [List.getElem?_cons_succ] at hj
            obtain ⟨h1, h2⟩ := hmin j nj hj hqj
            exact ⟨h1, fun h => h2 (by omega)⟩

/-- C5: `raycast` returns `-1` iff no node qualifies; otherwise it returns the index of
a qualifying node whose ray parameter `t` is at most that of every qualifying node and
strictly below that of every qualifying node of lower index (smallest `t`, lowest index
on ties). In `rayScene` it returns the node with the smaller `t` although the other
qualifying node is nearer to the ray origin in 3D distance. -/
theorem C5_raycast_smallest_ray_parameter :
    (∀ (g : Graph) (origin dir : Vec3) (maxDist : Rat),
      (g.raycast origin dir maxDist = -1 ↔
        ∀ n ∈ g.nodes, ¬ Qualifies origin dir maxDist n) ∧
      (g.raycast origin dir maxDist ≠ -1 →
        ∃ (k : Nat) (n : Node), g.raycast origin dir maxDist = (k : Int) ∧
          g.nodes[k]? = some n ∧ Qualifies origin dir maxDist n ∧
          ∀ j nj, g.nodes[j]? = some nj → Qualifies origin dir maxDist nj →
            rayParam origin dir n ≤ rayParam origin dir nj ∧
            (j < k → rayParam origin dir n < rayParam origin dir nj))) ∧
    (rayScene.raycast Vec3.zero ⟨1, 0, 0⟩ 100 = 0 ∧
      (∀ n ∈ rayScene.nodes, Qualifies Vec3.zero ⟨1, 0, 0⟩ 100 n) ∧
      Vec3.dot ((nodeAt "near" ⟨11/2, 0, 0⟩ (2/5)).position.sub Vec3.zero)
          ((nodeAt "near" ⟨11/2, 0, 0⟩ (2/5)).position.sub Vec3.zero)
        < Vec3.dot ((nodeAt "wide" ⟨5, 3, 0⟩ 8).position.sub Vec3.zero)
          ((nodeAt "wide" ⟨5, 3, 0⟩ 8).position.sub Vec3.zero)) := by
  have hwide : Qualifies Vec3.zero ⟨1, 0, 0⟩ 100 (nodeAt "wide" ⟨5, 3, 0⟩ 8) := by
    simp only [Qualifies, rayParam, lengthLt, nodeAt, Graph.newNode, Vec3.dot, Vec3.sub,
      Vec3.add, Vec3.scale, Vec3.zero]
    norm_num
  have hnear : Qualifies Vec3.zero ⟨1, 0, 0⟩ 100 (nodeAt "near" ⟨11/2, 0, 0⟩ (2/5)) := by
    simp only [Qualifies, rayParam, lengthLt, nodeAt, Graph.newNode, Vec3.dot, Vec3.sub,
      Vec3.add, Vec3.scale, Vec3.zero]
    norm_num
  refine ⟨?_, ?_, ?_, ?_⟩
  · intro g origin dir maxDist
    unfold Graph.raycast
    rcases raycastFrom_spec origin dir g.nodes 0 (-1) maxDist with
      ⟨hr, hnone⟩ | ⟨k, n, hr, hk, hn, hmin⟩
    · exact ⟨⟨fun _ => hnone, fun _ => hr⟩, fun h => absurd hr h⟩
    · have hk0 : ((0 + k : Nat) : Int) = (k : Int) := by simp
      rw [hk0] at hr
      refine ⟨⟨fun h => ?_, fun h => ?_⟩, fun _ => ⟨k, n, hr, hk, hn, hmin⟩⟩
      · rw [hr] at h
        omega
      · exact absurd hn (h n (List.getElem?_mem hk))
  · unfold rayScene Graph.raycast
    rw [raycastFrom_cons_of_qualifies _ _ _ _ _ _ _ hwide]
    rw [raycastFrom_cons_of_not_qualifies]
    · rfl
    · simp only [Qualifies, rayParam, lengthLt, nodeAt, Graph.newNode, Vec3.dot, Vec3.sub,
        Vec3.add, Vec3.scale, Vec3.zero]
      norm_num
  · intro n hn
    simp only [rayScene, List.mem_cons, List.mem_singleton, List.not_mem_nil, or_false] at hn
    rcases hn with rfl | rfl
    · exact hwide
    · exact hnear
  · simp only [nodeAt, Graph.newNode, Vec3.dot, Vec3.sub, Vec3.zero]
    norm_num

/-! ### Scheduler lemmas -/

theorem modify_eq_set {α : Type} (f : α → α) (l : List α) (i : Nat) (a : α)
    (h : l[i]? = some a) : List.modify f i l = l.set i (f a) := by
  apply List.ext_getElem?
  intro j
  simp only [List.getElem?_modify, List.getElem?_set]
  by_cases hij : i = j
  · subst hij
    have hlt : i < l.length := (List.getElem?_eq_some.1 h).1
    simp [h, hlt]
  · simp only [hij, if_false]
    cases l[j]? <;> rfl

theorem queueOf_pushLinks_self (m : List (Int × List String)) (k : Int)
    (links : List String) :
    queueOf (pushLinks m k links) k = some ((queueOf m k).getD [] ++ links) := by
  induction m with
  | nil => simp [pushLinks, queueOf]
  | cons p rest ih =>
    obtain ⟨k0, q⟩ := p
    by_cases hk : k0 = k
    · simp [pushLinks, queueOf, hk]
    · simp [pushLinks, queueOf, hk, ih]

theorem queueOf_pushLinks_other (m : List (Int × List String)) (k k' : Int)
    (links : List String) (hne : k' ≠ k) :
    queueOf (pushLinks m k links) k' = queueOf m k' := by
  induction m with
  | nil => simp [pushLinks, queueOf, Ne.symm hne]
  | cons p rest ih =>
    obtain ⟨k0, q⟩ := p
    by_cases hk : k0 = k
    · subst hk
      simp [pushLinks, queueOf, Ne.symm hne]
    · by_cases hk' : k0 = k'
      · subst hk'
        simp [pushLinks, queueOf, hk]
      · simp [pushLinks, queueOf, hk, hk', ih]

theorem activateNode_success (s : App) (nodeIdx : Int) (node : Node)
    (h0 : 0 ≤ nodeIdx) (hnode : s.graph.nodes[nodeIdx.toNat]? = some node)
    (hs : node.status = NodeStatus.Success) (he : node.expanded = false) :
    activateNode s nodeIdx =
      { s with
        graph := { s.graph with
          nodes := s.graph.nodes.set nodeIdx.toNat { node with expanded := true } },
        pendingLinksPerNode := pushLinks s.pendingLinksPerNode nodeIdx node.links } := by
  have hlt : nodeIdx.toNat < s.graph.nodes.length := (List.getElem?_eq_some.1 hnode).1
  unfold activateNode
  rw [if_neg (by omega)]
  simp only [hnode]
  rw [if_neg (by rw [hs]; decide), if_neg (by rw [hs]; decide), if_neg (by simp [he])]
  rw [modify_eq_set _ _ _ _ hnode]

theorem activateNode_expanded (s : App) (nodeIdx : Int) (node : Node)
    (hnode : s.graph.nodes[nodeIdx.toNat]? = some node)
    (hs : node.status = NodeStatus.Success) (he : node.expanded = true) :
    activateNode s nodeIdx = s := by
  unfold activateNode
  split_ifs with h1
  · rfl
  · simp only [hnode]
    rw [if_neg (by rw [hs]; decide), if_neg (by rw [hs]; decide), if_pos he]

/-! ### C6 -/

/-- C6 (the code at the failing input): after `https://a.example` has been submitted,
`findNodeByUrl` finds it at index 0, and submitting the same URL again appends a second
node and hands a second request, for index 1, to the `HttpClient`. -/
theorem C6_resubmitting_present_url_adds_node_and_fetch :
    oneSubmitted.graph.findNodeByUrl "https://a.example" = 0 ∧
    (submitUrl oneSubmitted "https://a.example" Vec3.zero).graph.nodes.length
      = oneSubmitted.graph.nodes.length + 1 ∧
    (submitUrl oneSubmitted "https://a.example" Vec3.zero).http
      = oneSubmitted.http ++ [{ nodeIdx := 1, url := "https://a.example" }] := by
  decide

/-! ### C7 -/

/-- C7: on a node in `Success` state with `expanded == false`, the first `activateNode`
sets `expanded` on that node only, appends the node's links in order to the queue stored
under that node's index (created empty if absent), and touches no other queue, no edge
and no request; a second `activateNode` on the result changes nothing at all. -/
theorem C7_activate_success_twice (s : App) (nodeIdx : Int) (node : Node)
    (h0 : 0 ≤ nodeIdx) (hnode : s.graph.nodes[nodeIdx.toNat]? = some node)
    (hs : node.status = NodeStatus.Success) (he : node.expanded = false) :
    (activateNode s nodeIdx).graph.nodes
      = s.graph.nodes.set nodeIdx.toNat { node with expanded := true } ∧
    (activateNode s nodeIdx).graph.edges = s.graph.edges ∧
    (activateNode s nodeIdx).http = s.http ∧
    (activateNode s nodeIdx).linkSpawnTimer = s.linkSpawnTimer ∧
    queueOf (activateNode s nodeIdx).pendingLinksPerNode nodeIdx
      = some ((queueOf s.pendingLinksPerNode nodeIdx).getD [] ++ node.links) ∧
    (∀ k, k ≠ nodeIdx →
      queueOf (activateNode s nodeIdx).pendingLinksPerNode k
        = queueOf s.pendingLinksPerNode k) ∧
    activateNode (activateNode s nodeIdx) nodeIdx = activateNode s nodeIdx := by
  have hlt : nodeIdx.toNat < s.graph.nodes.length := (List.getElem?_eq_some.1 hnode).1
  rw [activateNode_success s nodeIdx node h0 hnode hs he]
  refine ⟨rfl, rfl, rfl, rfl, queueOf_pushLinks_self _ _ _,
    fun k hk => queueOf_pushLinks_other _ _ _ _ hk, ?_⟩
  apply activateNode_expanded _ nodeIdx { node with expanded := true }
  · simp [List.getElem?_set, hlt]
  · exact hs
  · rfl

/-- A concrete instance of C7: activating the crawled node with two links. -/
theorem C7_activate_success_twice_witness :
    queueOf (activateNode crawledState 0).pendingLinksPerNode 0
      = some ["https://b.example", "https://c.example"] ∧
    activateNode (activateNode crawledState 0) 0 = activateNode crawledState 0 :=
  have h := C7_activate_success_twice crawledState 0
    { Graph.newNode "https://a.example" Vec3.zero with
      status := NodeStatus.Success,
      links := ["https://b.example", "https://c.example"] }
    (by decide) rfl rfl rfl
  ⟨h.2.2.2.2.1, h.2.2.2.2.2.2⟩

/-! ### C8 -/

theorem fetchNode_not_fetching (s : App) (nodeIdx : Int) (node : Node)
    (hnode : s.graph.nodes[nodeIdx.toNat]? = some node) (h0 : 0 ≤ nodeIdx)
    (hf : node.fetching = false) :
    fetchNode s nodeIdx =
      { s with
        graph := { s.graph with
          nodes := s.graph.nodes.set nodeIdx.toNat { node with fetching := true } },
        http := s.http ++ [{ nodeIdx := nodeIdx, url := node.url }] } := by
  have hlt : nodeIdx.toNat < s.graph.nodes.length := (List.getElem?_eq_some.1 hnode).1
  unfold fetchNode
  rw [if_neg (by omega)]
  simp only [hnode]
  rw [if_neg (by simp [hf]), modify_eq_set _ _ _ _ hnode]

/-- C8: on a node in `Error` state `activateNode` leaves that node `Pending` with
`fetching == true`, hands exactly one new request, for that node's index and URL, to the
`HttpClient`, and changes no other node, no edge and no expansion queue; on a node in
`Pending` state it changes nothing and issues no request. -/
theorem C8_activate_error_or_pending (s : App) (nodeIdx : Int) (node : Node)
    (h0 : 0 ≤ nodeIdx) (hnode : s.graph.nodes[nodeIdx.toNat]? = some node) :
    (node.status = NodeStatus.Error →
      (activateNode s nodeIdx).graph.nodes
        = s.graph.nodes.set nodeIdx.toNat
            { node with status := NodeStatus.Pending, fetching := true } ∧
      (activateNode s nodeIdx).graph.edges = s.graph.edges ∧
      (activateNode s nodeIdx).http = s.http ++ [{ nodeIdx := nodeIdx, url := node.url }] ∧
      (activateNode s nodeIdx).pendingLinksPerNode = s.pendingLinksPerNode ∧
      (activateNode s nodeIdx).linkSpawnTimer = s.linkSpawnTimer) ∧
    (node.status = NodeStatus.Pending → activateNode s nodeIdx = s) := by
  have hlt : nodeIdx.toNat < s.graph.nodes.length := (List.getElem?_eq_some.1 hnode).1
  constructor
  · intro hs
    unfold activateNode
    rw [if_neg (by omega)]
    simp only [hnode]
    rw [if_neg (by rw [hs]; decide), if_pos hs, modify_eq_set _ _ _ _ hnode]
    rw [fetchNode_not_fetching _ nodeIdx
      { node with status := NodeStatus.Pending, fetching := false }
      (by simp [List.getElem?_set, hlt]) h0 rfl]
    simp [List.set_set]
  · intro hs
    unfold activateNode
    rw [if_neg (by omega)]
    simp only [hnode]
    rw [if_pos hs]

/-- A concrete instance of C8: retrying the node whose fetch failed with 404. -/
theorem C8_activate_error_or_pending_witness :
    (activateNode failedState 0).http = [{ nodeIdx := 0, url := "https://a.example" }] ∧
    (activateNode failedState 0).graph.nodes
      = [{ Graph.newNode "https://a.example" Vec3.zero with
            status := NodeStatus.Pending, httpCode := 404, fetching := true }] :=
  have h := (C8_activate_error_or_pending failedState 0
    { Graph.newNode "https://a.example" Vec3.zero with
      status := NodeStatus.Error, httpCode := 404 }
    (by decide) rfl).1 rfl
  ⟨h.2.2.1, h.1⟩

/-! ### C9 -/

/-- C9: when the completion of a request issued for `(nodeIdx, url)` is delivered and
`nodeIdx` is not a valid node index, or the node now at `nodeIdx` has a URL different
from `url`, the delivery leaves the graph, every expansion queue and the spawn timer
unchanged, whatever the response contains. -/
theorem C9_stale_completion_discarded (E : Env) (s : App) (k : Nat) (r : Request)
    (resp : HttpResponse) (hk : s.http[k]? = some r)
    (hstale : r.nodeIdx < 0 ∨ r.nodeIdx ≥ (s.graph.nodes.length : Int) ∨
      ∃ n, s.graph.nodes[r.nodeIdx.toNat]? = some n ∧ n.url ≠ r.url) :
    (deliver E s k resp).graph = s.graph ∧
    (deliver E s k resp).pendingLinksPerNode = s.pendingLinksPerNode ∧
    (deliver E s k resp).linkSpawnTimer = s.linkSpawnTimer := by
  have hg : onComplete E r.nodeIdx r.url resp s.graph = s.graph := by
    unfold onComplete
    split_ifs with h1
    · rfl
    · rcases hstale with h | h | ⟨n, hn, hurl⟩
      · exact absurd (Or.inl h) h1
      · exact absurd (Or.inr h) h1
      · simp only [hn]
        rw [if_pos hurl]
  simp [deliver, hk, hg]

/-- A concrete instance of C9: the node was deleted and the graph is empty when the
completion for index 0 arrives. -/
theorem C9_stale_completion_discarded_witness :
    (deleteSelected oneSubmitted 0).http[0]?
      = some { nodeIdx := 0, url := "https://a.example" } ∧
    (deliver Env.sample (deleteSelected oneSubmitted 0) 0 notFound).graph
      = (deleteSelected oneSubmitted 0).graph :=
  ⟨by decide,
    (C9_stale_completion_discarded Env.sample (deleteSelected oneSubmitted 0) 0
      { nodeIdx := 0, url := "https://a.example" } notFound (by decide)
      (Or.inr (Or.inl (by decide)))).1⟩

/-! ### C10 -/

/-- C10 (the code at the failing input): `https://a.example` is submitted, its node is
deleted while request 0 is in flight, and the same URL is submitted again. When the
completion of request 0, issued for the deleted node, is then delivered with a 404
response, it passes validation against the new node at index 0 and mutates it: the node
goes from `Pending`, code 0, fetching to `Error`, code 404, not fetching. -/
theorem C10_completion_for_deleted_node_mutates_graph (E : Env) :
    oneSubmitted.http = [{ nodeIdx := 0, url := "https://a.example" }] ∧
    (deleteSelected oneSubmitted 0).graph.nodes = [] ∧
    resubmitted.http[0]? = some { nodeIdx := 0, url := "https://a.example" } ∧
    resubmitted.graph.nodes.map (fun n => (n.status, n.httpCode, n.fetching))
      = [(NodeStatus.Pending, 0, true)] ∧
    (deliver E resubmitted 0 notFound).graph.nodes.map
        (fun n => (n.status, n.httpCode, n.fetching))
      = [(NodeStatus.Error, 404, false)] ∧
    (deliver E resubmitted 0 notFound).graph ≠ resubmitted.graph := by
  refine ⟨by decide, by decide, by decide, by decide, ?_, ?_⟩
  · rfl
  · intro h
    have h2 : [false] = [true] := congrArg (fun g => g.nodes.map Node.fetching) h
    exact absurd h2 (by decide)

/-! ### C11, C12, C13: the completion callback on a validated node -/

theorem onComplete_valid (E : Env) (g : Graph) (i : Int) (url : String)
    (resp : HttpResponse) (node : Node) (h0 : 0 ≤ i)
    (hn : g.nodes[i.toNat]? = some node) (hu : node.url = url) :
    onComplete E i url resp g
      = { g with nodes := g.nodes.set i.toNat (completeNode E url resp node) } := by
  have hlt : i.toNat < g.nodes.length := (List.getElem?_eq_some.1 hn).1
  unfold onComplete
  rw [if_neg (by omega)]
  simp only [hn]
  rw [if_neg (by simp [hu]), modify_eq_set _ _ _ _ hn]

theorem deliver_valid (E : Env) (s : App) (k : Nat) (r : Request) (resp : HttpResponse)
    (node : Node) (hk : s.http[k]? = some r) (h0 : 0 ≤ r.nodeIdx)
    (hn : s.graph.nodes[r.nodeIdx.toNat]? = some node) (hu : node.url = r.url) :
    (deliver E s k resp).graph
      = { s.graph with
          nodes := s.graph.nodes.set r.nodeIdx.toNat (completeNode E r.url resp node) } := by
  unfold deliver
  simp only [hk]
  exact onComplete_valid E s.graph r.nodeIdx r.url resp node h0 hn hu

theorem completeNode_failure (E : Env) (url : String) (resp : HttpResponse) (node : Node)
    (hfail : resp.error ≠ "" ∨ resp.statusCode ≥ 400) :
    completeNode E url resp node
      = { node with
          fetching := false, status := NodeStatus.Error,
          httpCode := if resp.statusCode > 0 then resp.statusCode else -1 } := by
  unfold completeNode
  simp only []
  rw [if_pos hfail]

theorem completeNode_success (E : Env) (url : String) (resp : HttpResponse) (node : Node)
    (herr : resp.error = "") (hcode : resp.statusCode < 400) :
    completeNode E url resp node
      = { node with
          fetching := false, status := NodeStatus.Success,
          links := (E.extractLinks resp.body url).take 200,
          targetSize := 2/5 + 1/4 * E.logf (1 + (((E.extractLinks resp.body url).take 200).length : Rat))
            * (1 + E.logf (1 + (((E.extractLinks resp.body url).take 200).length : Rat)) * (1/10)) } := by
  have htake : (if (E.extractLinks resp.body url).length > 200
      then (E.extractLinks resp.body url).take 200 else E.extractLinks resp.body url)
      = (E.extractLinks resp.body url).take 200 := by
    split_ifs with h
    · rfl
    · exact (List.take_of_length_le (by omega)).symm
  unfold completeNode
  simp only []
  rw [if_neg (by simp only [herr, ne_eq, not_true_eq_false, false_or]; omega), htake]

/-- C11 (the code at the failing input): a completion with empty error and status 200
delivered to the freshly submitted node makes it `Success` but leaves `httpCode` at 0;
delivered after a retry of a node that failed with 404, it makes the node `Success` with
`httpCode` still 404. -/
theorem C11_success_completion_leaves_httpCode (E : Env) :
    (deliver E oneSubmitted 0 okResponse).graph.nodes.map (fun n => (n.status, n.httpCode))
      = [(NodeStatus.Success, 0)] ∧
    (deliver E (activateNode failedState 0) 0 okResponse).graph.nodes.map
        (fun n => (n.status, n.httpCode))
      = [(NodeStatus.Success, 404)] :=
  ⟨rfl, rfl⟩

/-- C13: when a completion with a non-empty error or `statusCode ≥ 400` is delivered to
a node that passes validation, that node gets status `Error`, `fetching == false` and
`httpCode` equal to the status code when positive and `-1` otherwise; its links,
`targetSize`, `expanded` flag and all other fields, every other node and every edge are
unchanged. -/
theorem C13_failed_completion_sets_error (E : Env) (s : App) (k : Nat) (r : Request)
    (resp : HttpResponse) (node : Node) (hk : s.http[k]? = some r) (h0 : 0 ≤ r.nodeIdx)
    (hn : s.graph.nodes[r.nodeIdx.toNat]? = some node) (hu : node.url = r.url)
    (hfail : resp.error ≠ "" ∨ resp.statusCode ≥ 400) :
    (deliver E s k resp).graph.nodes
      = s.graph.nodes.set r.nodeIdx.toNat
          { node with
            status := NodeStatus.Error, fetching := false,
            httpCode := if resp.statusCode > 0 then resp.statusCode else -1 } ∧
    (deliver E s k resp).graph.edges = s.graph.edges := by
  rw [deliver_valid E s k r resp node hk h0 hn hu, completeNode_failure E r.url resp node hfail]
  exact ⟨rfl, rfl⟩

/-- A concrete instance of C13: the 404 response for the submitted node. -/
theorem C13_failed_completion_sets_error_witness :
    (deliver Env.sample oneSubmitted 0 notFound).graph.nodes
      = [{ Graph.newNode "https://a.example" Vec3.zero with
            status := NodeStatus.Error, httpCode := 404 }] :=
  (C13_failed_completion_sets_error Env.sample oneSubmitted 0
    { nodeIdx := 0, url := "https://a.example" } notFound
    { Graph.newNode "https://a.example" Vec3.zero with fetching := true }
    (by decide) (by decide) rfl rfl (Or.inr (by decide))).1

/-! ### Node histories are kept by every step -/

theorem NodeHistory.step {E : Env} {n m : Node} (h : NodeHistory E n) (hs : NodeStep E n m) :
    NodeHistory E m := by
  obtain ⟨url, pos, hr⟩ := h
  exact ⟨url, pos, hr.tail hs⟩

theorem allHistory_modify {E : Env} (f : Node → Node) (i : Nat) (l : List Node)
    (hf : ∀ n, l[i]? = some n → NodeStep E n (f n)) (h : AllHistory E l) :
    AllHistory E (List.modify f i l) := by
  intro m hm
  obtain ⟨j, hj⟩ := List.mem_iff_getElem?.1 hm
  rw [List.getElem?_modify] at hj
  cases hlj : l[j]? with
  | none => simp [hlj] at hj
  | some a =>
    simp only [hlj, Option.map_eq_map, Option.map_some', Option.some.injEq] at hj
    have ha : a ∈ l := List.getElem?_mem hlj
    by_cases hij : i = j
    · subst hij
      simp only [if_true] at hj
      subst hj
      exact (h a ha).step (hf a hlj)
    · simp only [hij, if_false] at hj
      subst hj
      exact h a ha

theorem allHistory_map {E : Env} (f : Node → Node) (l : List Node)
    (hf : ∀ n, NodeStep E n (f n)) (h : AllHistory E l) : AllHistory E (l.map f) := by
  intro m hm
  obtain ⟨a, ha, rfl⟩ := List.mem_map.1 hm
  exact (h a ha).step (hf a)

theorem allHistory_append_new {E : Env} (l : List Node) (url : String) (pos : Vec3)
    (h : AllHistory E l) : AllHistory E (l ++ [Graph.newNode url pos]) := by
  intro m hm
  rcases List.mem_append.1 hm with hm | hm
  · exact h m hm
  · rw [List.mem_singleton] at hm
    subst hm
    exact ⟨url, pos, Relation.ReflTransGen.refl⟩

theorem allHistory_addEdge {E : Env} (g : Graph) (a b : Int) (h : AllHistory E g.nodes) :
    AllHistory E (g.addEdge a b).nodes := by
  unfold Graph.addEdge
  split_ifs
  · exact h
  · exact h
  · exact h
  · exact h
  · exact allHistory_modify _ _ _ (fun n _ => NodeStep.children n _) h

theorem allHistory_deleteNode {E : Env} (g : Graph) (idx : Int) (h : AllHistory E g.nodes) :
    AllHistory E (g.deleteNode idx).nodes := by
  unfold Graph.deleteNode
  split_ifs
  · exact h
  · intro m hm
    exact allHistory_map _ _ (fun n => NodeStep.children n _) h m
      (List.mem_of_mem_eraseIdx hm)

theorem allHistory_fetchNode {E : Env} (s : App) (idx : Int)
    (hp : ∀ n, s.graph.nodes[idx.toNat]? = some n → n.status = NodeStatus.Pending)
    (h : AllHistory E s.graph.nodes) : AllHistory E (fetchNode s idx).graph.nodes := by
  unfold fetchNode
  split_ifs
  · exact h
  · cases hn : s.graph.nodes[idx.toNat]? with
    | none => exact h
    | some node =>
      simp only []
      split_ifs
      · exact h
      · exact allHistory_modify _ _ _ (fun n hn' => NodeStep.fetch n (hp n hn')) h

theorem allHistory_onComplete {E : Env} (i : Int) (url : String) (resp : HttpResponse)
    (g : Graph) (h : AllHistory E g.nodes) :
    AllHistory E (onComplete E i url resp g).nodes := by
  unfold onComplete
  split_ifs
  · exact h
  · cases hn : g.nodes[i.toNat]? with
    | none => exact h
    | some node =>
      simp only []
      split_ifs
      · exact h
      · exact allHistory_modify _ _ _ (fun n _ => NodeStep.complete n url resp) h

theorem allHistory_deliver {E : Env} (s : App) (k : Nat) (resp : HttpResponse)
    (h : AllHistory E s.graph.nodes) : AllHistory E (deliver E s k resp).graph.nodes := by
  unfold deliver
  cases hk : s.http[k]? with
  | none => exact h
  | some r => exact allHistory_onComplete r.nodeIdx r.url resp s.graph h

theorem allHistory_submitUrl {E : Env} (s : App) (url : String) (pos : Vec3)
    (h : AllHistory E s.graph.nodes) : AllHistory E (submitUrl s url pos).graph.nodes := by
  unfold submitUrl
  apply allHistory_fetchNode
  · intro n hn
    simp only [Graph.addNode, List.length_append, List.length_singleton, Nat.cast_add,
      Nat.cast_one, add_sub_cancel_right, Int.toNat_ofNat] at hn
    rw [List.getElem?_append_right (le_refl _)] at hn
    simp only [Nat.sub_self, List.getElem?_cons_zero, Option.some.injEq] at hn
    subst hn
    rfl
  · exact allHistory_append_new _ url pos h

theorem allHistory_activateNode {E : Env} (s : App) (idx : Int)
    (h : AllHistory E s.graph.nodes) : AllHistory E (activateNode s idx).graph.nodes := by
  unfold activateNode
  split_ifs with hr
  · exact h
  · cases hn : s.graph.nodes[idx.toNat]? with
    | none => exact h
    | some node =>
      simp only []
      split_ifs
      · exact h
      · apply allHistory_fetchNode
        · intro n hn'
          simp only [List.getElem?_modify, hn, Option.map_eq_map, Option.map_some',
            if_true, Option.some.injEq] at hn'
          subst hn'
          rfl
        · exact allHistory_modify _ _ _ (fun n _ => NodeStep.retry n) h
      · exact h
      · exact allHistory_modify _ _ _ (fun n _ => NodeStep.expand n) h

theorem addEdge_getElem? (g : Graph) (a b : Int) (j : Nat) (n : Node)
    (h : (g.addEdge a b).nodes[j]? = some n) :
    ∃ n0, g.nodes[j]? = some n0 ∧ n = { n0 with childIndices := n.childIndices } := by
  unfold Graph.addEdge at h
  split_ifs at h
  · exact ⟨n, h, rfl⟩
  · exact ⟨n, h, rfl⟩
  · exact ⟨n, h, rfl⟩
  · exact ⟨n, h, rfl⟩
  · simp only [List.getElem?_modify] at h
    cases hj : g.nodes[j]? with
    | none => simp [hj] at h
    | some n0 =>
      simp only [hj, Option.map_eq_map, Option.map_some', Option.some.injEq] at h
      refine ⟨n0, rfl, ?_⟩
      split_ifs at h <;> subst h <;> rfl

theorem addNode_snd (g : Graph) (url : String) (pos : Vec3) :
    (g.addNode url pos).2 = (g.nodes.length : Int) := by
  simp [Graph.addNode]

theorem addNode_nodes (g : Graph) (url : String) (pos : Vec3) :
    (g.addNode url pos).1.nodes = g.nodes ++ [Graph.newNode url pos] := rfl

theorem addNode_edges (g : Graph) (url : String) (pos : Vec3) :
    (g.addNode url pos).1.edges = g.edges := rfl

theorem allHistory_serviceUrl {E : Env} (rnd : Int → Vec3) (s : App) (k : Int)
    (url : String) (h : AllHistory E s.graph.nodes) :
    AllHistory E (serviceUrl rnd s k url).graph.nodes := by
  unfold serviceUrl
  simp only []
  split_ifs
  · exact allHistory_addEdge _ _ _ h
  · split
    · exact h
    · apply allHistory_fetchNode
      · intro n hn
        obtain ⟨n0, hn0, hn1⟩ := addEdge_getElem? _ _ _ _ _ hn
        rw [addNode_snd, addNode_nodes, Int.toNat_ofNat,
          List.getElem?_append_right (le_refl _)] at hn0
        simp only [Nat.sub_self, List.getElem?_cons_zero, Option.some.injEq] at hn0
        rw [hn1, ← hn0]
        rfl
      · exact allHistory_addEdge _ _ _ (allHistory_append_new _ _ _ h)

theorem allHistory_serviceQueue {E : Env} (rnd : Int → Vec3) (s : App) (k : Int)
    (h : AllHistory E s.graph.nodes) : AllHistory E (serviceQueue rnd s k).graph.nodes := by
  unfold serviceQueue
  split
  · exact h
  · exact h
  · split_ifs <;> first | exact h | exact allHistory_serviceUrl rnd _ k _ h

theorem allHistory_foldl_serviceQueue {E : Env} (rnd : Int → Vec3) (ks : List Int) (s : App)
    (h : AllHistory E s.graph.nodes) :
    AllHistory E (ks.foldl (serviceQueue rnd) s).graph.nodes := by
  induction ks generalizing s with
  | nil => exact h
  | cons k rest ih => exact ih _ (allHistory_serviceQueue rnd s k h)

theorem allHistory_processPendingLinks {E : Env} (rnd : Int → Vec3) (s : App) (dt : Rat)
    (h : AllHistory E s.graph.nodes) :
    AllHistory E (processPendingLinks rnd s dt).graph.nodes := by
  have ha : AllHistory E (s.graph.nodes.map (animateNode dt)) :=
    allHistory_map _ _ (fun n => NodeStep.animate n dt) h
  unfold processPendingLinks processPendingLinksTraced
  simp only []
  split_ifs
  · exact ha
  · exact ha
  · exact allHistory_foldl_serviceQueue rnd _ _ ha

theorem allHistory_apply {E : Env} (s : App) (c : Cmd) (h : AllHistory E s.graph.nodes) :
    AllHistory E (c.apply E s).graph.nodes := by
  cases c with
  | submit url pos => exact allHistory_submitUrl s url pos h
  | activate idx => exact allHistory_activateNode s idx h
  | complete k resp => exact allHistory_deliver s k resp h
  | tick rnd dt => exact allHistory_processPendingLinks rnd s dt h
  | delete selected =>
    simp only [Cmd.apply, deleteSelected]
    split_ifs
    · exact allHistory_deleteNode _ _ h
    · exact h
  | clear =>
    intro n hn
    simp [Cmd.apply, clearAll, Graph.clear] at hn

theorem allHistory_run {E : Env} (cmds : List Cmd) (s : App)
    (h : AllHistory E s.graph.nodes) : AllHistory E (run E s cmds).graph.nodes := by
  induction cmds generalizing s with
  | nil => exact h
  | cons c rest ih => exact ih _ (allHistory_apply s c h)

theorem allHistory_reachable (E : Env) (cmds : List Cmd) :
    AllHistory E (run E App.init cmds).graph.nodes :=
  allHistory_run cmds App.init (by intro n hn; simp [App.init, Graph.empty] at hn)

theorem NodeHistory.induct {E : Env} (P : Node → Prop)
    (hnew : ∀ url pos, P (Graph.newNode url pos))
    (hstep : ∀ n m, NodeStep E n m → P n → P m) {n : Node} (h : NodeHistory E n) : P n := by
  obtain ⟨url, pos, hr⟩ := h
  induction hr with
  | refl => exact hnew url pos
  | tail _ hs ih => exact hstep _ _ hs ih

theorem completeNode_fetching (E : Env) (url : String) (resp : HttpResponse) (node : Node) :
    (completeNode E url resp node).fetching = false := by
  unfold completeNode
  simp only []
  split_ifs <;> rfl

theorem completeNode_links_le (E : Env) (url : String) (resp : HttpResponse) (node : Node)
    (h : node.links.length ≤ 200) : (completeNode E url resp node).links.length ≤ 200 := by
  by_cases hfail : resp.error ≠ "" ∨ resp.statusCode ≥ 400
  · rw [completeNode_failure E url resp node hfail]
    exact h
  · simp only [not_or, ne_eq, not_not, ge_iff_le, not_le] at hfail
    rw [completeNode_success E url resp node hfail.1 hfail.2]
    simp only [List.length_take]
    omega

/-! ### C12 -/

/-- C12: when a completion with empty error and `statusCode < 400` is delivered to a node
that passes validation, the node afterwards has status `Success`, `fetching == false` and
as links the first `min(200, n)` entries, in order, of the `n` links that `extractLinks`
returns for the body with the node's URL as base; and in every state reachable from
program start every node holds at most 200 links. -/
theorem C12_success_completion_links_capped (E : Env) :
    (∀ (s : App) (k : Nat) (r : Request) (resp : HttpResponse) (node : Node),
      s.http[k]? = some r → 0 ≤ r.nodeIdx →
      s.graph.nodes[r.nodeIdx.toNat]? = some node → node.url = r.url →
      resp.error = "" → resp.statusCode < 400 →
      ∃ node', (deliver E s k resp).graph.nodes[r.nodeIdx.toNat]? = some node' ∧
        node'.status = NodeStatus.Success ∧ node'.fetching = false ∧
        node'.links = (E.extractLinks resp.body node.url).take 200 ∧
        node'.links.length = min 200 (E.extractLinks resp.body node.url).length) ∧
    (∀ (cmds : List Cmd), ∀ n ∈ (run E App.init cmds).graph.nodes, n.links.length ≤ 200) := by
  constructor
  · intro s k r resp node hk h0 hn hu herr hcode
    have hlt : r.nodeIdx.toNat < s.graph.nodes.length := (List.getElem?_eq_some.1 hn).1
    have hget : ∀ x : Node, (s.graph.nodes.set r.nodeIdx.toNat x)[r.nodeIdx.toNat]? = some x := by
      intro x
      simp [List.getElem?_set, hlt]
    rw [deliver_valid E s k r resp node hk h0 hn hu,
      completeNode_success E r.url resp node herr hcode, hu]
    exact ⟨_, hget _, rfl, rfl, rfl, by simp [List.length_take]⟩
  · intro cmds n hn
    refine NodeHistory.induct (E := E) (fun n => n.links.length ≤ 200) ?_ ?_
      (allHistory_reachable E cmds n hn)
    · intro url pos
      simp [Graph.newNode]
    · intro a b hs ha
      cases hs with
      | children c => exact ha
      | animate dt => exact ha
      | fetch h => exact ha
      | complete url resp => exact completeNode_links_le E url resp a ha
      | retry => exact ha
      | expand => exact ha

/-- A concrete instance of C12: the 200 response for the submitted node. -/
theorem C12_success_completion_links_capped_witness :
    ∃ node', (deliver Env.sample oneSubmitted 0 okResponse).graph.nodes[
        (0 : Int).toNat]? = some node' ∧
      node'.status = NodeStatus.Success ∧ node'.fetching = false ∧
      node'.links = (Env.sample.extractLinks "" "https://a.example").take 200 ∧
      node'.links.length = min 200 (Env.sample.extractLinks "" "https://a.example").length :=
  (C12_success_completion_links_capped Env.sample).1 oneSubmitted 0
    { nodeIdx := 0, url := "https://a.example" } okResponse
    { Graph.newNode "https://a.example" Vec3.zero with fetching := true }
    (by decide) (by decide) rfl rfl rfl (by decide)

/-! ### C19 -/

/-- C19: in every state reachable from program start through URL submission,
`activateNode`, completion delivery, `processPendingLinks`, node deletion and clear, a
node whose `fetching` flag is true has status `Pending`. -/
theorem C19_fetching_implies_pending (E : Env) (cmds : List Cmd) :
    ∀ n ∈ (run E App.init cmds).graph.nodes,
      n.fetching = true → n.status = NodeStatus.Pending := by
  intro n hn
  refine NodeHistory.induct (E := E)
    (fun n => n.fetching = true → n.status = NodeStatus.Pending) ?_ ?_
    (allHistory_reachable E cmds n hn)
  · intro url pos h
    simp [Graph.newNode] at h
  · intro a b hs ha
    cases hs with
    | children c => exact ha
    | animate dt => exact ha
    | fetch h => exact fun _ => h
    | complete url resp =>
      intro hf
      rw [completeNode_fetching] at hf
      exact absurd hf (by decide)
    | retry => exact fun _ => rfl
    | expand => exact ha

/-- A concrete instance of C19: the node of the state reached by one URL submission has
`fetching` set and is `Pending`. -/
theorem C19_fetching_implies_pending_witness :
    ({ Graph.newNode "https://a.example" Vec3.zero with fetching := true } : Node)
        ∈ (run Env.sample App.init [Cmd.submit "https://a.example" Vec3.zero]).graph.nodes ∧
    ({ Graph.newNode "https://a.example" Vec3.zero with fetching := true } : Node).status
      = NodeStatus.Pending :=
  ⟨List.Mem.head _,
    C19_fetching_implies_pending Env.sample [Cmd.submit "https://a.example" Vec3.zero]
      { Graph.newNode "https://a.example" Vec3.zero with fetching := true }
      (List.Mem.head _) rfl⟩

/-! ### C20 -/

theorem urls_modify (f : Node → Node) (i : Nat) (l : List Node)
    (hf : ∀ n, (f n).url = n.url) :
    (List.modify f i l).map Node.url = l.map Node.url := by
  apply List.ext_getElem?
  intro j
  simp only [List.getElem?_map, List.getElem?_modify]
  cases l[j]? with
  | none => rfl
  | some n => by_cases hi : i = j <;> simp [hi, hf]

theorem urls_fetchNode (s : App) (idx : Int) :
    (fetchNode s idx).graph.nodes.map Node.url = s.graph.nodes.map Node.url := by
  unfold fetchNode
  split_ifs
  · rfl
  · cases hn : s.graph.nodes[idx.toNat]? with
    | none => rfl
    | some node =>
      simp only []
      split_ifs
      · rfl
      · exact urls_modify _ _ _ (fun _ => rfl)

theorem findNodeByUrlFrom_neg (url : String) (nodes : List Node) (i : Nat)
    (h : ¬ Graph.findNodeByUrlFrom url nodes i ≥ 0) : ∀ n ∈ nodes, n.url ≠ url := by
  induction nodes generalizing i with
  | nil => simp
  | cons n rest ih =>
    unfold Graph.findNodeByUrlFrom at h
    split_ifs at h with hu
    · exact absurd (Int.ofNat_nonneg i) h
    · intro m hm
      rcases List.mem_cons.1 hm with rfl | hm
      · exact hu
      · exact ih (i + 1) h m hm

theorem nodup_urls_serviceUrl (rnd : Int → Vec3) (s : App) (k : Int) (url : String)
    (h : (s.graph.nodes.map Node.url).Nodup) :
    ((serviceUrl rnd s k url).graph.nodes.map Node.url).Nodup := by
  unfold serviceUrl
  simp only []
  split_ifs with hex
  · rw [urls_addEdge]
    exact h
  · split
    · exact h
    · rw [urls_fetchNode, urls_addEdge, addNode_nodes, List.map_append]
      have hfresh := findNodeByUrlFrom_neg url s.graph.nodes 0 hex
      rw [List.nodup_append]
      refine ⟨h, List.nodup_singleton _, ?_⟩
      intro a ha hb
      simp only [List.map_cons, List.map_nil, List.mem_singleton] at hb
      obtain ⟨n, hn, rfl⟩ := List.mem_map.1 ha
      exact hfresh n hn (by simpa [Graph.newNode] using hb)

theorem nodup_urls_serviceQueue (rnd : Int → Vec3) (s : App) (k : Int)
    (h : (s.graph.nodes.map Node.url).Nodup) :
    ((serviceQueue rnd s k).graph.nodes.map Node.url).Nodup := by
  unfold serviceQueue
  split
  · exact h
  · exact h
  · split_ifs <;> first | exact h | exact nodup_urls_serviceUrl rnd _ k _ h

theorem nodup_urls_foldl_serviceQueue (rnd : Int → Vec3) (ks : List Int) (s : App)
    (h : (s.graph.nodes.map Node.url).Nodup) :
    ((ks.foldl (serviceQueue rnd) s).graph.nodes.map Node.url).Nodup := by
  induction ks generalizing s with
  | nil => exact h
  | cons k rest ih => exact ih _ (nodup_urls_serviceQueue rnd s k h)

theorem urls_animate (dt : Rat) (l : List Node) :
    (l.map (animateNode dt)).map Node.url = l.map Node.url := by
  rw [List.map_map]
  rfl

/-- C20: if all node URLs are pairwise distinct before a `processPendingLinks` call,
they are pairwise distinct after it, whatever the queues hold (the same URL under two
parents, a page's own URL) and whatever the time step and random offsets are. -/
theorem C20_expansion_keeps_urls_distinct (rnd : Int → Vec3) (s : App) (dt : Rat)
    (h : (s.graph.nodes.map Node.url).Nodup) :
    ((processPendingLinks rnd s dt).graph.nodes.map Node.url).Nodup := by
  have ha : ((s.graph.nodes.map (animateNode dt)).map Node.url).Nodup := by
    rw [urls_animate]
    exact h
  unfold processPendingLinks processPendingLinksTraced
  simp only []
  split_ifs
  · exact ha
  · exact ha
  · exact nodup_urls_foldl_serviceQueue rnd _ _ ha

/-- A concrete instance of C20: two parents whose queues start with the same URL, one of
them also linking to itself, serviced in one call. -/
theorem C20_expansion_keeps_urls_distinct_witness :
    (twoParents.graph.nodes.map Node.url).Nodup ∧
    ((processPendingLinks (fun _ => Vec3.zero) twoParents (1/100)).graph.nodes.map
      Node.url).Nodup :=
  ⟨by decide, C20_expansion_keeps_urls_distinct _ twoParents (1/100) (by decide)⟩

/-! ### C14 -/

theorem queueOf_eraseQueue_self (m : List (Int × List String)) (k : Int) :
    queueOf (eraseQueue m k) k = none := by
  induction m with
  | nil => rfl
  | cons p rest ih =>
    obtain ⟨k0, q⟩ := p
    by_cases hk : k0 = k
    · simpa [eraseQueue, List.filter_cons, hk] using ih
    · simpa [eraseQueue, List.filter_cons, hk, queueOf] using ih

theorem queueOf_eraseQueue_other (m : List (Int × List String)) (k k' : Int)
    (hne : k' ≠ k) : queueOf (eraseQueue m k) k' = queueOf m k' := by
  induction m with
  | nil => rfl
  | cons p rest ih =>
    obtain ⟨k0, q⟩ := p
    by_cases hk : k0 = k
    · subst hk
      simpa [eraseQueue, List.filter_cons, queueOf, Ne.symm hne] using ih
    · by_cases hk' : k0 = k'
      · subst hk'
        simp [eraseQueue, List.filter_cons, hk, queueOf]
      · simpa [eraseQueue, List.filter_cons, hk, queueOf, hk'] using ih

theorem queueOf_popQueue_self (m : List (Int × List String)) (k : Int) :
    queueOf (popQueue m k) k = (queueOf m k).map List.tail := by
  induction m with
  | nil => rfl
  | cons p rest ih =>
    obtain ⟨k0, q⟩ := p
    by_cases hk : k0 = k
    · simp [popQueue, queueOf, hk]
    · simp [popQueue, queueOf, hk, ih]

theorem queueOf_popQueue_other (m : List (Int × List String)) (k k' : Int)
    (hne : k' ≠ k) : queueOf (popQueue m k) k' = queueOf m k' := by
  induction m with
  | nil => rfl
  | cons p rest ih =>
    obtain ⟨k0, q⟩ := p
    by_cases hk : k0 = k
    · subst hk
      simp [popQueue, queueOf, Ne.symm hne]
    · by_cases hk' : k0 = k'
      · subst hk'
        simp [popQueue, queueOf, hk]
      · simp [popQueue, queueOf, hk, hk', ih]

theorem fetchNode_queues (s : App) (idx : Int) :
    (fetchNode s idx).pendingLinksPerNode = s.pendingLinksPerNode := by
  unfold fetchNode
  split_ifs
  · rfl
  · cases s.graph.nodes[idx.toNat]? with
    | none => rfl
    | some node =>
      simp only []
      split_ifs <;> rfl

theorem fetchNode_length (s : App) (idx : Int) :
    (fetchNode s idx).graph.nodes.length = s.graph.nodes.length := by
  have h := congrArg List.length (urls_fetchNode s idx)
  simpa using h

theorem addEdge_length (g : Graph) (a b : Int) :
    (g.addEdge a b).nodes.length = g.nodes.length := by
  have h := congrArg List.length (urls_addEdge g a b)
  simpa using h

theorem serviceUrl_queues (rnd : Int → Vec3) (s : App) (k : Int) (url : String) :
    (serviceUrl rnd s k url).pendingLinksPerNode = s.pendingLinksPerNode := by
  unfold serviceUrl
  simp only []
  split_ifs
  · rfl
  · split
    · rfl
    · rw [fetchNode_queues]

theorem serviceUrl_length_le (rnd : Int → Vec3) (s : App) (k : Int) (url : String) :
    s.graph.nodes.length ≤ (serviceUrl rnd s k url).graph.nodes.length := by
  unfold serviceUrl
  simp only []
  split_ifs
  · rw [addEdge_length]
  · split
    · exact le_refl _
    · rw [fetchNode_length, addEdge_length, addNode_nodes]
      simp

theorem serviceQueue_cases (rnd : Int → Vec3) (s : App) (k : Int) :
    (queueOf s.pendingLinksPerNode k = none ∧ serviceQueue rnd s k = s) ∨
    ((queueOf s.pendingLinksPerNode k = some [] ∨
        ∃ u rest, queueOf s.pendingLinksPerNode k = some (u :: rest) ∧
          (k < 0 ∨ k ≥ (s.graph.nodes.length : Int))) ∧
      serviceQueue rnd s k
        = { s with pendingLinksPerNode := eraseQueue s.pendingLinksPerNode k }) ∨
    (∃ u rest, queueOf s.pendingLinksPerNode k = some (u :: rest) ∧
      ¬ (k < 0 ∨ k ≥ (s.graph.nodes.length : Int)) ∧
      serviceQueue rnd s k
        = serviceUrl rnd
            { s with
              pendingLinksPerNode :=
                if rest.isEmpty then eraseQueue (popQueue s.pendingLinksPerNode k) k
                else popQueue s.pendingLinksPerNode k }
            k u) := by
  unfold serviceQueue
  split
  · rename_i h
    exact Or.inl ⟨h, rfl⟩
  · rename_i h
    exact Or.inr (Or.inl ⟨Or.inl h, rfl⟩)
  · rename_i u rest h
    by_cases hv : k < 0 ∨ k ≥ (s.graph.nodes.length : Int)
    · rw [if_pos hv]
      exact Or.inr (Or.inl ⟨Or.inr ⟨u, rest, h, hv⟩, rfl⟩)
    · rw [if_neg hv]
      exact Or.inr (Or.inr ⟨u, rest, h, hv, rfl⟩)

theorem serviceQueue_length_le (rnd : Int → Vec3) (s : App) (k : Int) :
    s.graph.nodes.length ≤ (serviceQueue rnd s k).graph.nodes.length := by
  rcases serviceQueue_cases rnd s k with ⟨_, h⟩ | ⟨_, h⟩ | ⟨u, rest, _, _, h⟩
  · rw [h]
  · rw [h]
  · rw [h]
    refine le_trans (le_of_eq ?_) (serviceUrl_length_le rnd _ k u)
    rfl

theorem serviceQueue_other (rnd : Int → Vec3) (s : App) (k k' : Int) (hne : k' ≠ k) :
    queueOf (serviceQueue rnd s k).pendingLinksPerNode k'
      = queueOf s.pendingLinksPerNode k' := by
  rcases serviceQueue_cases rnd s k with ⟨_, h⟩ | ⟨_, h⟩ | ⟨u, rest, _, _, h⟩
  · rw [h]
  · rw [h]
    exact queueOf_eraseQueue_other _ _ _ hne
  · rw [h, serviceUrl_queues]
    simp only []
    split_ifs
    · rw [queueOf_eraseQueue_other _ _ _ hne, queueOf_popQueue_other _ _ _ hne]
    · exact queueOf_popQueue_other _ _ _ hne

theorem serviceQueue_self (rnd : Int → Vec3) (s : App) (k : Int) :
    queueOf (serviceQueue rnd s k).pendingLinksPerNode k =
      match queueOf s.pendingLinksPerNode k with
      | none => none
      | some [] => none
      | some (_ :: rest) =>
        if k < 0 ∨ k ≥ (s.graph.nodes.length : Int) then none
        else if rest = [] then none else some rest := by
  rcases serviceQueue_cases rnd s k with ⟨hq, h⟩ | ⟨hq, h⟩ | ⟨u, rest, hq, hv, h⟩
  · rw [h, hq]
  · rw [h, queueOf_eraseQueue_self]
    rcases hq with hq | ⟨u, rest, hq, hv⟩
    · rw [hq]
    · rw [hq]
      simp only [if_pos hv]
  · rw [h, serviceUrl_queues, hq]
    simp only [if_neg hv]
    by_cases hr : rest = []
    · subst hr
      simp [queueOf_eraseQueue_self]
    · have hr' : rest.isEmpty = false := by
        cases rest with
        | nil => exact absurd rfl hr
        | cons a t => rfl
      simp [hr, hr', queueOf_popQueue_self, hq]

theorem foldl_serviceQueue_length_le (rnd : Int → Vec3) (ks : List Int) (s : App) :
    s.graph.nodes.length ≤ (ks.foldl (serviceQueue rnd) s).graph.nodes.length := by
  induction ks generalizing s with
  | nil => exact le_refl _
  | cons k rest ih => exact le_trans (serviceQueue_length_le rnd s k) (ih _)

theorem foldl_serviceQueue_other (rnd : Int → Vec3) (ks : List Int) (s : App) (k : Int)
    (hk : k ∉ ks) :
    queueOf (ks.foldl (serviceQueue rnd) s).pendingLinksPerNode k
      = queueOf s.pendingLinksPerNode k := by
  induction ks generalizing s with
  | nil => rfl
  | cons k0 rest ih =>
    simp only [List.mem_cons, not_or] at hk
    rw [List.foldl_cons, ih _ hk.2, serviceQueue_other rnd s k0 k hk.1]

theorem foldl_serviceQueue_at (rnd : Int → Vec3) (ks : List Int) (hnd : ks.Nodup) (s : App)
    (k : Int) (hk : k ∈ ks) :
    ∃ s1 : App, s.graph.nodes.length ≤ s1.graph.nodes.length ∧
      s1.graph.nodes.length ≤ (ks.foldl (serviceQueue rnd) s).graph.nodes.length ∧
      queueOf s1.pendingLinksPerNode k = queueOf s.pendingLinksPerNode k ∧
      queueOf (ks.foldl (serviceQueue rnd) s).pendingLinksPerNode k
        = queueOf (serviceQueue rnd s1 k).pendingLinksPerNode k := by
  induction ks generalizing s with
  | nil => simp at hk
  | cons k0 rest ih =>
    rw [List.nodup_cons] at hnd
    by_cases h0 : k = k0
    · subst h0
      refine ⟨s, le_refl _, ?_, rfl, ?_⟩
      · exact foldl_serviceQueue_length_le rnd (k :: rest) s
      · exact foldl_serviceQueue_other rnd rest _ k hnd.1
    · have hk' : k ∈ rest := by
        rcases List.mem_cons.1 hk with h | h
        · exact absurd h h0
        · exact h
      obtain ⟨s1, h1, h2, h3, h4⟩ := ih hnd.2 (serviceQueue rnd s k0) hk'
      refine ⟨s1, le_trans (serviceQueue_length_le rnd s k0) h1, h2, ?_, h4⟩
      rw [h3, serviceQueue_other rnd s k0 k h0]

theorem queueOf_eq_none_of_not_mem (m : List (Int × List String)) (k : Int)
    (hk : k ∉ m.map Prod.fst) : queueOf m k = none := by
  induction m with
  | nil => rfl
  | cons p rest ih =>
    obtain ⟨k0, q⟩ := p
    simp only [List.map_cons, List.mem_cons, not_or] at hk
    simp [queueOf, Ne.symm hk.1, ih hk.2]

theorem keys_popQueue (m : List (Int × List String)) (k : Int) :
    (popQueue m k).map Prod.fst = m.map Prod.fst := by
  induction m with
  | nil => rfl
  | cons p rest ih =>
    obtain ⟨k0, q⟩ := p
    by_cases hk : k0 = k
    · simp [popQueue, hk]
    · simp [popQueue, hk, ih]

theorem keys_eraseQueue_nodup (m : List (Int × List String)) (k : Int)
    (h : (m.map Prod.fst).Nodup) : ((eraseQueue m k).map Prod.fst).Nodup :=
  List.Nodup.sublist (List.Sublist.map _ (List.filter_sublist m)) h

theorem keys_serviceQueue_nodup (rnd : Int → Vec3) (s : App) (k : Int)
    (h : (s.pendingLinksPerNode.map Prod.fst).Nodup) :
    ((serviceQueue rnd s k).pendingLinksPerNode.map Prod.fst).Nodup := by
  rcases serviceQueue_cases rnd s k with ⟨_, hs⟩ | ⟨_, hs⟩ | ⟨u, rest, _, _, hs⟩
  · rw [hs]
    exact h
  · rw [hs]
    exact keys_eraseQueue_nodup _ _ h
  · rw [hs, serviceUrl_queues]
    simp only []
    split_ifs
    · exact keys_eraseQueue_nodup _ _ (by rw [keys_popQueue]; exact h)
    · rw [keys_popQueue]
      exact h

theorem keys_foldl_serviceQueue_nodup (rnd : Int → Vec3) (ks : List Int) (s : App)
    (h : (s.pendingLinksPerNode.map Prod.fst).Nodup) :
    ((ks.foldl (serviceQueue rnd) s).pendingLinksPerNode.map Prod.fst).Nodup := by
  induction ks generalizing s with
  | nil => exact h
  | cons k rest ih => exact ih _ (keys_serviceQueue_nodup rnd s k h)

theorem queueOf_of_mem (m : List (Int × List String)) (h : (m.map Prod.fst).Nodup)
    (k : Int) (q : List String) (hm : (k, q) ∈ m) : queueOf m k = some q := by
  induction m with
  | nil => simp at hm
  | cons p rest ih =>
    obtain ⟨k0, q0⟩ := p
    simp only [List.map_cons, List.nodup_cons] at h
    rcases List.mem_cons.1 hm with heq | hm
    · simp only [Prod.mk.injEq] at heq
      simp [queueOf, heq.1, heq.2]
    · have hne : k0 ≠ k := by
        intro hk
        apply h.1
        rw [hk]
        exact List.mem_map.2 ⟨(k, q), hm, rfl⟩
      simp [queueOf, hne, ih h.2 hm]

/-- C14 (as stated, refuted): in `staleQueues` the queue stored under key 2 belongs to
an invalid parent index (the graph has two nodes), yet one service event does not erase
it: the queue under key 1 is serviced first and creates the node with index 2, after
which the loop pops the front of queue 2 and keeps the rest. -/
theorem C14_queue_of_invalid_parent_survives :
    (staleQueues.pendingLinksPerNode.map Prod.fst).Nodup ∧
    staleQueues.graph.nodes.length = 2 ∧
    queueOf staleQueues.pendingLinksPerNode 2
      = some ["https://y.example", "https://z.example"] ∧
    queueOf (serviceEvent (fun _ => Vec3.zero) staleQueues).pendingLinksPerNode 2
      = some ["https://z.example"] := by
  decide

/-- C14 (amended): in one queue-service event on a map with one queue per key, every
non-empty queue whose parent index is a valid node index loses exactly its front URL and
keeps the rest in order, being erased when nothing is left; every empty queue is erased;
no queue is left under a key that is negative or not below the node count at the end of
the event; no queue appears under a key that had none; and no empty queue is left in the
map. -/
theorem C14_service_event_on_queues (rnd : Int → Vec3) (s : App)
    (hnd : (s.pendingLinksPerNode.map Prod.fst).Nodup) :
    (∀ k u rest, queueOf s.pendingLinksPerNode k = some (u :: rest) →
      0 ≤ k → k < (s.graph.nodes.length : Int) →
      queueOf (serviceEvent rnd s).pendingLinksPerNode k
        = if rest = [] then none else some rest) ∧
    (∀ k, queueOf s.pendingLinksPerNode k = some [] →
      queueOf (serviceEvent rnd s).pendingLinksPerNode k = none) ∧
    (∀ k, (k < 0 ∨ k ≥ ((serviceEvent rnd s).graph.nodes.length : Int)) →
      queueOf (serviceEvent rnd s).pendingLinksPerNode k = none) ∧
    (∀ k, queueOf s.pendingLinksPerNode k = none →
      queueOf (serviceEvent rnd s).pendingLinksPerNode k = none) ∧
    (∀ p ∈ (serviceEvent rnd s).pendingLinksPerNode, p.2 ≠ []) := by
  have hkey : ∀ k, k ∉ s.pendingLinksPerNode.map Prod.fst →
      queueOf (serviceEvent rnd s).pendingLinksPerNode k = none := by
    intro k hk
    unfold serviceEvent
    rw [foldl_serviceQueue_other rnd _ s k hk]
    exact queueOf_eq_none_of_not_mem _ _ hk
  have hat : ∀ k, k ∈ s.pendingLinksPerNode.map Prod.fst →
      ∃ s1 : App, s.graph.nodes.length ≤ s1.graph.nodes.length ∧
        s1.graph.nodes.length ≤ (serviceEvent rnd s).graph.nodes.length ∧
        queueOf s1.pendingLinksPerNode k = queueOf s.pendingLinksPerNode k ∧
        queueOf (serviceEvent rnd s).pendingLinksPerNode k
          = queueOf (serviceQueue rnd s1 k).pendingLinksPerNode k :=
    fun k hk => foldl_serviceQueue_at rnd _ hnd s k hk
  have hnotnil : ∀ k, queueOf (serviceEvent rnd s).pendingLinksPerNode k ≠ some [] := by
    intro k
    by_cases hk : k ∈ s.pendingLinksPerNode.map Prod.fst
    · obtain ⟨s1, _, _, _, h4⟩ := hat k hk
      rw [h4, serviceQueue_self]
      split
      · simp
      · simp
      · split_ifs with h1 h2
        · simp
        · simp
        · simpa using h2
    · rw [hkey k hk]
      simp
  refine ⟨?_, ?_, ?_, ?_, ?_⟩
  · intro k u rest hq h0 hlt
    by_cases hk : k ∈ s.pendingLinksPerNode.map Prod.fst
    · obtain ⟨s1, h1, _, h3, h4⟩ := hat k hk
      rw [h4, serviceQueue_self, h3, hq]
      simp only []
      rw [if_neg (by omega)]
    · rw [queueOf_eq_none_of_not_mem _ _ hk] at hq
      simp at hq
  · intro k hq
    by_cases hk : k ∈ s.pendingLinksPerNode.map Prod.fst
    · obtain ⟨s1, _, _, h3, h4⟩ := hat k hk
      rw [h4, serviceQueue_self, h3, hq]
    · exact hkey k hk
  · intro k hinv
    by_cases hk : k ∈ s.pendingLinksPerNode.map Prod.fst
    · obtain ⟨s1, _, h2, _, h4⟩ := hat k hk
      rw [h4, serviceQueue_self]
      split
      · rfl
      · rfl
      · rw [if_pos (by omega)]
    · exact hkey k hk
  · intro k hq
    by_cases hk : k ∈ s.pendingLinksPerNode.map Prod.fst
    · obtain ⟨s1, _, _, h3, h4⟩ := hat k hk
      rw [h4, serviceQueue_self, h3, hq]
    · exact hkey k hk
  · intro p hp hnil
    have hnd' : ((serviceEvent rnd s).pendingLinksPerNode.map Prod.fst).Nodup :=
      keys_foldl_serviceQueue_nodup rnd _ s hnd
    have := queueOf_of_mem _ hnd' p.1 p.2 hp
    rw [hnil] at this
    exact hnotnil p.1 this

/-- A concrete instance of C14: both queues of `twoParents` belong to valid parents; the
one-element queue is erased and the other keeps its second URL. -/
theorem C14_service_event_on_queues_witness :
    (twoParents.pendingLinksPerNode.map Prod.fst).Nodup ∧
    queueOf (serviceEvent (fun _ => Vec3.zero) twoParents).pendingLinksPerNode 0 = none ∧
    queueOf (serviceEvent (fun _ => Vec3.zero) twoParents).pendingLinksPerNode 1
      = some ["https://b.example"] :=
  have h := C14_service_event_on_queues (fun _ => Vec3.zero) twoParents (by decide)
  ⟨by decide, h.1 0 "https://x.example" [] rfl (by decide) (by decide),
    h.1 1 "https://x.example" ["https://b.example"] rfl (by decide) (by decide)⟩

/-! ### C16 -/

/-- C17 (the code at the failing input): node `b` at index 1 is activated, so its link
is queued under key 1; then node `a` at index 0 is deleted. The delete command erases
only key 0, so `b` (now index 0) has no queue and its queue stays under key 1, which now
is the index of `c`. The next service event links the new node for `b`'s URL to `c`:
the only edge is `(1, 2)`. -/
theorem C17_queue_stays_under_old_index :
    (activateNode threeCrawled 1).graph.nodes.map Node.url
      = ["https://a.example", "https://b.example", "https://c.example"] ∧
    (activateNode threeCrawled 1).pendingLinksPerNode = [(1, ["https://x.example"])] ∧
    activatedThenDeleted.graph.nodes.map Node.url
      = ["https://b.example", "https://c.example"] ∧
    queueOf activatedThenDeleted.pendingLinksPerNode 0 = none ∧
    queueOf activatedThenDeleted.pendingLinksPerNode 1 = some ["https://x.example"] ∧
    (serviceEvent noOffset activatedThenDeleted).graph.nodes.map Node.url
      = ["https://b.example", "https://c.example", "https://x.example"] ∧
    (serviceEvent noOffset activatedThenDeleted).graph.edges.map (fun e => (e.from_, e.to_))
      = [(1, 2)] := by
  decide

/-! ### C18 -/

/-- C18 (the code at the failing input): `a` and `b` are submitted, then `a` (index 0)
is deleted, so `b` moves to index 0 while its request still carries index 1. Delivering
that request's completion finds index 1 out of range and discards it: `b` stays
`Pending` with `fetching` set, the request is gone, and `activateNode` on `b` does
nothing. -/
theorem C18_completion_lost_after_index_shift (E : Env) :
    (deleteSelected twoSubmitted 0).graph.nodes.map
        (fun n => (n.url, n.status, n.fetching))
      = [("https://b.example", NodeStatus.Pending, true)] ∧
    (deleteSelected twoSubmitted 0).http[1]?
      = some { nodeIdx := 1, url := "https://b.example" } ∧
    (deliver E (deleteSelected twoSubmitted 0) 1 okResponse).graph.nodes.map
        (fun n => (n.url, n.status, n.fetching))
      = [("https://b.example", NodeStatus.Pending, true)] ∧
    (deliver E (deleteSelected twoSubmitted 0) 1 okResponse).http
      = [{ nodeIdx := 0, url := "https://a.example" }] ∧
    activateNode (deliver E (deleteSelected twoSubmitted 0) 1 okResponse) 0
      = deliver E (deleteSelected twoSubmitted 0) 1 okResponse :=
  ⟨rfl, rfl, rfl, rfl, rfl⟩

/-! ### Edge endpoints stay below the node count -/

theorem edgesInRange_addEdge (g : Graph) (a b : Int) (h : EdgesInRange g) :
    EdgesInRange (g.addEdge a b) := by
  intro e he
  rw [addEdge_length]
  unfold Graph.addEdge at he
  split_ifs at he with h1 h2 h3 h4
  · exact h e he
  · exact h e he
  · exact h e he
  · exact h e he
  · rcases List.mem_append.1 he with he | he
    · exact h e he
    · rw [List.mem_singleton] at he
      subst he
      constructor <;> simp only <;> omega

theorem edgesInRange_addNode (g : Graph) (url : String) (pos : Vec3) (h : EdgesInRange g) :
    EdgesInRange (g.addNode url pos).1 := by
  intro e he
  have := h e he
  simp only [addNode_nodes, List.length_append, List.length_singleton, Nat.cast_add,
    Nat.cast_one]
  omega

theorem edgesInRange_deleteNode (g : Graph) (idx : Int) (h : EdgesInRange g) :
    EdgesInRange (g.deleteNode idx) := by
  by_cases hr : idx < 0 ∨ idx ≥ (g.nodes.length : Int)
  · unfold Graph.deleteNode
    rw [if_pos hr]
    exact h
  · intro e he
    rw [length_deleteNode g idx (by omega) (by omega)]
    unfold Graph.deleteNode at he
    rw [if_neg hr] at he
    simp only [List.mem_map, List.mem_filter, Bool.not_eq_true', Bool.or_eq_false_iff,
      beq_eq_false_iff_ne, ne_eq] at he
    obtain ⟨e0, ⟨he0, hk⟩, rfl⟩ := he
    obtain ⟨a1, b1⟩ := h e0 he0
    have hlen : 0 < g.nodes.length := by omega
    simp only [Graph.shiftIndex]
    constructor <;> split_ifs <;> omega

theorem fetchNode_edges (s : App) (idx : Int) :
    (fetchNode s idx).graph.edges = s.graph.edges := by
  unfold fetchNode
  split_ifs
  · rfl
  · cases s.graph.nodes[idx.toNat]? with
    | none => rfl
    | some node =>
      simp only []
      split_ifs <;> rfl

theorem edgesInRange_fetchNode (s : App) (idx : Int) (h : EdgesInRange s.graph) :
    EdgesInRange (fetchNode s idx).graph := by
  intro e he
  rw [fetchNode_edges] at he
  rw [fetchNode_length]
  exact h e he

theorem edgesInRange_onComplete (E : Env) (i : Int) (url : String) (resp : HttpResponse)
    (g : Graph) (h : EdgesInRange g) : EdgesInRange (onComplete E i url resp g) := by
  unfold onComplete
  split_ifs
  · exact h
  · cases hn : g.nodes[i.toNat]? with
    | none => exact h
    | some node =>
      simp only []
      split_ifs
      · exact h
      · intro e he
        simp only [List.length_modify]
        exact h e he

theorem edgesInRange_activateNode (s : App) (idx : Int) (h : EdgesInRange s.graph) :
    EdgesInRange (activateNode s idx).graph := by
  unfold activateNode
  split_ifs
  · exact h
  · cases hn : s.graph.nodes[idx.toNat]? with
    | none => exact h
    | some node =>
      simp only []
      split_ifs
      · exact h
      · apply edgesInRange_fetchNode
        intro e he
        simp only [List.length_modify]
        exact h e he
      · exact h
      · intro e he
        simp only [List.length_modify]
        exact h e he

theorem edgesInRange_serviceUrl (rnd : Int → Vec3) (s : App) (k : Int) (url : String)
    (h : EdgesInRange s.graph) : EdgesInRange (serviceUrl rnd s k url).graph := by
  unfold serviceUrl
  simp only []
  split_ifs
  · exact edgesInRange_addEdge _ _ _ h
  · split
    · exact h
    · exact edgesInRange_fetchNode _ _
        (edgesInRange_addEdge _ _ _ (edgesInRange_addNode _ _ _ h))

theorem edgesInRange_serviceQueue (rnd : Int → Vec3) (s : App) (k : Int)
    (h : EdgesInRange s.graph) : EdgesInRange (serviceQueue rnd s k).graph := by
  rcases serviceQueue_cases rnd s k with ⟨_, hs⟩ | ⟨_, hs⟩ | ⟨u, rest, _, _, hs⟩
  · rw [hs]
    exact h
  · rw [hs]
    exact h
  · rw [hs]
    exact edgesInRange_serviceUrl rnd _ k u h

theorem edgesInRange_foldl_serviceQueue (rnd : Int → Vec3) (ks : List Int) (s : App)
    (h : EdgesInRange s.graph) : EdgesInRange (ks.foldl (serviceQueue rnd) s).graph := by
  induction ks generalizing s with
  | nil => exact h
  | cons k rest ih => exact ih _ (edgesInRange_serviceQueue rnd s k h)

theorem edgesInRange_processPendingLinks (rnd : Int → Vec3) (s : App) (dt : Rat)
    (h : EdgesInRange s.graph) : EdgesInRange (processPendingLinks rnd s dt).graph := by
  have ha : EdgesInRange
      { nodes := s.graph.nodes.map (animateNode dt),
        edges := s.graph.edges.map (animateEdge dt) } := by
    intro e he
    simp only [List.mem_map] at he
    obtain ⟨e0, he0, rfl⟩ := he
    simp only [List.length_map]
    exact h e0 he0
  unfold processPendingLinks processPendingLinksTraced
  simp only []
  split_ifs
  · exact ha
  · exact ha
  · exact edgesInRange_foldl_serviceQueue rnd _ _ ha

theorem edgesInRange_apply (E : Env) (s : App) (c : Cmd) (h : EdgesInRange s.graph) :
    EdgesInRange (c.apply E s).graph := by
  cases c with
  | submit url pos =>
    exact edgesInRange_fetchNode _ _ (edgesInRange_addNode _ _ _ h)
  | activate idx => exact edgesInRange_activateNode s idx h
  | complete k resp =>
    simp only [Cmd.apply, deliver]
    cases s.http[k]? with
    | none => exact h
    | some r => exact edgesInRange_onComplete E _ _ _ _ h
  | tick rnd dt => exact edgesInRange_processPendingLinks rnd s dt h
  | delete selected =>
    simp only [Cmd.apply, deleteSelected]
    split_ifs
    · exact edgesInRange_deleteNode _ _ h
    · exact h
  | clear =>
    intro e he
    simp [Cmd.apply, clearAll, Graph.clear] at he

theorem edgesInRange_reachable (E : Env) (cmds : List Cmd) :
    EdgesInRange (run E App.init cmds).graph := by
  have hgen : ∀ (cmds : List Cmd) (s : App), EdgesInRange s.graph →
      EdgesInRange (run E s cmds).graph := by
    intro cmds
    induction cmds with
    | nil => exact fun s h => h
    | cons c rest ih => exact fun s h => ih _ (edgesInRange_apply E s c h)
  exact hgen cmds App.init (by intro e he; simp [App.init, Graph.empty] at he)

/-! ### C15 -/

theorem modify_append_left {α : Type} (f : α → α) (i : Nat) (l t : List α)
    (h : i < l.length) : List.modify f i (l ++ t) = List.modify f i l ++ t := by
  have ha : l[i]? = some l[i] := List.getElem?_eq_getElem h
  rw [modify_eq_set f (l ++ t) i l[i] (by rw [List.getElem?_append_left h]; exact ha),
    modify_eq_set f l i l[i] ha, List.set_append_left _ _ h]

theorem map_modify_of_eq {β : Type} (g : Node → β) (f : Node → Node) (i : Nat)
    (l : List Node) (hf : ∀ n, g (f n) = g n) : (List.modify f i l).map g = l.map g := by
  apply List.ext_getElem?
  intro j
  simp only [List.getElem?_map, List.getElem?_modify]
  cases l[j]? with
  | none => rfl
  | some n => by_cases hi : i = j <;> simp [hi, hf]

theorem serviceUrl_new (rnd : Int → Vec3) (s : App) (p : Int) (u : String) (parent : Node)
    (h0 : 0 ≤ p) (hp : s.graph.nodes[p.toNat]? = some parent)
    (hu : ∀ n ∈ s.graph.nodes, n.url ≠ u) (he : EdgesInRange s.graph) :
    serviceUrl rnd s p u =
      { s with
        graph :=
          { nodes :=
              List.modify
                (fun n => { n with childIndices := n.childIndices ++ [(s.graph.nodes.length : Int)] })
                p.toNat s.graph.nodes
              ++ [{ Graph.newNode u (parent.position.add (rnd p)) with fetching := true }],
            edges := s.graph.edges ++
              [{ from_ := p, to_ := (s.graph.nodes.length : Int), restLength := 9/2,
                 fadeIn := 0 }] },
        http := s.http ++ [{ nodeIdx := (s.graph.nodes.length : Int), url := u }] } := by
  have hlt : p.toNat < s.graph.nodes.length := (List.getElem?_eq_some.1 hp).1
  have hfind : s.graph.findNodeByUrl u = -1 :=
    (findNodeByUrlFrom_eq_neg_one u s.graph.nodes 0).2 hu
  have hno : (s.graph.addNode u (parent.position.add (rnd p))).1.hasEdge p
      (s.graph.nodes.length : Int) = false := by
    rw [hasEdge_eq_false_iff]
    intro e he'
    have := he e he'
    omega
  have hadd : (s.graph.addNode u (parent.position.add (rnd p))).1.addEdge p
      (s.graph.nodes.length : Int) =
      { nodes :=
          List.modify
            (fun n => { n with childIndices := n.childIndices ++ [(s.graph.nodes.length : Int)] })
            p.toNat s.graph.nodes
          ++ [Graph.newNode u (parent.position.add (rnd p))],
        edges := s.graph.edges ++
          [{ from_ := p, to_ := (s.graph.nodes.length : Int), restLength := 9/2,
             fadeIn := 0 }] } := by
    unfold Graph.addEdge
    rw [if_neg (by omega),
      if_neg (by simp only [addNode_nodes, List.length_append, List.length_singleton,
        Nat.cast_add, Nat.cast_one]; omega),
      if_neg (by simp only [addNode_nodes, List.length_append, List.length_singleton,
        Nat.cast_add, Nat.cast_one]; omega),
      if_neg (by rw [hno]; decide)]
    rw [addNode_nodes, addNode_edges, modify_append_left _ _ _ _ hlt]
  unfold serviceUrl
  simp only [hfind]
  rw [if_neg (by decide)]
  simp only [hp]
  rw [addNode_snd, hadd]
  rw [fetchNode_not_fetching _ (s.graph.nodes.length : Int)
    (Graph.newNode u (parent.position.add (rnd p)))
    (by
      simp only [Int.toNat_ofNat]
      rw [List.getElem?_append_right (by simp)]
      simp)
    (Int.ofNat_nonneg _) rfl]
  simp only [Int.toNat_ofNat]
  rw [List.set_append_right _ _ (by simp)]
  simp [Graph.newNode]

theorem serviceEvent_single (rnd : Int → Vec3) (s : App) (p : Int) (u : String)
    (rest : List String) (parent : Node) (hm : s.pendingLinksPerNode = [(p, u :: rest)])
    (h0 : 0 ≤ p) (hp : s.graph.nodes[p.toNat]? = some parent)
    (hu : ∀ n ∈ s.graph.nodes, n.url ≠ u) (he : EdgesInRange s.graph) :
    serviceEvent rnd s =
      { graph :=
          { nodes :=
              List.modify
                (fun n => { n with childIndices := n.childIndices ++ [(s.graph.nodes.length : Int)] })
                p.toNat s.graph.nodes
              ++ [{ Graph.newNode u (parent.position.add (rnd p)) with fetching := true }],
            edges := s.graph.edges ++
              [{ from_ := p, to_ := (s.graph.nodes.length : Int), restLength := 9/2,
                 fadeIn := 0 }] },
        pendingLinksPerNode := if rest.isEmpty then [] else [(p, rest)],
        linkSpawnTimer := s.linkSpawnTimer,
        http := s.http ++ [{ nodeIdx := (s.graph.nodes.length : Int), url := u }] } := by
  have hlt : p.toNat < s.graph.nodes.length := (List.getElem?_eq_some.1 hp).1
  have hq : queueOf s.pendingLinksPerNode p = some (u :: rest) := by
    simp [hm, queueOf]
  unfold serviceEvent
  rw [hm]
  simp only [List.map_cons, List.map_nil, List.foldl_cons, List.foldl_nil]
  rcases serviceQueue_cases rnd s p with ⟨hq', _⟩ | ⟨hq', _⟩ | ⟨u', rest', hq', _, hs⟩
  · rw [hq] at hq'
    simp at hq'
  · rcases hq' with hq' | ⟨u', rest', _, hv⟩
    · rw [hq] at hq'
      simp at hq'
    · omega
  · rw [hq] at hq'
    simp only [Option.some.injEq, List.cons.injEq] at hq'
    obtain ⟨rfl, rfl⟩ := hq'
    have hnew := serviceUrl_new rnd
      ({ s with
        pendingLinksPerNode :=
          if rest.isEmpty then eraseQueue (popQueue s.pendingLinksPerNode p) p
          else popQueue s.pendingLinksPerNode p } : App) p u parent h0 hp hu he
    rw [hs, hnew, hm]
    cases rest with
    | nil => simp [popQueue, eraseQueue]
    | cons a t => simp [popQueue]

theorem serviceEvents_expand (links : List String) :
    ∀ (rnds : List (Int → Vec3)) (t : App) (p : Int) (parent : Node),
      rnds.length = links.length → links ≠ [] → t.pendingLinksPerNode = [(p, links)] →
      0 ≤ p → t.graph.nodes[p.toNat]? = some parent → links.Nodup →
      (∀ u ∈ links, ∀ n ∈ t.graph.nodes, n.url ≠ u) → EdgesInRange t.graph →
      (∃ news, (serviceEvents rnds t).graph.nodes.map withoutChildren
            = t.graph.nodes.map withoutChildren ++ news ∧
          List.Forall₂ (fun n u => ∃ pos, n = { Graph.newNode u pos with fetching := true })
            news links) ∧
      (serviceEvents rnds t).graph.edges
        = t.graph.edges ++ newEdges p t.graph.nodes.length links ∧
      (serviceEvents rnds t).http = t.http ++ newRequests t.graph.nodes.length links ∧
      (serviceEvents rnds t).pendingLinksPerNode = [] := by
  induction links with
  | nil => intro _ _ _ _ _ h; exact absurd rfl h
  | cons u rest ih =>
    intro rnds t p parent hlen _ hm h0 hp hnd hu he
    cases rnds with
    | nil => simp at hlen
    | cons r rs =>
      have hlt : p.toNat < t.graph.nodes.length := (List.getElem?_eq_some.1 hp).1
      have h1 := serviceEvent_single r t p u rest parent hm h0 hp
        (hu u (List.mem_cons_self _ _)) he
      have hn1 : (serviceEvent r t).graph.nodes =
          List.modify
            (fun n => { n with childIndices := n.childIndices ++ [(t.graph.nodes.length : Int)] })
            p.toNat t.graph.nodes
          ++ [{ Graph.newNode u (parent.position.add (r p)) with fetching := true }] := by
        rw [h1]
      have he1 : (serviceEvent r t).graph.edges = t.graph.edges ++
          [{ from_ := p, to_ := (t.graph.nodes.length : Int), restLength := 9/2,
             fadeIn := 0 }] := by
        rw [h1]
      have hh1 : (serviceEvent r t).http
          = t.http ++ [{ nodeIdx := (t.graph.nodes.length : Int), url := u }] := by
        rw [h1]
      have hm1 : (serviceEvent r t).pendingLinksPerNode
          = if rest.isEmpty then [] else [(p, rest)] := by
        rw [h1]
      have hwc1 : (serviceEvent r t).graph.nodes.map withoutChildren
          = t.graph.nodes.map withoutChildren
            ++ [{ Graph.newNode u (parent.position.add (r p)) with fetching := true }] := by
        rw [hn1, List.map_append, map_modify_of_eq withoutChildren
          (fun n => { n with childIndices := n.childIndices ++ [(t.graph.nodes.length : Int)] })
          _ _ (fun _ => rfl)]
        rfl
      have hlen1 : (serviceEvent r t).graph.nodes.length = t.graph.nodes.length + 1 := by
        rw [hn1]
        simp
      have hstep : serviceEvents (r :: rs) t = serviceEvents rs (serviceEvent r t) := rfl
      rw [hstep]
      by_cases hrest : rest = []
      · subst hrest
        have hrs : rs = [] := by
          cases rs with
          | nil => rfl
          | cons a b => simp at hlen
        subst hrs
        simp only [serviceEvents, List.foldl_nil]
        refine ⟨⟨_, hwc1, ?_⟩, ?_, ?_, ?_⟩
        · exact List.Forall₂.cons ⟨_, rfl⟩ List.Forall₂.nil
        · rw [he1]
          rfl
        · rw [hh1]
          rfl
        · rw [hm1]
          rfl
      · have hne : rest.isEmpty = false := by
          cases rest with
          | nil => exact absurd rfl hrest
          | cons a b => rfl
        rw [hne] at hm1
        rw [List.nodup_cons] at hnd
        have hp1 : (serviceEvent r t).graph.nodes[p.toNat]?
            = some { parent with
                childIndices := parent.childIndices ++ [(t.graph.nodes.length : Int)] } := by
          rw [hn1, List.getElem?_append_left (by simpa using hlt), List.getElem?_modify, hp]
          simp
        have hu1 : ∀ v ∈ rest, ∀ n ∈ (serviceEvent r t).graph.nodes, n.url ≠ v := by
          intro v hv n hn
          have hmem : n.url ∈ (serviceEvent r t).graph.nodes.map Node.url :=
            List.mem_map.2 ⟨n, hn, rfl⟩
          rw [hn1, List.map_append, map_modify_of_eq Node.url
            (fun n => { n with childIndices := n.childIndices ++ [(t.graph.nodes.length : Int)] })
            _ _ (fun _ => rfl)] at hmem
          rcases List.mem_append.1 hmem with hmem | hmem
          · obtain ⟨n0, hn0, hurl⟩ := List.mem_map.1 hmem
            rw [← hurl]
            exact hu v (List.mem_cons_of_mem _ hv) n0 hn0
          · simp only [List.map_cons, List.map_nil, List.mem_singleton] at hmem
            intro hv'
            apply hnd.1
            rw [← hv', hmem] at hv
            exact hv
        have he1' : EdgesInRange (serviceEvent r t).graph :=
          edgesInRange_foldl_serviceQueue r _ t he
        obtain ⟨⟨news, hw, hf⟩, hE, hH, hM⟩ := ih rs (serviceEvent r t) p _
          (by simpa using hlen) hrest hm1 h0 hp1 hnd.2 hu1 he1'
        refine ⟨⟨{ Graph.newNode u (parent.position.add (r p)) with fetching := true } :: news,
          ?_, List.Forall₂.cons ⟨parent.position.add (r p), rfl⟩ hf⟩, ?_, ?_, hM⟩
        · rw [hw, hwc1]
          simp
        · rw [hE, he1, hlen1]
          simp [newEdges]
        · rw [hH, hh1, hlen1]
          simp [newRequests]

/-- C15 (as stated, refuted): the node of `linklessState` is in `Success` state, not
expanded, and has `n = 0` links; no queue exists. After `activateNode` and zero service
events the empty queue that `activateNode` created under its index is still in the
map. -/
theorem C15_empty_queue_left_for_linkless_node :
    linklessState.graph.nodes.map (fun n => (n.status, n.expanded, n.links))
      = [(NodeStatus.Success, false, [])] ∧
    linklessState.pendingLinksPerNode = [] ∧
    (serviceEvents [] (activateNode linklessState 0)).pendingLinksPerNode = [(0, [])] := by
  decide

/-- C15 (amended): in a state in which every edge endpoint is below the node count and
no queue exists, let `p` be a node in `Success` state with `expanded == false` whose
`n ≥ 1` links are pairwise distinct and none of which is the URL of an existing node. After
`activateNode(p)` followed by `n` queue-service events the graph has exactly `n` more
nodes, one per link URL in order, each as `addNode` creates it (`Pending`) except for
`fetching == true`; the old nodes are unchanged up to `childIndices` and `p`'s `expanded`
flag; exactly `n` edges from `p` to the new nodes were appended; exactly one request per
new node was issued; and no queue is left. -/
theorem C15_expansion_of_fresh_links (s : App) (he : EdgesInRange s.graph) (p : Int)
    (node : Node) (rnds : List (Int → Vec3)) (h0 : 0 ≤ p)
    (hnode : s.graph.nodes[p.toNat]? = some node)
    (hs : node.status = NodeStatus.Success) (hex : node.expanded = false)
    (hq : s.pendingLinksPerNode = []) (hne : node.links ≠ [])
    (hnd : node.links.Nodup)
    (hfresh : ∀ u ∈ node.links, ∀ n ∈ s.graph.nodes, n.url ≠ u)
    (hlen : rnds.length = node.links.length) :
    (serviceEvents rnds (activateNode s p)).graph.nodes.length
      = s.graph.nodes.length + node.links.length ∧
    (∃ news,
      (serviceEvents rnds (activateNode s p)).graph.nodes.map withoutChildren
        = (s.graph.nodes.set p.toNat { node with expanded := true }).map withoutChildren
          ++ news ∧
      List.Forall₂ (fun n u => ∃ pos, n = { Graph.newNode u pos with fetching := true })
        news node.links) ∧
    (serviceEvents rnds (activateNode s p)).graph.edges
      = s.graph.edges ++ newEdges p s.graph.nodes.length node.links ∧
    (serviceEvents rnds (activateNode s p)).http
      = s.http ++ newRequests s.graph.nodes.length node.links ∧
    (serviceEvents rnds (activateNode s p)).pendingLinksPerNode = [] := by
  have hlt : p.toNat < s.graph.nodes.length := (List.getElem?_eq_some.1 hnode).1
  have hact := activateNode_success s p node h0 hnode hs hex
  have hurls : (s.graph.nodes.set p.toNat { node with expanded := true }).map Node.url
      = s.graph.nodes.map Node.url := by
    rw [← modify_eq_set (fun n => { n with expanded := true }) _ _ _ hnode]
    exact map_modify_of_eq Node.url _ _ _ (fun _ => rfl)
  obtain ⟨⟨news, hw, hf⟩, hE, hH, hM⟩ :=
    serviceEvents_expand node.links rnds (activateNode s p) p { node with expanded := true }
      hlen hne (by rw [hact, hq]; rfl) h0
      (by rw [hact]; simp [List.getElem?_set, hlt]) hnd
      (by
        intro u hu n hn
        rw [hact] at hn
        have hmem : n.url ∈ (s.graph.nodes.set p.toNat { node with expanded := true }).map
            Node.url := List.mem_map.2 ⟨n, hn, rfl⟩
        rw [hurls] at hmem
        obtain ⟨n0, hn0, hurl⟩ := List.mem_map.1 hmem
        rw [← hurl]
        exact hfresh u hu n0 hn0)
      (by
        rw [hact]
        intro e he'
        simp only [List.length_set]
        exact he e he')
  have hlen0 : (activateNode s p).graph.nodes.length = s.graph.nodes.length := by
    rw [hact]
    simp
  refine ⟨?_, ⟨news, ?_, hf⟩, ?_, ?_, hM⟩
  · have h1 := congrArg List.length hw
    simp only [List.length_map, List.length_append] at h1
    rw [h1, hlen0, hf.length_eq]
  · rw [hw, hact]
  · rw [hE, hlen0, hact]
  · rw [hH, hlen0, hact]

/-- A concrete instance of C15 (amended): `https://a.example` is submitted and fetched
with two links, activated, and serviced twice. -/
theorem C15_expansion_of_fresh_links_witness :
    (serviceEvents [noOffset, noOffset]
      (activateNode (run Env.twoLinks App.init crawlOnce) 0)).graph.edges
      = [{ from_ := 0, to_ := 1, restLength := 9/2, fadeIn := 0 },
         { from_ := 0, to_ := 2, restLength := 9/2, fadeIn := 0 }] ∧
    (serviceEvents [noOffset, noOffset]
      (activateNode (run Env.twoLinks App.init crawlOnce) 0)).http
      = [{ nodeIdx := 1, url := "https://b.example" },
         { nodeIdx := 2, url := "https://c.example" }] ∧
    (serviceEvents [noOffset, noOffset]
      (activateNode (run Env.twoLinks App.init crawlOnce) 0)).pendingLinksPerNode = [] :=
  have h := C15_expansion_of_fresh_links (run Env.twoLinks App.init crawlOnce)
    (edgesInRange_reachable Env.twoLinks crawlOnce) 0
    (completeNode Env.twoLinks "https://a.example" okResponse
      { Graph.newNode "https://a.example" Vec3.zero with fetching := true })
    [noOffset, noOffset] (by decide) rfl rfl rfl rfl (by decide) (by decide) (by decide) rfl
  ⟨h.2.2.1, h.2.2.2.1, h.2.2.2.2⟩

/-! ### C30 -/

theorem hasEdge_eq_true_iff (g : Graph) (a b : Int) :
    g.hasEdge a b = true ↔
      ∃ e ∈ g.edges, (e.from_ = a ∧ e.to_ = b) ∨ (e.from_ = b ∧ e.to_ = a) := by
  simp [Graph.hasEdge]

theorem deleteNode_edges (g : Graph) (idx : Int) (h0 : 0 ≤ idx)
    (h1 : idx < (g.nodes.length : Int)) :
    (g.deleteNode idx).edges
      = (g.edges.filter fun e => !(e.from_ == idx || e.to_ == idx)).map fun e =>
          { e with from_ := Graph.shiftIndex idx e.from_, to_ := Graph.shiftIndex idx e.to_ } := by
  unfold Graph.deleteNode
  rw [if_neg (by omega)]

theorem deleteNode_nodes (g : Graph) (idx : Int) (h0 : 0 ≤ idx)
    (h1 : idx < (g.nodes.length : Int)) :
    (g.deleteNode idx).nodes
      = (g.nodes.map fun n =>
          { n with childIndices :=
              (n.childIndices.filter fun i => !(i == idx)).map (Graph.shiftIndex idx) }).eraseIdx
          idx.toNat := by
  unfold Graph.deleteNode
  rw [if_neg (by omega)]

theorem eraseIdx_map {α β : Type} (f : α → β) (l : List α) (i : Nat) :
    (l.map f).eraseIdx i = (l.eraseIdx i).map f := by
  induction l generalizing i with
  | nil => rfl
  | cons a t ih =>
    cases i with
    | zero => rfl
    | succ i => simp [List.eraseIdx, ih]

/-- C30 (as stated, refuted): in the three-node chain every edge endpoint is a valid
index and 0 is a valid index, but `deleteNode(0)` does not leave the remaining nodes'
data as they were: node `b` had `childIndices == [2]` and has `[1]` afterwards. -/
theorem C30_deleteNode_rewrites_childIndices :
    (∀ e ∈ chain3.edges, 0 ≤ e.from_ ∧ e.from_ < (chain3.nodes.length : Int) ∧
      0 ≤ e.to_ ∧ e.to_ < (chain3.nodes.length : Int)) ∧
    (chain3.nodes.eraseIdx 0).map Node.childIndices = [[2], []] ∧
    (chain3.deleteNode 0).nodes.map Node.childIndices = [[1], []] ∧
    (chain3.deleteNode 0).nodes ≠ chain3.nodes.eraseIdx 0 := by
  refine ⟨by decide, by decide, by decide, ?_⟩
  intro h
  have h2 : [[(1 : Int)], []] = [[2], []] := congrArg (fun l => l.map Node.childIndices) h
  exact absurd h2 (by decide)

/-- C30 (amended): for a valid `idx`, `deleteNode(idx)` yields the original node list
with element `idx` removed, order kept and every field of the remaining nodes kept
except `childIndices`, which loses its entries equal to `idx` and has every entry greater
than `idx` decreased by one; the edge list consists of exactly the original edges that
did not touch `idx`, in their original order, with every endpoint greater than `idx`
decreased by one; two surviving nodes are joined by an edge afterwards iff they were
before; and for `idx` out of range the graph is unchanged. -/
theorem C30_deleteNode_result (g : Graph) (idx : Int) :
    ((0 ≤ idx ∧ idx < (g.nodes.length : Int)) →
      (g.deleteNode idx).nodes.map withoutChildren
        = (g.nodes.eraseIdx idx.toNat).map withoutChildren ∧
      (g.deleteNode idx).nodes.map Node.childIndices
        = (g.nodes.eraseIdx idx.toNat).map (fun n =>
            (n.childIndices.filter fun c => decide (c ≠ idx)).map
              fun c => if c > idx then c - 1 else c) ∧
      (g.deleteNode idx).edges
        = (g.edges.filter fun e => decide (e.from_ ≠ idx ∧ e.to_ ≠ idx)).map (fun e =>
            { e with
              from_ := if e.from_ > idx then e.from_ - 1 else e.from_,
              to_ := if e.to_ > idx then e.to_ - 1 else e.to_ }) ∧
      (∀ a b : Int, a ≠ idx → b ≠ idx →
        ((g.deleteNode idx).hasEdge (if a > idx then a - 1 else a)
            (if b > idx then b - 1 else b) = true ↔
          g.hasEdge a b = true))) ∧
    ((idx < 0 ∨ idx ≥ (g.nodes.length : Int)) → g.deleteNode idx = g) := by
  constructor
  · rintro ⟨h0, h1⟩
    refine ⟨?_, ?_, ?_, ?_⟩
    · rw [deleteNode_nodes g idx h0 h1, eraseIdx_map, List.map_map]
      rfl
    · rw [deleteNode_nodes g idx h0 h1, eraseIdx_map, List.map_map]
      apply List.map_congr_left
      intro n _
      simp only [Function.comp]
      congr 1
      apply List.filter_congr
      intro c _
      by_cases hc : c = idx <;> simp [hc]
    · rw [deleteNode_edges g idx h0 h1]
      congr 1
      apply List.filter_congr
      intro e _
      by_cases ha : e.from_ = idx <;> by_cases hb : e.to_ = idx <;> simp [ha, hb]
    · intro a b ha hb
      rw [hasEdge_eq_true_iff, hasEdge_eq_true_iff, deleteNode_edges g idx h0 h1]
      constructor
      · rintro ⟨e, he, hpair⟩
        simp only [List.mem_map, List.mem_filter, Bool.not_eq_true', Bool.or_eq_false_iff,
          beq_eq_false_iff_ne, ne_eq] at he
        obtain ⟨e0, ⟨he0, hk⟩, rfl⟩ := he
        refine ⟨e0, he0, ?_⟩
        rcases hpair with ⟨p1, p2⟩ | ⟨p1, p2⟩
        · exact Or.inl ⟨shiftIndex_injOn hk.1 ha p1, shiftIndex_injOn hk.2 hb p2⟩
        · exact Or.inr ⟨shiftIndex_injOn hk.1 hb p1, shiftIndex_injOn hk.2 ha p2⟩
      · rintro ⟨e, he, hpair⟩
        have hk : e.from_ ≠ idx ∧ e.to_ ≠ idx := by
          rcases hpair with ⟨p1, p2⟩ | ⟨p1, p2⟩
          · rw [p1, p2]
            exact ⟨ha, hb⟩
          · rw [p1, p2]
            exact ⟨hb, ha⟩
        refine ⟨{ e with from_ := Graph.shiftIndex idx e.from_,
                         to_ := Graph.shiftIndex idx e.to_ }, ?_, ?_⟩
        · simp only [List.mem_map, List.mem_filter, Bool.not_eq_true', Bool.or_eq_false_iff,
            beq_eq_false_iff_ne, ne_eq]
          exact ⟨e, ⟨he, hk⟩, rfl⟩
        · rcases hpair with ⟨p1, p2⟩ | ⟨p1, p2⟩
          · left
            simp only [Graph.shiftIndex, p1, p2]
            exact ⟨trivial, trivial⟩
          · right
            simp only [Graph.shiftIndex, p1, p2]
            exact ⟨trivial, trivial⟩
  · intro h
    unfold Graph.deleteNode
    rw [if_pos h]

/-- A concrete instance of C30 (amended): deleting the middle node of the three-node
chain leaves no edge, and the two survivors, joined by no edge before, are joined by
none afterwards. -/
theorem C30_deleteNode_result_witness :
    (chain3.deleteNode 1).edges = [] ∧
    ((chain3.deleteNode 1).hasEdge 0 1 = true ↔ chain3.hasEdge 0 2 = true) :=
  have h := (C30_deleteNode_result chain3 1).1 ⟨by decide, by decide⟩
  ⟨h.2.2.1, h.2.2.2 0 2 (by decide) (by decide)⟩

/-! ### C21, C22: the animation part of a tick -/

theorem fetchNode_map_of_eq {β : Type} (g : Node → β)
    (hf : ∀ n : Node, g { n with fetching := true } = g n) (s : App) (idx : Int) :
    (fetchNode s idx).graph.nodes.map g = s.graph.nodes.map g := by
  unfold fetchNode
  split_ifs
  · rfl
  · cases hn : s.graph.nodes[idx.toNat]? with
    | none => rfl
    | some node =>
      simp only []
      split_ifs
      · rfl
      · exact map_modify_of_eq g _ _ _ hf

theorem addEdge_map_of_eq {β : Type} (g : Node → β)
    (hc : ∀ (n : Node) (c : List Int), g { n with childIndices := c } = g n)
    (gr : Graph) (a b : Int) : (gr.addEdge a b).nodes.map g = gr.nodes.map g := by
  unfold Graph.addEdge
  split_ifs <;> try rfl
  exact map_modify_of_eq g _ _ _ (fun n => hc n _)

theorem addEdge_edges_prefix (gr : Graph) (a b : Int) :
    ∃ extra, (gr.addEdge a b).edges = gr.edges ++ extra := by
  unfold Graph.addEdge
  split_ifs
  · exact ⟨[], by simp⟩
  · exact ⟨[], by simp⟩
  · exact ⟨[], by simp⟩
  · exact ⟨[], by simp⟩
  · exact ⟨_, rfl⟩

theorem serviceUrl_prefix {β : Type} (g : Node → β)
    (hc : ∀ (n : Node) (c : List Int), g { n with childIndices := c } = g n)
    (hf : ∀ n : Node, g { n with fetching := true } = g n)
    (rnd : Int → Vec3) (s : App) (k : Int) (url : String) :
    (∃ extra, (serviceUrl rnd s k url).graph.nodes.map g = s.graph.nodes.map g ++ extra) ∧
    (∃ extra, (serviceUrl rnd s k url).graph.edges = s.graph.edges ++ extra) := by
  unfold serviceUrl
  simp only []
  split_ifs
  · exact ⟨⟨[], by rw [addEdge_map_of_eq g hc]; simp⟩, addEdge_edges_prefix _ _ _⟩
  · split
    · exact ⟨⟨[], by simp⟩, ⟨[], by simp⟩⟩
    · constructor
      · rw [fetchNode_map_of_eq g hf, addEdge_map_of_eq g hc, addNode_nodes, List.map_append]
        exact ⟨_, rfl⟩
      · rw [fetchNode_edges]
        obtain ⟨extra, he⟩ := addEdge_edges_prefix
          (s.graph.addNode url ((_ : Node).position.add (rnd k))).1 k
          (s.graph.addNode url ((_ : Node).position.add (rnd k))).2
        exact ⟨extra, he⟩

theorem serviceQueue_prefix {β : Type} (g : Node → β)
    (hc : ∀ (n : Node) (c : List Int), g { n with childIndices := c } = g n)
    (hf : ∀ n : Node, g { n with fetching := true } = g n)
    (rnd : Int → Vec3) (s : App) (k : Int) :
    (∃ extra, (serviceQueue rnd s k).graph.nodes.map g = s.graph.nodes.map g ++ extra) ∧
    (∃ extra, (serviceQueue rnd s k).graph.edges = s.graph.edges ++ extra) := by
  rcases serviceQueue_cases rnd s k with ⟨_, hs⟩ | ⟨_, hs⟩ | ⟨u, rest, _, _, hs⟩
  · rw [hs]
    exact ⟨⟨[], by simp⟩, ⟨[], by simp⟩⟩
  · rw [hs]
    exact ⟨⟨[], by simp⟩, ⟨[], by simp⟩⟩
  · rw [hs]
    exact serviceUrl_prefix g hc hf rnd _ k u

theorem foldl_serviceQueue_prefix {β : Type} (g : Node → β)
    (hc : ∀ (n : Node) (c : List Int), g { n with childIndices := c } = g n)
    (hf : ∀ n : Node, g { n with fetching := true } = g n)
    (rnd : Int → Vec3) (ks : List Int) (s : App) :
    (∃ extra, (ks.foldl (serviceQueue rnd) s).graph.nodes.map g
      = s.graph.nodes.map g ++ extra) ∧
    (∃ extra, (ks.foldl (serviceQueue rnd) s).graph.edges = s.graph.edges ++ extra) := by
  induction ks generalizing s with
  | nil => exact ⟨⟨[], by simp⟩, ⟨[], by simp⟩⟩
  | cons k rest ih =>
    obtain ⟨⟨x1, h1⟩, ⟨y1, h2⟩⟩ := ih (serviceQueue rnd s k)
    obtain ⟨⟨x0, h3⟩, ⟨y0, h4⟩⟩ := serviceQueue_prefix g hc hf rnd s k
    refine ⟨⟨x0 ++ x1, ?_⟩, ⟨y0 ++ y1, ?_⟩⟩
    · rw [List.foldl_cons, h1, h3, List.append_assoc]
    · rw [List.foldl_cons, h2, h4, List.append_assoc]

/-- A `processPendingLinks` call animates every node and edge that exists before the
call and keeps it at its index; nodes and edges created by the call come after them. -/
theorem processPendingLinks_prefix {β : Type} (g : Node → β)
    (hc : ∀ (n : Node) (c : List Int), g { n with childIndices := c } = g n)
    (hf : ∀ n : Node, g { n with fetching := true } = g n)
    (rnd : Int → Vec3) (s : App) (dt : Rat) :
    (∃ extra, (processPendingLinks rnd s dt).graph.nodes.map g
      = (s.graph.nodes.map (animateNode dt)).map g ++ extra) ∧
    (∃ extra, (processPendingLinks rnd s dt).graph.edges
      = s.graph.edges.map (animateEdge dt) ++ extra) := by
  unfold processPendingLinks processPendingLinksTraced
  simp only []
  split_ifs
  · exact ⟨⟨[], by simp⟩, ⟨[], by simp⟩⟩
  · exact ⟨⟨[], by simp⟩, ⟨[], by simp⟩⟩
  · exact foldl_serviceQueue_prefix g hc hf rnd _ _

theorem processPendingLinks_node (g : Node → Rat × Rat × Rat)
    (hc : ∀ (n : Node) (c : List Int), g { n with childIndices := c } = g n)
    (hf : ∀ n : Node, g { n with fetching := true } = g n)
    (rnd : Int → Vec3) (s : App) (dt : Rat) (i : Nat) (n : Node)
    (hn : s.graph.nodes[i]? = some n) :
    ∃ n', (processPendingLinks rnd s dt).graph.nodes[i]? = some n' ∧
      g n' = g (animateNode dt n) := by
  obtain ⟨⟨extra, he⟩, _⟩ := processPendingLinks_prefix g hc hf rnd s dt
  have hlt : i < s.graph.nodes.length := (List.getElem?_eq_some.1 hn).1
  have h1 : ((processPendingLinks rnd s dt).graph.nodes.map g)[i]?
      = some (g (animateNode dt n)) := by
    rw [he, List.getElem?_append_left (by simpa using hlt)]
    simp [hn]
  rw [List.getElem?_map] at h1
  cases hx : (processPendingLinks rnd s dt).graph.nodes[i]? with
  | none => simp [hx] at h1
  | some n' =>
    simp only [hx, Option.map_some', Option.some.injEq] at h1
    exact ⟨n', rfl, h1⟩

theorem processPendingLinks_edge (rnd : Int → Vec3) (s : App) (dt : Rat) (i : Nat)
    (e : Edge) (he : s.graph.edges[i]? = some e) :
    (processPendingLinks rnd s dt).graph.edges[i]? = some (animateEdge dt e) := by
  obtain ⟨_, ⟨extra, hx⟩⟩ := processPendingLinks_prefix (fun n => n.fadeIn)
    (fun _ _ => rfl) (fun _ => rfl) rnd s dt
  have hlt : i < s.graph.edges.length := (List.getElem?_eq_some.1 he).1
  rw [hx, List.getElem?_append_left (by simpa using hlt)]
  simp [he]

theorem fadeStep_eq (dt f : Rat) (hdt : 0 ≤ dt) (h1 : f ≤ 1) :
    fadeStep dt f = min 1 (f + 3 * dt) := by
  unfold fadeStep fadeSpeed
  split_ifs with h
  · rfl
  · have : f = 1 := le_antisymm h1 (not_lt.1 h)
    rw [this, min_eq_left]
    linarith

theorem fadeStep_bounds (dt f : Rat) (hdt : 0 ≤ dt) (h0 : 0 ≤ f) (h1 : f ≤ 1) :
    f ≤ fadeStep dt f ∧ fadeStep dt f ≤ 1 ∧ 0 ≤ fadeStep dt f := by
  rw [fadeStep_eq dt f hdt h1]
  have h3 : f ≤ min 1 (f + 3 * dt) := le_min h1 (by linarith)
  exact ⟨h3, min_le_left _ _, le_trans h0 h3⟩

theorem min_one_add (f a b : Rat) (hb : 0 ≤ b) :
    min 1 (min 1 (f + a) + b) = min 1 (f + (a + b)) := by
  rcases le_total 1 (f + a) with h | h
  · rw [min_eq_left h, min_eq_left (by linarith), min_eq_left (by linarith)]
  · rw [min_eq_right h, add_assoc]

theorem runTicks_cons (s : App) (t : (Int → Vec3) × Rat) (rest : List ((Int → Vec3) × Rat)) :
    (runTicks s (t :: rest)).1 = (runTicks (processPendingLinks t.1 s t.2) rest).1 := rfl

theorem runTicks_node_fade (ticks : List ((Int → Vec3) × Rat)) :
    ∀ (s : App) (i : Nat) (n : Node), (∀ t ∈ ticks, 0 ≤ t.2) →
      s.graph.nodes[i]? = some n → 0 ≤ n.fadeIn → n.fadeIn ≤ 1 →
      ∃ n', (runTicks s ticks).1.graph.nodes[i]? = some n' ∧
        n'.fadeIn = min 1 (n.fadeIn + 3 * (ticks.map Prod.snd).sum) := by
  induction ticks with
  | nil =>
    intro s i n _ hn _ h1
    exact ⟨n, hn, by simp [runTicks, min_eq_right h1]⟩
  | cons t rest ih =>
    intro s i n hdt hn h0 h1
    have ht : 0 ≤ t.2 := hdt t (List.mem_cons_self _ _)
    have hrest : ∀ t' ∈ rest, 0 ≤ t'.2 := fun t' ht' => hdt t' (List.mem_cons_of_mem _ ht')
    obtain ⟨n1, hn1, hg⟩ := processPendingLinks_node
      (fun n => (n.fadeIn, n.size, n.targetSize)) (fun _ _ => rfl) (fun _ => rfl)
      t.1 s t.2 i n hn
    have hf1 : n1.fadeIn = fadeStep t.2 n.fadeIn := congrArg Prod.fst hg
    obtain ⟨b1, b2, b3⟩ := fadeStep_bounds t.2 n.fadeIn ht h0 h1
    obtain ⟨n', hn', hf'⟩ := ih (processPendingLinks t.1 s t.2) i n1 hrest hn1
      (by rw [hf1]; exact b3) (by rw [hf1]; exact b2)
    refine ⟨n', by rw [runTicks_cons]; exact hn', ?_⟩
    have hsum : 0 ≤ (rest.map Prod.snd).sum := by
      apply List.sum_nonneg
      intro x hx
      obtain ⟨t', ht', rfl⟩ := List.mem_map.1 hx
      exact hrest t' ht'
    rw [hf', hf1, fadeStep_eq t.2 n.fadeIn ht h1, List.map_cons, List.sum_cons]
    have := min_one_add n.fadeIn (3 * t.2) (3 * (rest.map Prod.snd).sum) (by linarith)
    rw [this]
    congr 2
    ring

theorem runTicks_edge_fade (ticks : List ((Int → Vec3) × Rat)) :
    ∀ (s : App) (i : Nat) (e : Edge), (∀ t ∈ ticks, 0 ≤ t.2) →
      s.graph.edges[i]? = some e → 0 ≤ e.fadeIn → e.fadeIn ≤ 1 →
      ∃ e', (runTicks s ticks).1.graph.edges[i]? = some e' ∧
        e'.fadeIn = min 1 (e.fadeIn + 3 * (ticks.map Prod.snd).sum) := by
  induction ticks with
  | nil =>
    intro s i e _ he _ h1
    exact ⟨e, he, by simp [runTicks, min_eq_right h1]⟩
  | cons t rest ih =>
    intro s i e hdt he h0 h1
    have ht : 0 ≤ t.2 := hdt t (List.mem_cons_self _ _)
    have hrest : ∀ t' ∈ rest, 0 ≤ t'.2 := fun t' ht' => hdt t' (List.mem_cons_of_mem _ ht')
    have he1 := processPendingLinks_edge t.1 s t.2 i e he
    obtain ⟨b1, b2, b3⟩ := fadeStep_bounds t.2 e.fadeIn ht h0 h1
    obtain ⟨e', he', hf'⟩ := ih (processPendingLinks t.1 s t.2) i (animateEdge t.2 e) hrest he1
      b3 b2
    refine ⟨e', by rw [runTicks_cons]; exact he', ?_⟩
    have hsum : 0 ≤ (rest.map Prod.snd).sum := by
      apply List.sum_nonneg
      intro x hx
      obtain ⟨t', ht', rfl⟩ := List.mem_map.1 hx
      exact hrest t' ht'
    have hfa : (animateEdge t.2 e).fadeIn = fadeStep t.2 e.fadeIn := rfl
    rw [hf', hfa, fadeStep_eq t.2 e.fadeIn ht h1, List.map_cons, List.sum_cons]
    have := min_one_add e.fadeIn (3 * t.2) (3 * (rest.map Prod.snd).sum) (by linarith)
    rw [this]
    congr 2
    ring

/-- C21: for every `processPendingLinks` call with `dt ≥ 0`, whatever queues exist or do
not exist, every node and every edge present before the call whose `fadeIn` is in
`[0, 1]` is afterwards at the same index with `fadeIn` equal to `min(1, old + 3·dt)`,
which is not below the old value and not above 1; and over any sequence of calls with
non-negative durations summing to at least 1/3, a node or edge that starts with
`fadeIn == 0` ends with `fadeIn == 1`. -/
theorem C21_fade_in_moves_toward_one :
    (∀ (rnd : Int → Vec3) (s : App) (dt : Rat), 0 ≤ dt →
      (∀ (i : Nat) (n : Node), s.graph.nodes[i]? = some n → 0 ≤ n.fadeIn → n.fadeIn ≤ 1 →
        ∃ n' : Node, (processPendingLinks rnd s dt).graph.nodes[i]? = some n' ∧
          n'.fadeIn = min 1 (n.fadeIn + 3 * dt) ∧ n.fadeIn ≤ n'.fadeIn ∧ n'.fadeIn ≤ 1) ∧
      (∀ (i : Nat) (e : Edge), s.graph.edges[i]? = some e → 0 ≤ e.fadeIn → e.fadeIn ≤ 1 →
        ∃ e' : Edge, (processPendingLinks rnd s dt).graph.edges[i]? = some e' ∧
          e'.fadeIn = min 1 (e.fadeIn + 3 * dt) ∧ e.fadeIn ≤ e'.fadeIn ∧ e'.fadeIn ≤ 1)) ∧
    (∀ (s : App) (ticks : List ((Int → Vec3) × Rat)), (∀ t ∈ ticks, 0 ≤ t.2) →
      1/3 ≤ (ticks.map Prod.snd).sum →
      (∀ (i : Nat) (n : Node), s.graph.nodes[i]? = some n → n.fadeIn = 0 →
        ∃ n' : Node, (runTicks s ticks).1.graph.nodes[i]? = some n' ∧ n'.fadeIn = 1) ∧
      (∀ (i : Nat) (e : Edge), s.graph.edges[i]? = some e → e.fadeIn = 0 →
        ∃ e' : Edge, (runTicks s ticks).1.graph.edges[i]? = some e' ∧ e'.fadeIn = 1)) := by
  constructor
  · intro rnd s dt hdt
    constructor
    · intro i n hn h0 h1
      obtain ⟨n', hn', hg⟩ := processPendingLinks_node
        (fun n => (n.fadeIn, n.size, n.targetSize)) (fun _ _ => rfl) (fun _ => rfl)
        rnd s dt i n hn
      have hf : n'.fadeIn = fadeStep dt n.fadeIn := congrArg Prod.fst hg
      obtain ⟨b1, b2, _⟩ := fadeStep_bounds dt n.fadeIn hdt h0 h1
      exact ⟨n', hn', by rw [hf, fadeStep_eq dt n.fadeIn hdt h1], by rw [hf]; exact b1,
        by rw [hf]; exact b2⟩
    · intro i e he h0 h1
      obtain ⟨b1, b2, _⟩ := fadeStep_bounds dt e.fadeIn hdt h0 h1
      exact ⟨animateEdge dt e, processPendingLinks_edge rnd s dt i e he,
        fadeStep_eq dt e.fadeIn hdt h1, b1, b2⟩
  · intro s ticks hdt hsum
    constructor
    · intro i n hn h0
      obtain ⟨n', hn', hf⟩ := runTicks_node_fade ticks s i n hdt hn (by rw [h0])
        (by rw [h0]; norm_num)
      refine ⟨n', hn', ?_⟩
      rw [hf, h0, min_eq_left]
      linarith
    · intro i e he h0
      obtain ⟨e', he', hf⟩ := runTicks_edge_fade ticks s i e hdt he (by rw [h0])
        (by rw [h0]; norm_num)
      refine ⟨e', he', ?_⟩
      rw [hf, h0, min_eq_left]
      linarith

/-- A concrete instance of C21: with no queue in the map, a tick of 1/6 brings the
`fadeIn` of the node of `growingNode` from 0 to `min(1, 0 + 3·(1/6))`. -/
theorem C21_fade_in_moves_toward_one_witness :
    growingNode.pendingLinksPerNode = [] ∧
    ∃ n' : Node,
      (processPendingLinks noOffset growingNode (1/6)).graph.nodes[0]? = some n' ∧
      n'.fadeIn = min 1 (0 + 3 * (1/6)) :=
  ⟨rfl,
    have h := (C21_fade_in_moves_toward_one.1 noOffset growingNode (1/6) (by norm_num)).1 0
      { Graph.newNode "https://a.example" Vec3.zero with
        status := NodeStatus.Success, targetSize := 1 }
      rfl (le_refl (0 : Rat)) (by show (0 : Rat) ≤ 1; norm_num)
    h.imp fun _ hn => ⟨hn.1, hn.2.1⟩⟩

/-! ### C22 -/

/-- C22 (as stated, refuted): in `growingNode` the node has size 2/5 and `targetSize` 1.
One `processPendingLinks` call with `dt = 1` moves the size to 14/5, so the distance to
the target grows from 3/5 to 9/5. -/
theorem C22_long_tick_overshoots_target :
    growingNode.graph.nodes.map (fun n => (n.size, n.targetSize)) = [(2/5, 1)] ∧
    (processPendingLinks noOffset growingNode 1).graph.nodes.map
        (fun n => (n.size, n.targetSize)) = [(14/5, 1)] ∧
    |(1 : Rat) - 2/5| < |(1 : Rat) - 14/5| := by
  refine ⟨rfl, ?_, ?_⟩
  · simp only [processPendingLinks, processPendingLinksTraced, growingNode, List.isEmpty_nil,
      if_true, List.map_cons, List.map_nil, animateNode, Graph.newNode, sizeSpeed]
    norm_num [abs_of_pos]
  · rw [abs_of_pos (by norm_num), abs_of_neg (by norm_num)]
    norm_num

/-- C22 (amended): for every `processPendingLinks` call with `0 ≤ dt ≤ 1/2`, every node
present before the call is afterwards at the same index with `|targetSize − size|` no
greater than before and `targetSize` unchanged. -/
theorem C22_size_approaches_target (rnd : Int → Vec3) (s : App) (dt : Rat)
    (h0 : 0 ≤ dt) (h1 : dt ≤ 1/2) (i : Nat) (n : Node)
    (hn : s.graph.nodes[i]? = some n) :
    ∃ n', (processPendingLinks rnd s dt).graph.nodes[i]? = some n' ∧
      |n'.targetSize - n'.size| ≤ |n.targetSize - n.size| ∧
      n'.targetSize = n.targetSize := by
  obtain ⟨n', hn', hg⟩ := processPendingLinks_node
    (fun n => (n.fadeIn, n.size, n.targetSize)) (fun _ _ => rfl) (fun _ => rfl)
    rnd s dt i n hn
  have hs : n'.size = (animateNode dt n).size := congrArg (fun p => p.2.1) hg
  have ht : n'.targetSize = n.targetSize := congrArg (fun p => p.2.2) hg
  refine ⟨n', hn', ?_, ht⟩
  rw [hs, ht]
  simp only [animateNode, sizeSpeed]
  split_ifs with hbig
  · have hfac : n.targetSize - (n.size + (n.targetSize - n.size) * 4 * dt)
        = (n.targetSize - n.size) * (1 - 4 * dt) := by ring
    rw [hfac, abs_mul]
    have hle : |1 - 4 * dt| ≤ 1 := by
      rw [abs_le]
      constructor <;> linarith
    calc |n.targetSize - n.size| * |1 - 4 * dt|
        ≤ |n.targetSize - n.size| * 1 := mul_le_mul_of_nonneg_left hle (abs_nonneg _)
      _ = |n.targetSize - n.size| := mul_one _
  · rw [sub_self, abs_zero]
    exact abs_nonneg _

/-- A concrete instance of C22 (amended): a tick of 1/8 on `growingNode`. -/
theorem C22_size_approaches_target_witness :
    ∃ n' : Node,
      (processPendingLinks noOffset growingNode (1/8)).graph.nodes[0]? = some n' ∧
      |n'.targetSize - n'.size| ≤ |(1 : Rat) - 2/5| ∧ n'.targetSize = 1 :=
  C22_size_approaches_target noOffset growingNode (1/8) (by norm_num) (by norm_num) 0
    { Graph.newNode "https://a.example" Vec3.zero with
      status := NodeStatus.Success, targetSize := 1 }
    rfl

/-! ### C28 -/

theorem findSub_eq_zero_iff (pat s : List Char) : findSub pat s = some 0 ↔ pat <+: s := by
  cases s with
  | nil =>
    simp only [findSub, List.prefix_nil]
    split_ifs with h <;> simp [h]
  | cons c cs =>
    simp only [findSub]
    split_ifs with h
    · simp [List.isPrefixOf_iff_prefix.1 h]
    · have hn : ¬ pat <+: c :: cs := fun hp => h (List.isPrefixOf_iff_prefix.2 hp)
      simp only [hn, iff_false]
      cases findSub pat cs <;> simp

/-- C28: `normalizeUrl` returns the empty string, for every base URL, whenever `url` is
empty or begins with `#`, `javascript:` or `mailto:`; and whenever `url` begins with
`http://` or `https://` it returns `url` unchanged, for every base URL. -/
theorem C28_normalizeUrl_rejects_and_passes (url baseUrl : List Char) :
    ((url = [] ∨ url.head? = some '#' ∨ "javascript:".toList <+: url ∨
        "mailto:".toList <+: url) → normalizeUrl url baseUrl = []) ∧
    (("http://".toList <+: url ∨ "https://".toList <+: url) →
      normalizeUrl url baseUrl = url) := by
  constructor
  · intro h
    unfold normalizeUrl
    by_cases h1 : url = [] ∨ url.head? = some '#'
    · rw [if_pos h1]
    · rw [if_neg h1, if_pos]
      rcases h with h | h | h | h
      · exact absurd (Or.inl h) h1
      · exact absurd (Or.inr h) h1
      · exact Or.inl ((findSub_eq_zero_iff _ _).2 h)
      · exact Or.inr ((findSub_eq_zero_iff _ _).2 h)
  · intro h
    have hh : ∃ t, url = 'h' :: t := by
      rcases h with ⟨t, ht⟩ | ⟨t, ht⟩
      · exact ⟨_, ht.symm⟩
      · exact ⟨_, ht.symm⟩
    obtain ⟨t, rfl⟩ := hh
    unfold normalizeUrl
    rw [if_neg (by simp), if_neg, if_pos]
    · rcases h with h | h
      · exact Or.inl ((findSub_eq_zero_iff _ _).2 h)
      · exact Or.inr ((findSub_eq_zero_iff _ _).2 h)
    · rw [findSub_eq_zero_iff, findSub_eq_zero_iff]
      rintro (⟨t', ht'⟩ | ⟨t', ht'⟩)
      · simp at ht'
      · simp at ht'

/-- A concrete instance of C28: a `mailto:` link is rejected and an absolute link is
returned unchanged. -/
theorem C28_normalizeUrl_rejects_and_passes_witness :
    normalizeUrl "mailto:a@b.example".toList "https://a.example/".toList = [] ∧
    normalizeUrl "http://c.example/x".toList "https://a.example/".toList
      = "http://c.example/x".toList :=
  ⟨(C28_normalizeUrl_rejects_and_passes _ _).1
      (Or.inr (Or.inr (Or.inr ⟨"a@b.example".toList, rfl⟩))),
    (C28_normalizeUrl_rejects_and_passes _ _).2 (Or.inl ⟨"c.example/x".toList, rfl⟩)⟩

/-! ### C26 -/

theorem mem_keepFirst (l : List (List Char)) (x : List Char) : x ∈ keepFirst l ↔ x ∈ l := by
  induction l with
  | nil => simp [keepFirst]
  | cons a t ih =>
    simp only [keepFirst, List.mem_cons, List.mem_filter, decide_eq_true_eq, ih]
    constructor
    · rintro (h | ⟨h, _⟩)
      · exact Or.inl h
      · exact Or.inr h
    · rintro (h | h)
      · exact Or.inl h
      · by_cases hx : x = a
        · exact Or.inl hx
        · exact Or.inr ⟨h, hx⟩

theorem nodup_keepFirst (l : List (List Char)) : (keepFirst l).Nodup := by
  induction l with
  | nil => simp [keepFirst]
  | cons a t ih =>
    simp only [keepFirst, List.nodup_cons, List.mem_filter, decide_eq_true_eq]
    exact ⟨fun h => h.2 rfl, ih.filter _⟩

theorem foldl_extractStep (baseUrl : List Char) (matches_ : List (List Char)) :
    ∀ (links seen : List (List Char)), (∀ v, v ∈ seen ↔ v ∈ links) →
      (matches_.foldl (extractStep baseUrl) (links, seen)).1
        = links ++ (keepFirst ((matches_.map fun h => normalizeUrl h baseUrl).filter
            fun v => decide (v ≠ []))).filter fun v => decide (v ∉ links) := by
  induction matches_ with
  | nil => intro links seen _; simp [keepFirst]
  | cons h rest ih =>
    intro links seen hs
    simp only [List.foldl_cons, List.map_cons]
    by_cases hv : normalizeUrl h baseUrl = []
    · have hstep : extractStep baseUrl (links, seen) h = (links, seen) := by
        simp [extractStep, hv]
      rw [hstep, ih links seen hs]
      simp [List.filter_cons, hv]
    · by_cases hmem : normalizeUrl h baseUrl ∈ links
      · have hstep : extractStep baseUrl (links, seen) h = (links, seen) := by
          simp [extractStep, (hs _).2 hmem]
        rw [hstep, ih links seen hs]
        congr 1
        simp only [List.filter_cons, hv, ne_eq, not_false_eq_true, decide_True, if_true,
          keepFirst, hmem, not_true_eq_false, decide_False, Bool.false_eq_true, if_false,
          List.filter_filter]
        apply List.filter_congr
        intro x _
        by_cases hx : x = normalizeUrl h baseUrl
        · simp [hx, hmem]
        · simp [hx]
      · have hstep : extractStep baseUrl (links, seen) h
            = (links ++ [normalizeUrl h baseUrl], normalizeUrl h baseUrl :: seen) := by
          have hns : normalizeUrl h baseUrl ∉ seen := fun hh => hmem ((hs _).1 hh)
          simp [extractStep, hv, hns]
        rw [hstep, ih (links ++ [normalizeUrl h baseUrl]) (normalizeUrl h baseUrl :: seen)
          (by
            intro v
            simp only [List.mem_cons, List.mem_append, List.mem_singleton, hs v]
            tauto)]
        simp only [List.filter_cons, hv, ne_eq, not_false_eq_true, decide_True, if_true,
          keepFirst, hmem, List.filter_filter, List.append_assoc, List.singleton_append]
        congr 2
        apply List.filter_congr
        intro x _
        by_cases hx : x = normalizeUrl h baseUrl
        · simp [hx]
        · simp [hx]

/-- C26: `extractLinks` returns a list without duplicates and without the empty string,
equal to the list of `normalizeUrl(h, baseUrl)` over the matched href values `h` of the
input (cut to 500000 characters) in document order, with empty results dropped and every
repeat of an earlier value dropped. -/
theorem C26_extractLinks_first_occurrences (hrefMatches : List Char → List (List Char))
    (html baseUrl : List Char) :
    (extractLinks hrefMatches html baseUrl).Nodup ∧
    [] ∉ extractLinks hrefMatches html baseUrl ∧
    extractLinks hrefMatches html baseUrl
      = keepFirst (((hrefMatches (html.take 500000)).map fun h => normalizeUrl h baseUrl).filter
          fun v => decide (v ≠ [])) := by
  have hsafe : (if html.length > 500000 then html.take 500000 else html)
      = html.take 500000 := by
    split_ifs with h
    · rfl
    · exact (List.take_of_length_le (by omega)).symm
  have heq : extractLinks hrefMatches html baseUrl
      = keepFirst (((hrefMatches (html.take 500000)).map fun h => normalizeUrl h baseUrl).filter
          fun v => decide (v ≠ [])) := by
    unfold extractLinks
    simp only [hsafe]
    rw [foldl_extractStep baseUrl _ [] [] (by simp)]
    simp
  refine ⟨?_, ?_, heq⟩
  · rw [heq]
    exact nodup_keepFirst _
  · rw [heq, mem_keepFirst]
    simp

/-! ### C27, C29: resolving against the base URL -/

theorem findSub_first (pat pre suf : List Char) (hpat : pat ≠ [])
    (h : ¬ pat <:+: pre ++ pat.dropLast) :
    findSub pat (pre ++ pat ++ suf) = some pre.length := by
  induction pre with
  | nil =>
    cases pat with
    | nil => exact absurd rfl hpat
    | cons c cs =>
      have hp : (c :: cs).isPrefixOf (c :: (cs ++ suf)) = true :=
        List.isPrefixOf_iff_prefix.2 ⟨suf, rfl⟩
      simp only [List.nil_append, List.cons_append, findSub, List.append_eq, hp, if_true,
        List.length_nil]
  | cons a pre ih =>
    have hnp : ¬ pat <+: a :: (pre ++ pat ++ suf) := by
      intro hp
      apply h
      apply List.IsPrefix.isInfix
      refine List.prefix_of_prefix_length_le hp ?_ ?_
      · have h1 : pat.dropLast <+: pat ++ suf :=
          (List.dropLast_prefix pat).trans (List.prefix_append _ _)
        have h2 : (a :: pre) ++ pat.dropLast <+: (a :: pre) ++ (pat ++ suf) :=
          (List.prefix_append_right_inj _).2 h1
        simpa [List.append_assoc] using h2
      · have hlen : 0 < pat.length := List.length_pos.2 hpat
        simp only [List.cons_append, List.length_cons, List.length_append,
          List.length_dropLast]
        omega
    have hih : ¬ pat <:+: pre ++ pat.dropLast := fun hi => h (List.infix_cons hi)
    have hb : pat.isPrefixOf (a :: (pre ++ pat ++ suf)) = false := by
      cases hx : pat.isPrefixOf (a :: (pre ++ pat ++ suf)) with
      | false => rfl
      | true => exact absurd (List.isPrefixOf_iff_prefix.1 hx) hnp
    simp only [List.cons_append, findSub, List.append_eq, hb, Bool.false_eq_true, if_false,
      ih hih, Option.map_some', List.length_cons]

theorem findChar_eq_none (ch : Char) (s : List Char) (h : ch ∉ s) : findChar ch s = none := by
  induction s with
  | nil => rfl
  | cons c cs ih =>
    simp only [List.mem_cons, not_or] at h
    simp [findChar, Ne.symm h.1, ih h.2]

theorem findChar_append_of_not_mem (ch : Char) (pre suf : List Char) (h : ch ∉ pre) :
    findChar ch (pre ++ ch :: suf) = some pre.length := by
  induction pre with
  | nil => simp [findChar]
  | cons c cs ih =>
    simp only [List.mem_cons, not_or] at h
    simp [findChar, Ne.symm h.1, ih h.2]

theorem rfindChar_last (ch : Char) (pre file : List Char) (h : ch ∉ file) :
    rfindChar ch (pre ++ ch :: file) = some pre.length := by
  have hrev : (pre ++ ch :: file).reverse = file.reverse ++ ch :: pre.reverse := by
    simp
  have hmem : ch ∉ file.reverse := by simpa using h
  unfold rfindChar
  rw [hrev, findChar_append_of_not_mem ch _ _ hmem]
  simp only [Option.map_some', List.length_reverse, List.length_append, List.length_cons,
    Option.some.injEq]
  omega

theorem exists_last_slash (path : List Char) (h : '/' ∈ path) :
    ∃ dir file, path = dir ++ '/' :: file ∧ '/' ∉ file := by
  induction path with
  | nil => simp at h
  | cons c t ih =>
    by_cases ht : '/' ∈ t
    · obtain ⟨dir, file, hd, hf⟩ := ih ht
      exact ⟨c :: dir, file, by rw [hd]; rfl, hf⟩
    · rcases List.mem_cons.1 h with hc | hc
      · exact ⟨[], t, by rw [← hc]; rfl, ht⟩
      · exact absurd hc ht

theorem exists_authority_path (rest : List Char) :
    ∃ authority path, rest = authority ++ path ∧ '/' ∉ authority ∧
      (path = [] ∨ path.head? = some '/') := by
  induction rest with
  | nil => exact ⟨[], [], rfl, by simp, Or.inl rfl⟩
  | cons c t ih =>
    by_cases hc : c = '/'
    · exact ⟨[], c :: t, rfl, by simp, Or.inr (by simp [hc])⟩
    · obtain ⟨a, p, h1, h2, h3⟩ := ih
      refine ⟨c :: a, p, by rw [h1]; rfl, ?_, h3⟩
      simp only [List.mem_cons, not_or]
      exact ⟨Ne.symm hc, h2⟩

theorem exists_first_occurrence (pat base : List Char) (hpat : pat ≠ [])
    (h : pat <:+: base) :
    ∃ pre suf, base = pre ++ pat ++ suf ∧ ¬ pat <:+: pre ++ pat.dropLast := by
  induction base with
  | nil => exact absurd (List.eq_nil_of_infix_nil h) hpat
  | cons c t ih =>
    by_cases hpre : pat <+: c :: t
    · obtain ⟨suf, hs⟩ := hpre
      refine ⟨[], suf, by simpa using hs.symm, ?_⟩
      intro hi
      have h1 := hi.length_le
      have : 0 < pat.length := List.length_pos.2 hpat
      simp only [List.nil_append, List.length_dropLast] at h1
      omega
    · have ht : pat <:+: t := by
        rcases List.infix_cons_iff.1 h with h1 | h1
        · exact absurd h1 hpre
        · exact h1
      obtain ⟨pre, suf, hb, hn⟩ := ih ht
      refine ⟨c :: pre, suf, by rw [hb]; rfl, ?_⟩
      intro hi
      rcases List.infix_cons_iff.1 hi with h1 | h1
      · apply hpre
        have h3 : (c :: pre) ++ pat.dropLast <+: c :: t := by
          rw [hb]
          have h4 : pat.dropLast <+: pat ++ suf :=
            (List.dropLast_prefix pat).trans (List.prefix_append _ _)
          have h5 : (c :: pre) ++ pat.dropLast <+: (c :: pre) ++ (pat ++ suf) :=
            (List.prefix_append_right_inj _).2 h4
          simpa [List.append_assoc] using h5
        exact h1.trans h3
      · exact hn h1

theorem drop_base (scheme authority path : List Char) :
    (scheme ++ "://".toList ++ authority ++ path).drop (scheme.length + 3)
      = authority ++ path := by
  have h : scheme ++ "://".toList ++ authority ++ path
      = (scheme ++ "://".toList) ++ (authority ++ path) := by simp
  have hl : (scheme ++ "://".toList).length = scheme.length + 3 := by simp
  rw [h, ← hl, List.drop_left]

theorem take_base (scheme authority path : List Char) :
    (scheme ++ "://".toList ++ authority ++ path).take (authority.length + (scheme.length + 3))
      = scheme ++ "://".toList ++ authority := by
  have hl : (scheme ++ "://".toList ++ authority).length
      = authority.length + (scheme.length + 3) := by
    have h3 : "://".toList.length = 3 := rfl
    simp only [List.length_append, h3]
    omega
  rw [← hl, List.take_left]

theorem normalizeUrl_resolved (scheme authority path url : List Char)
    (hfirst : ¬ "://".toList <:+: scheme ++ ":/".toList)
    (hauth : '/' ∉ authority) (hpath : path = [] ∨ path.head? = some '/')
    (hne : url ≠ []) (hhash : url.head? ≠ some '#')
    (hjs : ¬ "javascript:".toList <+: url) (hmail : ¬ "mailto:".toList <+: url)
    (hhttp : ¬ "http://".toList <+: url) (hhttps : ¬ "https://".toList <+: url) :
    (url.head? = some '/' →
      normalizeUrl url (scheme ++ "://".toList ++ authority ++ path)
        = scheme ++ "://".toList ++ authority ++ url) ∧
    (url.head? ≠ some '/' → path = [] →
      normalizeUrl url (scheme ++ "://".toList ++ authority ++ path)
        = scheme ++ "://".toList ++ authority ++ "/".toList ++ url) ∧
    (url.head? ≠ some '/' → ∀ dir file, path = dir ++ '/' :: file → '/' ∉ file →
      normalizeUrl url (scheme ++ "://".toList ++ authority ++ path)
        = scheme ++ "://".toList ++ authority ++ dir ++ "/".toList ++ url) := by
  have hfind : findSub "://".toList (scheme ++ "://".toList ++ authority ++ path)
      = some scheme.length := by
    have h := findSub_first "://".toList scheme (authority ++ path) (by decide) hfirst
    simpa [List.append_assoc] using h
  have h1 : ¬ (url = [] ∨ url.head? = some '#') := fun h => h.elim hne hhash
  have h2 : ¬ (findSub "javascript:".toList url = some 0 ∨
      findSub "mailto:".toList url = some 0) := by
    rw [findSub_eq_zero_iff, findSub_eq_zero_iff]
    exact fun h => h.elim hjs hmail
  have h3 : ¬ (findSub "http://".toList url = some 0 ∨
      findSub "https://".toList url = some 0) := by
    rw [findSub_eq_zero_iff, findSub_eq_zero_iff]
    exact fun h => h.elim hhttp hhttps
  have hstart : findCharFrom '/' (scheme ++ "://".toList ++ authority ++ path)
      (scheme.length + 3)
      = if path = [] then none else some (authority.length + (scheme.length + 3)) := by
    unfold findCharFrom
    rw [drop_base]
    rcases hpath with hp | hp
    · rw [hp, if_pos rfl, List.append_nil, findChar_eq_none _ _ hauth]
      rfl
    · cases path with
      | nil => simp at hp
      | cons c t =>
        simp only [List.head?_cons, Option.some.injEq] at hp
        rw [hp, findChar_append_of_not_mem _ _ _ hauth, if_neg (by simp)]
        rfl
  unfold normalizeUrl
  rw [if_neg h1, if_neg h2, if_neg h3, hfind]
  simp only [hstart]
  refine ⟨?_, ?_, ?_⟩
  · intro hs
    rw [if_pos hs]
    rcases hpath with hp | hp
    · simp [hp]
    · have hp' : path ≠ [] := by
        intro h
        simp [h] at hp
      simp only [if_neg hp']
      rw [take_base]
  · intro hs hp
    rw [if_neg hs]
    simp [hp]
  · intro hs dir file hp hfile
    have hp' : path ≠ [] := by
      rw [hp]
      simp
    rw [if_neg hs]
    simp only [if_neg hp']
    have hb : scheme ++ "://".toList ++ authority ++ path
        = (scheme ++ "://".toList ++ authority ++ dir) ++ '/' :: file := by
      rw [hp]
      simp
    rw [hb, rfindChar_last _ _ _ hfile]
    simp only
    have ht : ((scheme ++ "://".toList ++ authority ++ dir) ++ '/' :: file).take
        ((scheme ++ "://".toList ++ authority ++ dir).length + 1)
        = scheme ++ "://".toList ++ authority ++ dir ++ "/".toList := by
      have h5 : (scheme ++ "://".toList ++ authority ++ dir) ++ '/' :: file
          = (scheme ++ "://".toList ++ authority ++ dir ++ "/".toList) ++ file := by
        simp
      have h6 : (scheme ++ "://".toList ++ authority ++ dir ++ "/".toList).length
          = (scheme ++ "://".toList ++ authority ++ dir).length + 1 := by
        simp only [List.length_append]
        rfl
      rw [h5, ← h6, List.take_left]
    rw [ht]

theorem normalizeUrl_scheme (scheme authority path url : List Char)
    (hfirst : ¬ "://".toList <:+: scheme ++ ":/".toList)
    (hauth : '/' ∉ authority) (hpath : path = [] ∨ path.head? = some '/') :
    normalizeUrl url (scheme ++ "://".toList ++ authority ++ path) = [] ∨
    (normalizeUrl url (scheme ++ "://".toList ++ authority ++ path) = url ∧
      ("http://".toList <+: url ∨ "https://".toList <+: url)) ∨
    scheme ++ "://".toList <+: normalizeUrl url (scheme ++ "://".toList ++ authority ++ path) := by
  by_cases h1 : url = [] ∨ url.head? = some '#'
  · left
    unfold normalizeUrl
    rw [if_pos h1]
  by_cases h2 : "javascript:".toList <+: url ∨ "mailto:".toList <+: url
  · left
    unfold normalizeUrl
    rw [if_neg h1, if_pos]
    rw [findSub_eq_zero_iff, findSub_eq_zero_iff]
    exact h2
  by_cases h3 : "http://".toList <+: url ∨ "https://".toList <+: url
  · right; left
    refine ⟨?_, h3⟩
    unfold normalizeUrl
    rw [if_neg h1, if_neg, if_pos]
    · rw [findSub_eq_zero_iff, findSub_eq_zero_iff]
      exact h3
    · rw [findSub_eq_zero_iff, findSub_eq_zero_iff]
      exact h2
  right; right
  have hres := normalizeUrl_resolved scheme authority path url hfirst hauth hpath
    (fun h => h1 (Or.inl h)) (fun h => h1 (Or.inr h)) (fun h => h2 (Or.inl h))
    (fun h => h2 (Or.inr h)) (fun h => h3 (Or.inl h)) (fun h => h3 (Or.inr h))
  by_cases hs : url.head? = some '/'
  · rw [hres.1 hs]
    exact ⟨authority ++ url, by simp⟩
  · rcases hpath with hp | hp
    · rw [hres.2.1 hs hp]
      exact ⟨authority ++ "/".toList ++ url, by simp⟩
    · have hmem : '/' ∈ path := by
        cases path with
        | nil => simp at hp
        | cons c t =>
          simp only [List.head?_cons, Option.some.injEq] at hp
          simp [hp]
      obtain ⟨dir, file, hd, hf⟩ := exists_last_slash path hmem
      rw [hres.2.2 hs dir file hd hf]
      exact ⟨authority ++ dir ++ "/".toList ++ url, by simp⟩

theorem mem_extractLinks (hrefMatches : List Char → List (List Char))
    (html baseUrl v : List Char) (hv : v ∈ extractLinks hrefMatches html baseUrl) :
    v ≠ [] ∧ ∃ h ∈ hrefMatches (html.take 500000), v = normalizeUrl h baseUrl := by
  have hsafe : (if html.length > 500000 then html.take 500000 else html)
      = html.take 500000 := by
    split_ifs with h
    · rfl
    · exact (List.take_of_length_le (by omega)).symm
  unfold extractLinks at hv
  simp only [hsafe] at hv
  rw [foldl_extractStep baseUrl _ [] [] (by simp)] at hv
  simp only [List.nil_append, List.mem_filter, mem_keepFirst, List.mem_map,
    decide_eq_true_eq] at hv
  obtain ⟨⟨⟨h, hh, hn⟩, hne⟩, _⟩ := hv
  exact ⟨hne, h, hh, hn.symm⟩

/-- C27: for a base URL containing "://" and a non-empty url that begins with none of
'#', "javascript:", "mailto:", "http://", "https://", write the base as
scheme ++ "://" ++ authority ++ path, where "://" first occurs after scheme, authority
holds no '/', and path is empty or begins with '/'. If url begins with '/',
`normalizeUrl` returns scheme ++ "://" ++ authority ++ url. Otherwise it returns
base ++ "/" ++ url when path is empty, and the base up to and including its last '/'
followed by url when path is not empty. -/
theorem C27_normalizeUrl_resolves (url base : List Char)
    (hbase : "://".toList <:+: base)
    (hne : url ≠ []) (hhash : url.head? ≠ some '#')
    (hjs : ¬ "javascript:".toList <+: url) (hmail : ¬ "mailto:".toList <+: url)
    (hhttp : ¬ "http://".toList <+: url) (hhttps : ¬ "https://".toList <+: url) :
    ∃ scheme authority path : List Char,
      base = scheme ++ "://".toList ++ authority ++ path ∧
      ¬ "://".toList <:+: scheme ++ ":/".toList ∧
      '/' ∉ authority ∧ (path = [] ∨ path.head? = some '/') ∧
      (url.head? = some '/' →
        normalizeUrl url base = scheme ++ "://".toList ++ authority ++ url) ∧
      (url.head? ≠ some '/' → path = [] →
        normalizeUrl url base = base ++ "/".toList ++ url) ∧
      (url.head? ≠ some '/' → path ≠ [] →
        ∃ dir file : List Char, path = dir ++ '/' :: file ∧ '/' ∉ file ∧
          normalizeUrl url base
            = scheme ++ "://".toList ++ authority ++ dir ++ "/".toList ++ url) := by
  obtain ⟨scheme, rest, hb, hfirst⟩ :=
    exists_first_occurrence "://".toList base (by decide) hbase
  obtain ⟨authority, path, hr, hauth, hpath⟩ := exists_authority_path rest
  have hfirst' : ¬ "://".toList <:+: scheme ++ ":/".toList := hfirst
  have hbase' : base = scheme ++ "://".toList ++ authority ++ path := by
    rw [hb, hr]
    simp
  have hres := normalizeUrl_resolved scheme authority path url hfirst' hauth hpath
    hne hhash hjs hmail hhttp hhttps
  refine ⟨scheme, authority, path, hbase', hfirst', hauth, hpath, ?_, ?_, ?_⟩
  · intro hs
    rw [hbase']
    exact hres.1 hs
  · intro hs hp
    have h := hres.2.1 hs hp
    rw [hbase']
    rw [h, hp]
    simp
  · intro hs hp
    have hmem : '/' ∈ path := by
      rcases hpath with h | h
      · exact absurd h hp
      · cases path with
        | nil => simp at h
        | cons c t =>
          simp only [List.head?_cons, Option.some.injEq] at h
          simp [h]
    obtain ⟨dir, file, hd, hf⟩ := exists_last_slash path hmem
    refine ⟨dir, file, hd, hf, ?_⟩
    rw [hbase']
    exact hres.2.2 hs dir file hd hf

/-- C27 at the url "z.html" and the base "https://a.example/dir/page.html". -/
theorem C27_normalizeUrl_resolves_witness :
    ∃ scheme authority path : List Char,
      "https://a.example/dir/page.html".toList = scheme ++ "://".toList ++ authority ++ path ∧
      ¬ "://".toList <:+: scheme ++ ":/".toList ∧
      '/' ∉ authority ∧ (path = [] ∨ path.head? = some '/') ∧
      ("z.html".toList.head? = some '/' →
        normalizeUrl "z.html".toList "https://a.example/dir/page.html".toList
          = scheme ++ "://".toList ++ authority ++ "z.html".toList) ∧
      ("z.html".toList.head? ≠ some '/' → path = [] →
        normalizeUrl "z.html".toList "https://a.example/dir/page.html".toList
          = "https://a.example/dir/page.html".toList ++ "/".toList ++ "z.html".toList) ∧
      ("z.html".toList.head? ≠ some '/' → path ≠ [] →
        ∃ dir file : List Char, path = dir ++ '/' :: file ∧ '/' ∉ file ∧
          normalizeUrl "z.html".toList "https://a.example/dir/page.html".toList
            = scheme ++ "://".toList ++ authority ++ dir ++ "/".toList ++ "z.html".toList) :=
  C27_normalizeUrl_resolves "z.html".toList "https://a.example/dir/page.html".toList
    ⟨"https".toList, "a.example/dir/page.html".toList, rfl⟩
    (by decide) (by decide) (by decide) (by decide) (by decide) (by decide)

/-- C29: for a base URL that begins with "http://" or "https://" and every url,
`normalizeUrl` returns the empty string or a string that begins with "http://" or
"https://"; and every element of the output of `extractLinks` for such a base begins
with "http://" or "https://". -/
theorem C29_results_are_absolute (hrefMatches : List Char → List (List Char))
    (html base url : List Char)
    (hbase : "http://".toList <+: base ∨ "https://".toList <+: base) :
    (normalizeUrl url base = [] ∨ "http://".toList <+: normalizeUrl url base ∨
      "https://".toList <+: normalizeUrl url base) ∧
    ∀ v ∈ extractLinks hrefMatches html base,
      "http://".toList <+: v ∨ "https://".toList <+: v := by
  have key : ∀ u : List Char, normalizeUrl u base = [] ∨
      "http://".toList <+: normalizeUrl u base ∨
      "https://".toList <+: normalizeUrl u base := by
    intro u
    rcases hbase with ⟨rest, hr⟩ | ⟨rest, hr⟩
    · obtain ⟨authority, path, hrest, hauth, hpath⟩ := exists_authority_path rest
      have hb : base = "http".toList ++ "://".toList ++ authority ++ path := by
        rw [← hr, hrest]
        simp
      rw [hb]
      rcases normalizeUrl_scheme "http".toList authority path u (by decide) hauth hpath
        with h | ⟨h, hu⟩ | h
      · exact Or.inl h
      · rw [h]
        exact Or.inr hu
      · exact Or.inr (Or.inl h)
    · obtain ⟨authority, path, hrest, hauth, hpath⟩ := exists_authority_path rest
      have hb : base = "https".toList ++ "://".toList ++ authority ++ path := by
        rw [← hr, hrest]
        simp
      rw [hb]
      rcases normalizeUrl_scheme "https".toList authority path u (by decide) hauth hpath
        with h | ⟨h, hu⟩ | h
      · exact Or.inl h
      · rw [h]
        exact Or.inr hu
      · exact Or.inr (Or.inr h)
  refine ⟨key url, ?_⟩
  intro v hv
  obtain ⟨hne, h, _, hn⟩ := mem_extractLinks hrefMatches html base v hv
  rcases key h with hk | hk
  · exact absurd (hn.trans hk) hne
  · rw [hn]
    exact hk

/-- C29 at the base "https://a.example/dir/", the url "a.html" and a page whose hrefs are
"a.html", "#top" and "/b". -/
theorem C29_results_are_absolute_witness :
    ("http://".toList <+: "https://a.example/dir/".toList ∨
      "https://".toList <+: "https://a.example/dir/".toList) ∧
    (normalizeUrl "a.html".toList "https://a.example/dir/".toList = [] ∨
      "http://".toList <+: normalizeUrl "a.html".toList "https://a.example/dir/".toList ∨
      "https://".toList <+: normalizeUrl "a.html".toList "https://a.example/dir/".toList) ∧
    ∀ v ∈ extractLinks (fun _ => ["a.html".toList, "#top".toList, "/b".toList]) []
        "https://a.example/dir/".toList,
      "http://".toList <+: v ∨ "https://".toList <+: v :=
  ⟨Or.inr ⟨"a.example/dir/".toList, rfl⟩,
    C29_results_are_absolute (fun _ => ["a.html".toList, "#top".toList, "/b".toList]) []
      "https://a.example/dir/".toList "a.html".toList
      (Or.inr ⟨"a.example/dir/".toList, rfl⟩)⟩

/-! ### C23: pinned nodes -/

theorem pinnedKept_refl (l : List Node) : PinnedKept l l := fun _ _ h _ => h

theorem pinnedKept_trans {l1 l2 l3 : List Node} (h12 : PinnedKept l1 l2)
    (h23 : PinnedKept l2 l3) : PinnedKept l1 l3 :=
  fun i n h hp => h23 i n (h12 i n h hp) hp

theorem pinnedKept_foldl {β : Type} (f : List Node → β → List Node)
    (hf : ∀ l b, PinnedKept l (f l b)) (bs : List β) :
    ∀ l, PinnedKept l (bs.foldl f l) := by
  induction bs with
  | nil => exact fun l => pinnedKept_refl l
  | cons b rest ih => exact fun l => pinnedKept_trans (hf l b) (ih (f l b))

theorem pinnedKept_step (nodes nodes1 : List Node) (j : Nat) (b : Node) (g : Node → Node)
    (hb : nodes[j]? = some b) (h1 : PinnedKept nodes nodes1) :
    PinnedKept nodes (if b.pinned then nodes1 else List.modify g j nodes1) := by
  intro k n hk hp
  split_ifs with hbp
  · exact h1 k n hk hp
  · have hne : j ≠ k := by
      rintro rfl
      rw [hb] at hk
      cases hk
      exact hbp hp
    rw [List.getElem?_modify_ne _ _ hne]
    exact h1 k n hk hp

theorem pinnedKept_repelPair (P : Physics) (len : Vec3 → Rat) (dt : Rat) (nodes : List Node)
    (i j : Nat) : PinnedKept nodes (repelPair P len dt nodes i j) := by
  unfold repelPair
  cases hi : nodes[i]? with
  | none => exact pinnedKept_refl _
  | some a =>
    cases hj : nodes[j]? with
    | none => exact pinnedKept_refl _
    | some b =>
      cases hf : repulsionForce P len dt a b with
      | none =>
        simp only [hf]
        exact pinnedKept_refl _
      | some force =>
        simp only [hf]
        exact pinnedKept_step nodes _ j b _ hj
          (pinnedKept_step nodes nodes i a _ hi (pinnedKept_refl _))

theorem pinnedKept_repulsionPhase (P : Physics) (len : Vec3 → Rat) (dt : Rat)
    (nodes : List Node) : PinnedKept nodes (repulsionPhase P len dt nodes) := by
  unfold repulsionPhase
  apply pinnedKept_foldl
  intro l i
  apply pinnedKept_foldl
  intro l1 j
  exact pinnedKept_repelPair P len dt l1 i j

theorem pinnedKept_springEdge (P : Physics) (len : Vec3 → Rat) (dt : Rat) (nodes : List Node)
    (edge : Edge) : PinnedKept nodes (springEdge P len dt nodes edge) := by
  unfold springEdge
  split_ifs with h1 h2
  · exact pinnedKept_refl _
  · exact pinnedKept_refl _
  · cases hi : nodes[edge.from_.toNat]? with
    | none => exact pinnedKept_refl _
    | some a =>
      cases hj : nodes[edge.to_.toNat]? with
      | none => exact pinnedKept_refl _
      | some b =>
        cases hf : springForce P len dt a b edge with
        | none =>
          simp only [hf]
          exact pinnedKept_refl _
        | some force =>
          simp only [hf]
          exact pinnedKept_step nodes _ _ b _ hj
            (pinnedKept_step nodes nodes _ a _ hi (pinnedKept_refl _))

theorem update_pinned (P : Physics) (len : Vec3 → Rat) (graph : Graph) (dt : Rat) (i : Nat)
    (n : Node) (hn : graph.nodes[i]? = some n) (hp : n.pinned = true) :
    (P.update len graph dt).nodes[i]? = some { n with velocity := Vec3.zero } := by
  have h1 : PinnedKept graph.nodes
      (graph.edges.foldl (springEdge P len dt) (repulsionPhase P len dt graph.nodes)) :=
    pinnedKept_trans (pinnedKept_repulsionPhase P len dt graph.nodes)
      (pinnedKept_foldl _ (fun l e => pinnedKept_springEdge P len dt l e) _ _)
  unfold Physics.update
  simp only [List.getElem?_map, h1 i n hn hp, Option.map_some', integrateNode, hp, if_true]

/-- C23: a node whose pinned flag is true is, after any run of `Physics::update` calls
with any dt values, still at its index with the same position and every other field
unchanged, except that its velocity is zero as soon as one call has been made. -/
theorem C23_pinned_node_stays (P : Physics) (len : Vec3 → Rat) (dts : List Rat)
    (graph : Graph) (i : Nat) (n : Node)
    (hn : graph.nodes[i]? = some n) (hp : n.pinned = true) :
    (physicsTicks P len graph dts).nodes[i]?
      = some (if dts = [] then n else { n with velocity := Vec3.zero }) := by
  induction dts generalizing graph n with
  | nil => simpa [physicsTicks] using hn
  | cons dt rest ih =>
    have h1 := update_pinned P len graph dt i n hn hp
    have h2 := ih (P.update len graph dt) { n with velocity := Vec3.zero } h1 hp
    simp only [physicsTicks, h2, List.cons_ne_nil, if_false]
    split_ifs <;> rfl

/-- C23 on two ticks of a graph whose pinned node starts with a velocity and is pulled by
a spring. -/
theorem C23_pinned_node_stays_witness :
    anchoredPair.nodes[0]? = some { nodeOnAxis 0 true with velocity := ⟨1, 0, 0⟩ } ∧
    (physicsTicks {} axisLength anchoredPair [1/60, 1/30]).nodes[0]?
      = some (if [(1/60 : Rat), 1/30] = [] then
          { nodeOnAxis 0 true with velocity := ⟨1, 0, 0⟩ }
        else { nodeOnAxis 0 true with velocity := Vec3.zero }) :=
  ⟨rfl, C23_pinned_node_stays {} axisLength [1/60, 1/30] anchoredPair 0
    { nodeOnAxis 0 true with velocity := ⟨1, 0, 0⟩ } rfl rfl⟩

/-! ### C24: a spring at rest -/

theorem Vec3.scale_zero (v : Vec3) : v.scale 0 = Vec3.zero := by
  simp [Vec3.scale, Vec3.zero]

theorem Vec3.zero_scale (t : Rat) : Vec3.zero.scale t = Vec3.zero := by
  simp [Vec3.scale, Vec3.zero]

theorem Vec3.add_zero (v : Vec3) : v.add Vec3.zero = v := by
  simp [Vec3.add, Vec3.zero]

theorem Vec3.sub_zero (v : Vec3) : v.sub Vec3.zero = v := by
  simp [Vec3.sub, Vec3.zero]

theorem modify_eq_self (f : Node → Node) (hf : ∀ n, f n = n) (i : Nat) (l : List Node) :
    List.modify f i l = l := by
  apply List.ext_getElem?
  intro k
  rw [List.getElem?_modify]
  cases l[k]? with
  | none => rfl
  | some a =>
    simp only [Option.map_eq_map, Option.map_some', Option.some.injEq]
    split_ifs
    · exact hf a
    · rfl

theorem addVelocity_zero (nodes : List Node) (i : Nat) :
    addVelocity nodes i Vec3.zero = nodes :=
  modify_eq_self _ (fun n => by rw [Vec3.add_zero]) i nodes

theorem subVelocity_zero (nodes : List Node) (i : Nat) :
    subVelocity nodes i Vec3.zero = nodes :=
  modify_eq_self _ (fun n => by rw [Vec3.sub_zero]) i nodes

theorem springForce_at_rest (P : Physics) (len : Vec3 → Rat) (dt : Rat) (a b : Node)
    (edge : Edge) (hrest : len (b.position.sub a.position) = edge.restLength) :
    springForce P len dt a b edge
      = if edge.restLength < 1/10 then none else some Vec3.zero := by
  unfold springForce
  simp only [hrest, sub_self, Vec3.scale_zero, Vec3.zero_scale]

/-- C24: in the spring loop of `Physics::update`, for an edge whose endpoints `a` and `b`
are at a distance equal to its rest length, the force vector is the zero vector (the
edge is skipped when that distance is below 0.1), adding or subtracting it leaves every
velocity as it was, and the iteration leaves the node list unchanged. -/
theorem C24_spring_at_rest_adds_zero (P : Physics) (len : Vec3 → Rat) (dt : Rat)
    (nodes : List Node) (edge : Edge) (a b : Node)
    (ha : nodes[edge.from_.toNat]? = some a) (hb : nodes[edge.to_.toNat]? = some b)
    (hrest : len (b.position.sub a.position) = edge.restLength) :
    springForce P len dt a b edge
      = (if edge.restLength < 1/10 then none else some Vec3.zero) ∧
    addVelocity nodes edge.from_.toNat Vec3.zero = nodes ∧
    subVelocity nodes edge.to_.toNat Vec3.zero = nodes ∧
    springEdge P len dt nodes edge = nodes := by
  have hf := springForce_at_rest P len dt a b edge hrest
  refine ⟨hf, addVelocity_zero _ _, subVelocity_zero _ _, ?_⟩
  unfold springEdge
  split_ifs with h1 h2
  · rfl
  · rfl
  · simp only [ha, hb, hf]
    by_cases hr : edge.restLength < 1/10
    · simp only [if_pos hr]
    · simp only [if_neg hr, addVelocity_zero, subVelocity_zero, ite_self]

/-- C24 on two nodes 9/2 apart joined by an edge of rest length 9/2. -/
theorem C24_spring_at_rest_adds_zero_witness :
    axisLength ((nodeOnAxis (9/2) false).position.sub (nodeOnAxis 0 false).position)
      = 9/2 ∧
    springForce {} axisLength (1/60) (nodeOnAxis 0 false) (nodeOnAxis (9/2) false)
        { from_ := 0, to_ := 1, restLength := 9/2, fadeIn := 0 }
      = (if (9/2 : Rat) < 1/10 then none else some Vec3.zero) ∧
    addVelocity restingPair.nodes 0 Vec3.zero = restingPair.nodes ∧
    subVelocity restingPair.nodes 1 Vec3.zero = restingPair.nodes ∧
    springEdge {} axisLength (1/60) restingPair.nodes
        { from_ := 0, to_ := 1, restLength := 9/2, fadeIn := 0 }
      = restingPair.nodes :=
  ⟨by norm_num [axisLength, nodeOnAxis, Graph.newNode, Vec3.sub],
    C24_spring_at_rest_adds_zero {} axisLength (1/60) restingPair.nodes
      { from_ := 0, to_ := 1, restLength := 9/2, fadeIn := 0 }
      (nodeOnAxis 0 false) (nodeOnAxis (9/2) false) rfl rfl
      (by norm_num [axisLength, nodeOnAxis, Graph.newNode, Vec3.sub])⟩

/-! ### C25: the repulsion impulse -/

theorem dot_scaled (v : Vec3) (D s t : Rat) :
    Vec3.dot (((v.div D).scale s).scale t) (((v.div D).scale s).scale t)
      = Vec3.dot v v / (D * D) * (s * t) ^ 2 := by
  simp only [Vec3.dot, Vec3.div, Vec3.scale]
  by_cases hD : D = 0
  · simp [hD]
  · field_simp
    ring

theorem claimedImpulse_of_half_le (r m dt d : Rat) (hd : 1/2 ≤ d) :
    claimedImpulse r m dt d = r * m * dt / (d ^ 2 + 1) := by
  unfold claimedImpulse
  rw [max_eq_left hd]

theorem claimedImpulse_of_le_half (r m dt d : Rat) (hd : d ≤ 1/2) :
    claimedImpulse r m dt d = r * m * dt / ((1/2) ^ 2 + 1) := by
  unfold claimedImpulse
  rw [max_eq_right hd]

theorem getElem?_repelPair (P : Physics) (len : Vec3 → Rat) (dt : Rat) (nodes : List Node)
    (i j : Nat) (a b : Node) (f : Vec3) (ha : nodes[i]? = some a) (hb : nodes[j]? = some b)
    (hij : i ≠ j) (hpa : a.pinned = false) (hpb : b.pinned = false)
    (hf : repulsionForce P len dt a b = some f) :
    (repelPair P len dt nodes i j)[i]? = some { a with velocity := a.velocity.add f } ∧
    (repelPair P len dt nodes i j)[j]? = some { b with velocity := b.velocity.sub f } := by
  unfold repelPair
  simp only [ha, hb, hf, hpa, hpb, Bool.false_eq_true, if_false, addVelocity, subVelocity]
  constructor
  · rw [List.getElem?_modify_ne _ _ (Ne.symm hij), List.getElem?_modify_eq, ha]
    simp [hpa]
  · rw [List.getElem?_modify_eq, List.getElem?_modify_ne _ _ hij, hb]
    simp [hpb]

theorem repulsionForce_of_le (P : Physics) (len : Vec3 → Rat) (dt d : Rat) (a b : Node)
    (hlen : len (a.position.sub b.position) = d) (hd : d ≤ 15) :
    repulsionForce P len dt a b
      = some ((((a.position.sub b.position).div (if d < 1/2 then 1/2 else d)).scale
          (P.repulsion * ((a.size + b.size) * (1/2))
            / ((if d < 1/2 then 1/2 else d) * (if d < 1/2 then 1/2 else d) + 1))).scale dt) := by
  unfold repulsionForce
  simp only [hlen, gt_iff_lt, not_lt.2 hd, if_false]

/-- C25, counterexample: with the default coefficients, sizes 1 and dt = 1/64, the
impulse at separation 1/4 is (1/8, 0, 0), of magnitude 1/8, where the formula of the
claim gives 1/4; at the larger separation 1/2 the impulse is (1/4, 0, 0), of the larger
magnitude 1/4. -/
theorem C25_impulse_grows_below_half :
    repulsionForce {} axisLength (1/64) (nodeOnAxis (1/4) false) (nodeOnAxis 0 false)
      = some ⟨1/8, 0, 0⟩ ∧
    claimedImpulse 20 ((1 + 1) / 2) (1/64) (1/4) = 1/4 ∧
    repulsionForce {} axisLength (1/64) (nodeOnAxis (1/2) false) (nodeOnAxis 0 false)
      = some ⟨1/4, 0, 0⟩ := by
  refine ⟨?_, ?_, ?_⟩
  · rw [repulsionForce_of_le {} axisLength (1/64) (1/4) _ _
      (by norm_num [axisLength, nodeOnAxis, Graph.newNode, Vec3.sub]) (by norm_num)]
    norm_num [nodeOnAxis, Graph.newNode, Vec3.sub, Vec3.div, Vec3.scale]
  · norm_num [claimedImpulse]
  · rw [repulsionForce_of_le {} axisLength (1/64) (1/2) _ _
      (by norm_num [axisLength, nodeOnAxis, Graph.newNode, Vec3.sub]) (by norm_num)]
    norm_num [nodeOnAxis, Graph.newNode, Vec3.sub, Vec3.div, Vec3.scale]

/-- C25, amended: for two nodes of positive sizes at separation `d` (the length of the
difference of their positions), positive repulsion coefficient and positive dt, with
`m = (size_i + size_j) / 2`: for `d > 15` the pair is skipped and the node list is left
as it was; for `0.5 ≤ d ≤ 15` the impulse has magnitude
`repulsion * m * dt / (d^2 + 1)`, which is positive and strictly decreasing in `d`; for
`d < 0.5` the impulse has magnitude `(d / 0.5) * repulsion * m * dt / (0.5^2 + 1)`, which
is strictly increasing in `d`. When both nodes are unpinned the impulse is added to the
velocity of the first and subtracted from the velocity of the second. -/
theorem C25_repulsion_impulse (P : Physics) (len : Vec3 → Rat) (dt d : Rat) (a b : Node)
    (hrep : 0 < P.repulsion) (hdt : 0 < dt) (hsa : 0 < a.size) (hsb : 0 < b.size)
    (hlen : len (a.position.sub b.position) = d)
    (hdd : d * d = Vec3.dot (a.position.sub b.position) (a.position.sub b.position)) :
    (15 < d → repulsionForce P len dt a b = none ∧
      ∀ (nodes : List Node) (i j : Nat), nodes[i]? = some a → nodes[j]? = some b →
        repelPair P len dt nodes i j = nodes) ∧
    (d ≤ 15 → ∃ f : Vec3, repulsionForce P len dt a b = some f ∧
      (1/2 ≤ d → Vec3.dot f f
        = claimedImpulse P.repulsion ((a.size + b.size) / 2) dt d ^ 2) ∧
      (d < 1/2 → Vec3.dot f f
        = (d / (1/2) * claimedImpulse P.repulsion ((a.size + b.size) / 2) dt d) ^ 2) ∧
      ∀ (nodes : List Node) (i j : Nat), nodes[i]? = some a → nodes[j]? = some b →
        i ≠ j → a.pinned = false → b.pinned = false →
        (repelPair P len dt nodes i j)[i]? = some { a with velocity := a.velocity.add f } ∧
        (repelPair P len dt nodes i j)[j]?
          = some { b with velocity := b.velocity.sub f }) ∧
    (∀ d1 d2 : Rat, 0 ≤ d1 →
      0 < claimedImpulse P.repulsion ((a.size + b.size) / 2) dt d1 ∧
      (1/2 ≤ d1 → d1 < d2 →
        claimedImpulse P.repulsion ((a.size + b.size) / 2) dt d2
          < claimedImpulse P.repulsion ((a.size + b.size) / 2) dt d1) ∧
      (d1 < d2 → d2 ≤ 1/2 →
        d1 / (1/2) * claimedImpulse P.repulsion ((a.size + b.size) / 2) dt d1
          < d2 / (1/2) * claimedImpulse P.repulsion ((a.size + b.size) / 2) dt d2)) := by
  have hK : 0 < P.repulsion * ((a.size + b.size) / 2) * dt := by positivity
  refine ⟨?_, ?_, ?_⟩
  · intro hfar
    have hnone : repulsionForce P len dt a b = none := by
      unfold repulsionForce
      simp only [hlen, gt_iff_lt, hfar, if_true]
    refine ⟨hnone, ?_⟩
    intro nodes i j hi hj
    unfold repelPair
    simp only [hi, hj, hnone]
  · intro hnear
    have hf := repulsionForce_of_le P len dt d a b hlen hnear
    refine ⟨_, hf, ?_, ?_, ?_⟩
    · intro hhalf
      have hpos : 0 < d := by linarith
      rw [if_neg (not_lt.2 hhalf), dot_scaled, ← hdd, claimedImpulse_of_half_le _ _ _ _ hhalf]
      field_simp
      ring
    · intro hlt
      rw [if_pos hlt, dot_scaled, ← hdd, claimedImpulse_of_le_half _ _ _ _ hlt.le]
      field_simp
      ring
    · intro nodes i j hi hj hij hpa hpb
      exact getElem?_repelPair P len dt nodes i j a b _ hi hj hij hpa hpb hf
  · intro d1 d2 hd1
    refine ⟨?_, ?_, ?_⟩
    · unfold claimedImpulse
      positivity
    · intro h1 h12
      rw [claimedImpulse_of_half_le _ _ _ _ h1,
        claimedImpulse_of_half_le _ _ _ _ (h1.trans h12.le)]
      apply div_lt_div_of_pos_left hK (by positivity)
      nlinarith
    · intro h12 h2
      rw [claimedImpulse_of_le_half _ _ _ _ (h12.le.trans h2),
        claimedImpulse_of_le_half _ _ _ _ h2]
      have hc : 0 < P.repulsion * ((a.size + b.size) / 2) * dt / ((1/2 : Rat) ^ 2 + 1) := by
        positivity
      have h3 : d1 / (1/2) < d2 / (1/2) := by
        apply div_lt_div_of_pos_right h12
        norm_num
      exact mul_lt_mul_of_pos_right h3 hc

/-- C25 on two unpinned nodes of size 1 at separation 3, with the default coefficients
and dt = 1/60. -/
theorem C25_repulsion_impulse_witness :
    axisLength ((nodeOnAxis 3 false).position.sub (nodeOnAxis 0 false).position) = 3 ∧
    (3 : Rat) * 3 = Vec3.dot ((nodeOnAxis 3 false).position.sub (nodeOnAxis 0 false).position)
      ((nodeOnAxis 3 false).position.sub (nodeOnAxis 0 false).position) ∧
    ∃ f : Vec3, repulsionForce {} axisLength (1/60) (nodeOnAxis 3 false) (nodeOnAxis 0 false)
        = some f ∧
      Vec3.dot f f = claimedImpulse 20 ((1 + 1) / 2) (1/60) 3 ^ 2 :=
  ⟨by norm_num [axisLength, nodeOnAxis, Graph.newNode, Vec3.sub],
    by norm_num [nodeOnAxis, Graph.newNode, Vec3.sub, Vec3.dot],
    ((C25_repulsion_impulse {} axisLength (1/60) 3 (nodeOnAxis 3 false) (nodeOnAxis 0 false)
      (by norm_num) (by norm_num) (by norm_num [nodeOnAxis]) (by norm_num [nodeOnAxis])
      (by norm_num [axisLength, nodeOnAxis, Graph.newNode, Vec3.sub])
      (by norm_num [nodeOnAxis, Graph.newNode, Vec3.sub, Vec3.dot])).2.1 (by norm_num)).imp
      fun _ h => ⟨h.1, h.2.1 (by norm_num)⟩⟩

/-! ### The layout step keeps edge endpoints in range -/

theorem length_foldl_of_step {β : Type} (f : List Node → β → List Node)
    (hf : ∀ l b, (f l b).length = l.length) (bs : List β) :
    ∀ l, (bs.foldl f l).length = l.length := by
  induction bs with
  | nil => exact fun _ => rfl
  | cons b rest ih => exact fun l => (ih (f l b)).trans (hf l b)

theorem length_velocity_step (nodes nodes1 : List Node) (c : Bool) (g : Node → Node)
    (j : Nat) (h1 : nodes1.length = nodes.length) :
    (if c then nodes1 else List.modify g j nodes1).length = nodes.length := by
  split_ifs
  · exact h1
  · rw [List.length_modify, h1]

theorem length_repelPair (P : Physics) (len : Vec3 → Rat) (dt : Rat) (nodes : List Node)
    (i j : Nat) : (repelPair P len dt nodes i j).length = nodes.length := by
  unfold repelPair
  cases nodes[i]? with
  | none => rfl
  | some a =>
    cases nodes[j]? with
    | none => rfl
    | some b =>
      cases hf : repulsionForce P len dt a b with
      | none => simp only [hf]
      | some force =>
        simp only [hf]
        exact length_velocity_step nodes _ _ _ j (length_velocity_step nodes nodes _ _ i rfl)

theorem length_springEdge (P : Physics) (len : Vec3 → Rat) (dt : Rat) (nodes : List Node)
    (edge : Edge) : (springEdge P len dt nodes edge).length = nodes.length := by
  unfold springEdge
  split_ifs
  · rfl
  · rfl
  · cases nodes[edge.from_.toNat]? with
    | none => rfl
    | some a =>
      cases nodes[edge.to_.toNat]? with
      | none => rfl
      | some b =>
        cases hf : springForce P len dt a b edge with
        | none => simp only [hf]
        | some force =>
          simp only [hf]
          exact length_velocity_step nodes _ _ _ _ (length_velocity_step nodes nodes _ _ _ rfl)

theorem length_repulsionPhase (P : Physics) (len : Vec3 → Rat) (dt : Rat)
    (nodes : List Node) : (repulsionPhase P len dt nodes).length = nodes.length := by
  unfold repulsionPhase
  apply length_foldl_of_step
  intro l i
  apply length_foldl_of_step
  intro l1 j
  exact length_repelPair P len dt l1 i j

theorem edgesInRange_update (P : Physics) (len : Vec3 → Rat) (graph : Graph) (dt : Rat)
    (h : EdgesInRange graph) : EdgesInRange (P.update len graph dt) := by
  have hlen : (P.update len graph dt).nodes.length = graph.nodes.length := by
    unfold Physics.update
    simp only [List.length_map]
    rw [length_foldl_of_step _ (fun l e => length_springEdge P len dt l e),
      length_repulsionPhase]
  intro e he
  rw [hlen]
  exact h e he

end Constellarix
